import Mathlib

/-!
# Verification of the Pixel-Unwrapper core algorithms

This file gives a shallow embedding, in Lean 4, of the core algorithms of the
Pixel-Unwrapper UV toolkit (geometry primitives, the FFDH shelf packer, the
island merger, the free-space finder, the pixel-region transform and the grid
builder/fold), together with theorems settling the specification claims.

Python integers are modelled as `Int` (`Nat` for indices), Python floats as
`ℚ` (the code only ever does field operations and comparisons on them), Python
lists as `List`, Python dictionaries keyed by face index as functions
`Nat → Option _` plus an explicit key list, and Python exceptions as explicit
error values (`Option`/`Except`).  `sorted`/`list.sort` (stable sorts) are
modelled by `List.insertionSort`, which is also stable, hence extensionally
identical on every input.  Recursions whose depth is bounded (the packer's
doubling loop, the grid walk) take explicit fuel chosen large enough to cover
every terminating run of the Python original; the choice is justified where
the fuel appears.
-/

namespace PixelUnwrapper

/-- `Vector2Int` from `common.py`: an immutable integer 2D point. -/
structure Vector2Int where
  x : Int
  y : Int
deriving DecidableEq

/-- `Vector2Int.__add__` (the vector-vector case used by the core). -/
instance : Add Vector2Int := ⟨fun a b => ⟨a.x + b.x, a.y + b.y⟩⟩

/-- `Vector2Int.__sub__` (the vector-vector case). -/
instance : Sub Vector2Int := ⟨fun a b => ⟨a.x - b.x, a.y - b.y⟩⟩

@[simp] theorem Vector2Int.add_def (a b : Vector2Int) : a + b = ⟨a.x + b.x, a.y + b.y⟩ := rfl

@[simp] theorem Vector2Int.sub_def (a b : Vector2Int) : a - b = ⟨a.x - b.x, a.y - b.y⟩ := rfl

/-- `RectInt` from `common.py`: an axis-aligned integer rectangle given by its
`min` and (exclusive) `max` corners. -/
structure RectInt where
  min : Vector2Int
  max : Vector2Int
deriving DecidableEq

/-- `RectInt.size`. -/
def RectInt.size (r : RectInt) : Vector2Int := r.max - r.min

/-- `RectInt.overlaps(other_min, other_size)` from `common.py` (strict
rectangle-overlap test; touching edges do not overlap). -/
def RectInt.overlaps (self : RectInt) (otherMin otherSize : Vector2Int) : Bool :=
  let otherMax := otherMin + otherSize
  !(otherMin.x ≥ self.max.x || self.min.x ≥ otherMax.x
      || otherMin.y ≥ self.max.y || self.min.y ≥ otherMax.y)

/-- `RectInt.contains(other_min, other_size)` from `common.py`. -/
def RectInt.contains (self : RectInt) (otherMin otherSize : Vector2Int) : Bool :=
  let otherMax := otherMin + otherSize
  otherMin.x ≥ self.min.x && otherMax.x ≤ self.max.x
    && otherMin.y ≥ self.min.y && otherMax.y ≤ self.max.y

/-! ## The FFDH shelf packer (`packing.py`)

Rectangle sizes are pairs `(width, height) : Int × Int`, as in the source
(`rect[0]` is the width, `rect[1]` the height). -/

/-- `BoxPackingStrip` from `packing.py`: a shelf at height `y` with fixed
`height` and a running `filled` counter (initialised to `-1` on creation). -/
structure BoxPackingStrip where
  y : Int
  height : Int
  filled : Int
deriving DecidableEq

/-- `BoxPackingStrip.fits_rect` from `packing.py`: note the strict `<` on the
width test, applied to the `filled` counter (which starts at `-1`). -/
def BoxPackingStrip.fitsRect (s : BoxPackingStrip) (rect : Int × Int) (spaceSize : Int) : Bool :=
  rect.2 ≤ s.height && rect.1 < spaceSize - s.filled

/-- The body of the packer's placement step on existing shelves: find the first
level where the rect fits (`next(filter(...))`), add the rect to it, and return
the updated levels together with the rect's position
`(level.filled + 1, level.y)`.  Returns `none` when no existing level fits. -/
def placeOnFirstStrip (levels : List BoxPackingStrip) (rect : Int × Int) (spaceSize : Int) :
    Option (List BoxPackingStrip × (Int × Int)) :=
  match levels with
  | [] => none
  | s :: rest =>
    if s.fitsRect rect spaceSize then
      some (⟨s.y, s.height, s.filled + rect.1⟩ :: rest, (s.filled + 1, s.y))
    else
      match placeOnFirstStrip rest rect spaceSize with
      | none => none
      | some (rest', pos) => some (s :: rest', pos)

/-- The `y` at which `pack_rects` opens a new level:
`0 if not levels else levels[-1].y + levels[-1].height`. -/
def newStripY (levels : List BoxPackingStrip) : Int :=
  match levels.getLast? with
  | none => 0
  | some last => last.y + last.height

/-- One pass of the `for idx, rect in rects` loop of `pack_rects` at a fixed
space size.  `none` models the `break` taken when a new level would exceed the
vertical space (the pass is then restarted at a doubled size).  The positions
are accumulated in reverse and restored to append order at the end. -/
def packPass (spaceSize : Int) :
    List (Nat × (Int × Int)) → List BoxPackingStrip → List (Nat × (Int × Int)) →
      Option (List (Nat × (Int × Int)))
  | [], _, acc => some acc.reverse
  | (idx, rect) :: rest, levels, acc =>
    match placeOnFirstStrip levels rect spaceSize with
    | some (levels', pos) => packPass spaceSize rest levels' ((idx, pos) :: acc)
    | none =>
      let y := newStripY levels
      let height := rect.2
      if y + height > spaceSize then
        none
      else
        -- a fresh level has `filled = -1`; the rect is then placed on it at
        -- `(filled + 1, y) = (0, y)` and `filled` becomes `rect.width - 1`
        packPass spaceSize rest (levels ++ [⟨y, height, -1 + rect.1⟩]) ((idx, (0, y)) :: acc)

/-- The `while len(output_positions) < len(rects)` loop of `pack_rects`: run a
pass, and on failure double the space size and retry.  The Python loop has no
fuel; the fuel below only bounds the number of size doublings, and `packRects`
passes enough fuel to cover every terminating run (see there). -/
def packLoop (rects : List (Nat × (Int × Int))) : Int → Nat → Option (List (Nat × (Int × Int)) × Int)
  | _, 0 => none
  | spaceSize, fuel + 1 =>
    match packPass spaceSize rects [] [] with
    | some out => some (out, spaceSize)
    | none => packLoop rects (spaceSize * 2) fuel

/-- Height-descending comparison used by `sorted(rects, key=lambda p: p[1][1],
reverse=True)`.  Python's `sorted` is stable, and `reverse=True` keeps ties in
input order, which is exactly a stable sort under this relation. -/
def heightGe (a b : Nat × (Int × Int)) : Prop := b.2.2 ≤ a.2.2

instance : DecidableRel heightGe := fun a b => inferInstanceAs (Decidable (b.2.2 ≤ a.2.2))

/-- Lexicographic order on `(idx, (x, y))` triples used by the final
`sorted(output_positions)` (Python tuple comparison). -/
def idxPosLe (a b : Nat × (Int × Int)) : Prop :=
  a.1 < b.1 ∨ (a.1 = b.1 ∧ (a.2.1 < b.2.1 ∨ (a.2.1 = b.2.1 ∧ a.2.2 ≤ b.2.2)))

instance : DecidableRel idxPosLe := fun _ _ => by unfold idxPosLe; infer_instance

/-- `pack_rects(rect_sizes, initial_space_size)` from `packing.py`.

The result is `none` when the Python loop makes more size doublings than the
fuel allows: the fuel `Σ |height| + 1` always suffices for the runs the claims
are about (positive sizes, positive initial size: then a pass at any space
size `≥ Σ height` succeeds, and doubling from `initial ≥ 1` reaches
`Σ height` within `Σ height` steps since `2 ^ s ≥ s`). -/
def packRects (rectSizes : List (Int × Int)) (initialSpaceSize : Int) :
    Option (List (Int × Int) × Int) :=
  let rects := rectSizes.enum
  let sorted := rects.insertionSort heightGe
  let fuel := (rectSizes.foldl (fun a r => a + r.2.natAbs) 0) + 1
  match packLoop sorted initialSpaceSize fuel with
  | none => none
  | some (out, spaceSize) =>
    some ((out.insertionSort idxPosLe).map (·.2), spaceSize)

/-! ### Packing invariants (claims C1 and C3)

`StripChain spaceSize y0 levels` is the shelf invariant maintained by
`pack_rects` at space `spaceSize`: consecutive shelves starting at `y0`, each
with positive height, fitting vertically, with `filled` in
`[-1, spaceSize - 1]`. -/

def StripChain (spaceSize : Int) : Int → List BoxPackingStrip → Prop
  | _, [] => True
  | y0, s :: rest => s.y = y0 ∧ 1 ≤ s.height ∧ 0 ≤ s.y ∧ s.y + s.height ≤ spaceSize ∧
      -1 ≤ s.filled ∧ s.filled + 1 ≤ spaceSize ∧ StripChain spaceSize (y0 + s.height) rest

def sumHeights (levels : List BoxPackingStrip) : Int := (levels.map (·.height)).sum

theorem sumHeights_nil : sumHeights [] = 0 := rfl

theorem sumHeights_cons (s : BoxPackingStrip) (l : List BoxPackingStrip) :
    sumHeights (s :: l) = s.height + sumHeights l := by
  simp [sumHeights]

theorem stripChain_newStripY (spaceSize : Int) :
    ∀ (levels : List BoxPackingStrip) (y0 : Int), StripChain spaceSize y0 levels →
      (match levels.getLast? with
       | none => y0
       | some last => last.y + last.height) = y0 + sumHeights levels := by
  intro levels
  induction levels with
  | nil => intro y0 _; simp [sumHeights]
  | cons s rest ih =>
    intro y0 hc
    obtain ⟨hy, hh, hy0, hys, hf1, hf2, hrest⟩ := hc
    cases rest with
    | nil =>
      simp [List.getLast?, sumHeights, hy]
    | cons t rest2 =>
      have hrec := ih (y0 + s.height) hrest
      rw [List.getLast?_cons_cons]
      cases hl : (t :: rest2).getLast? with
      | none => simp at hl
      | some last =>
        rw [hl] at hrec
        simp only at hrec
        simp only [hrec, sumHeights_cons]
        ring

theorem newStripY_of_chain (spaceSize : Int) (levels : List BoxPackingStrip)
    (h : StripChain spaceSize 0 levels) : newStripY levels = sumHeights levels := by
  have h2 := stripChain_newStripY spaceSize levels 0 h
  rw [zero_add] at h2
  exact h2

theorem newStripY_concat (levels : List BoxPackingStrip) (s : BoxPackingStrip) :
    newStripY (levels ++ [s]) = s.y + s.height := by
  rw [newStripY, List.getLast?_concat]

theorem stripChain_sumHeights_nonneg (spaceSize : Int) :
    ∀ (levels : List BoxPackingStrip) (y0 : Int), StripChain spaceSize y0 levels →
      0 ≤ sumHeights levels := by
  intro levels
  induction levels with
  | nil => intro y0 _; simp [sumHeights]
  | cons t rest ih =>
    intro y0 hc
    obtain ⟨_, hh, _, _, _, _, hrest⟩ := hc
    have := ih (y0 + t.height) hrest
    rw [sumHeights_cons]
    omega

theorem stripChain_mem (spaceSize : Int) :
    ∀ (levels : List BoxPackingStrip) (y0 : Int), StripChain spaceSize y0 levels →
      ∀ s ∈ levels, y0 ≤ s.y ∧ 1 ≤ s.height ∧ 0 ≤ s.y ∧ s.y + s.height ≤ spaceSize ∧
        -1 ≤ s.filled ∧ s.filled + 1 ≤ spaceSize ∧ s.y + s.height ≤ y0 + sumHeights levels := by
  intro levels
  induction levels with
  | nil => intro y0 _ s hs; exact absurd hs (List.not_mem_nil s)
  | cons t rest ih =>
    intro y0 hc s hs
    obtain ⟨hy, hh, hy0, hys, hf1, hf2, hrest⟩ := hc
    have hrs := stripChain_sumHeights_nonneg spaceSize rest (y0 + t.height) hrest
    rw [sumHeights_cons]
    rcases List.mem_cons.mp hs with rfl | hs2
    · refine ⟨le_of_eq hy.symm, hh, hy0, hys, hf1, hf2, ?_⟩
      omega
    · obtain ⟨ha, hb, hcc, hd, he, hf, hg⟩ := ih (y0 + t.height) hrest s hs2
      refine ⟨by omega, hb, hcc, hd, he, hf, by omega⟩

theorem stripChain_pairwise (spaceSize : Int) :
    ∀ (levels : List BoxPackingStrip) (y0 : Int), StripChain spaceSize y0 levels →
      levels.Pairwise (fun s t => s.y + s.height ≤ t.y) := by
  intro levels
  induction levels with
  | nil => intro y0 _; exact List.Pairwise.nil
  | cons t rest ih =>
    intro y0 hc
    obtain ⟨hy, hh, hy0, hys, hf1, hf2, hrest⟩ := hc
    refine List.Pairwise.cons ?_ (ih (y0 + t.height) hrest)
    intro s hs
    have := (stripChain_mem spaceSize rest (y0 + t.height) hrest s hs).1
    omega

theorem placeOnFirstStrip_some (rect : Int × Int) (spaceSize : Int) :
    ∀ (levels levels' : List BoxPackingStrip) (pos : Int × Int),
      placeOnFirstStrip levels rect spaceSize = some (levels', pos) →
      ∃ pre s suf, levels = pre ++ s :: suf ∧ s.fitsRect rect spaceSize = true ∧
        levels' = pre ++ (⟨s.y, s.height, s.filled + rect.1⟩ : BoxPackingStrip) :: suf ∧
        pos = (s.filled + 1, s.y) := by
  intro levels
  induction levels with
  | nil => intro levels' pos h; simp [placeOnFirstStrip] at h
  | cons s rest ih =>
    intro levels' pos h
    rw [placeOnFirstStrip] at h
    by_cases hfit : s.fitsRect rect spaceSize
    · rw [if_pos hfit] at h
      obtain ⟨h1, h2⟩ := Prod.mk.injEq _ _ _ _ ▸ Option.some.injEq _ _ ▸ h
      exact ⟨[], s, rest, rfl, hfit, by simp [← h1], h2.symm⟩
    · rw [if_neg hfit] at h
      cases hrec : placeOnFirstStrip rest rect spaceSize with
      | none => rw [hrec] at h; exact absurd h (by simp)
      | some val =>
        rw [hrec] at h
        obtain ⟨rest', pos'⟩ := val
        obtain ⟨pre, t, suf, hdec, hfit2, hlev, hpos⟩ := ih rest' pos' hrec
        have h1 : levels' = s :: rest' ∧ pos = pos' := by
          constructor
          · exact congrArg Prod.fst (Option.some.injEq _ _ ▸ h).symm
          · exact congrArg Prod.snd (Option.some.injEq _ _ ▸ h).symm
        refine ⟨s :: pre, t, suf, by rw [hdec]; rfl, hfit2, ?_, by rw [h1.2, hpos]⟩
        rw [h1.1, hlev]
        rfl

theorem placeOnFirstStrip_none (rect : Int × Int) (spaceSize : Int) :
    ∀ (levels : List BoxPackingStrip),
      placeOnFirstStrip levels rect spaceSize = none →
      ∀ s ∈ levels, s.fitsRect rect spaceSize = false := by
  intro levels
  induction levels with
  | nil => intro _ s hs; exact absurd hs (List.not_mem_nil s)
  | cons s rest ih =>
    intro h t ht
    rw [placeOnFirstStrip] at h
    by_cases hfit : s.fitsRect rect spaceSize
    · rw [if_pos hfit] at h; exact absurd h (by simp)
    · rw [if_neg hfit] at h
      rcases List.mem_cons.mp ht with rfl | ht2
      · exact Bool.eq_false_iff.mpr hfit
      · cases hrec : placeOnFirstStrip rest rect spaceSize with
        | none => exact ih hrec t ht2
        | some val => rw [hrec] at h; exact absurd h (by simp)

theorem stripChain_update (spaceSize : Int) (rect : Int × Int) (hw : 0 ≤ rect.1) :
    ∀ (pre : List BoxPackingStrip) (s : BoxPackingStrip) (suf : List BoxPackingStrip) (y0 : Int),
      StripChain spaceSize y0 (pre ++ s :: suf) →
      s.fitsRect rect spaceSize = true →
      StripChain spaceSize y0 (pre ++ (⟨s.y, s.height, s.filled + rect.1⟩ : BoxPackingStrip) :: suf) := by
  intro pre
  induction pre with
  | nil =>
    intro s suf y0 hc hfit
    obtain ⟨hy, hh, hy0, hys, hf1, hf2, hrest⟩ := hc
    have hfit2 := hfit
    rw [BoxPackingStrip.fitsRect] at hfit2
    simp only [Bool.and_eq_true, decide_eq_true_eq] at hfit2
    refine ⟨hy, hh, hy0, hys, ?_, ?_, hrest⟩
    · show -1 ≤ s.filled + rect.1
      omega
    · show s.filled + rect.1 + 1 ≤ spaceSize
      omega
  | cons u pre2 ih =>
    intro s suf y0 hc hfit
    obtain ⟨hy, hh, hy0, hys, hf1, hf2, hrest⟩ := hc
    exact ⟨hy, hh, hy0, hys, hf1, hf2, ih s suf (y0 + u.height) hrest hfit⟩

theorem stripChain_concat (spaceSize : Int) (t : BoxPackingStrip) :
    ∀ (levels : List BoxPackingStrip) (y0 : Int),
      StripChain spaceSize y0 levels →
      0 ≤ y0 →
      t.y = y0 + sumHeights levels →
      1 ≤ t.height → t.y + t.height ≤ spaceSize → -1 ≤ t.filled → t.filled + 1 ≤ spaceSize →
      StripChain spaceSize y0 (levels ++ [t]) := by
  intro levels
  induction levels with
  | nil =>
    intro y0 _ h0 hty hth hts htf1 htf2
    rw [sumHeights_nil, add_zero] at hty
    exact ⟨hty, hth, by omega, hts, htf1, htf2, trivial⟩
  | cons u rest ih =>
    intro y0 hc h0 hty hth hts htf1 htf2
    obtain ⟨hy, hh, hy0, hys, hf1, hf2, hrest⟩ := hc
    refine ⟨hy, hh, hy0, hys, hf1, hf2, ?_⟩
    refine ih (y0 + u.height) hrest (by omega) ?_ hth hts htf1 htf2
    rw [hty, sumHeights_cons]
    ring

def rectDisjoint (p1 s1 p2 s2 : Int × Int) : Prop :=
  p1.1 + s1.1 ≤ p2.1 ∨ p2.1 + s2.1 ≤ p1.1 ∨ p1.2 + s1.2 ≤ p2.2 ∨ p2.2 + s2.2 ≤ p1.2

def entryDisjoint (sizes : List (Int × Int)) (e1 e2 : ℕ × (Int × Int)) : Prop :=
  rectDisjoint e1.2 (sizes.getD e1.1 (0, 0)) e2.2 (sizes.getD e2.1 (0, 0))

theorem entryDisjoint_symm (sizes : List (Int × Int)) {e1 e2 : ℕ × (Int × Int)}
    (h : entryDisjoint sizes e1 e2) : entryDisjoint sizes e2 e1 := by
  rw [entryDisjoint, rectDisjoint] at h ⊢
  tauto

def entryInBounds (sizes : List (Int × Int)) (spaceSize : Int) (e : ℕ × (Int × Int)) : Prop :=
  0 ≤ e.2.1 ∧ e.2.1 + (sizes.getD e.1 (0, 0)).1 ≤ spaceSize ∧
    0 ≤ e.2.2 ∧ e.2.2 + (sizes.getD e.1 (0, 0)).2 ≤ spaceSize

def placedOk (sizes : List (Int × Int)) (levels : List BoxPackingStrip)
    (e : ℕ × (Int × Int)) : Prop :=
  ∃ s ∈ levels, e.2.2 = s.y ∧ 0 ≤ e.2.1 ∧
    e.2.1 + (sizes.getD e.1 (0, 0)).1 ≤ s.filled + 1 ∧ (sizes.getD e.1 (0, 0)).2 ≤ s.height

theorem placedOk_bounds (sizes : List (Int × Int)) (spaceSize : Int)
    (levels : List BoxPackingStrip) (e : ℕ × (Int × Int))
    (hc : StripChain spaceSize 0 levels) (hp : placedOk sizes levels e) :
    entryInBounds sizes spaceSize e := by
  obtain ⟨s, hs, hey, hex, hexw, heh⟩ := hp
  obtain ⟨h1, h2, h3, h4, h5, h6, h7⟩ := stripChain_mem spaceSize levels 0 hc s hs
  exact ⟨hex, by omega, by omega, by omega⟩

theorem placedOk_update (sizes : List (Int × Int)) (rect : Int × Int) (hw : 0 ≤ rect.1)
    (pre : List BoxPackingStrip) (s : BoxPackingStrip) (suf : List BoxPackingStrip)
    (e : ℕ × (Int × Int)) (hp : placedOk sizes (pre ++ s :: suf) e) :
    placedOk sizes (pre ++ (⟨s.y, s.height, s.filled + rect.1⟩ : BoxPackingStrip) :: suf) e := by
  obtain ⟨t, ht, hey, hex, hexw, heh⟩ := hp
  rcases List.mem_append.mp ht with htp | hts
  · exact ⟨t, List.mem_append_left _ htp, hey, hex, hexw, heh⟩
  · rcases List.mem_cons.mp hts with rfl | hts2
    · refine ⟨⟨t.y, t.height, t.filled + rect.1⟩,
        List.mem_append_right _ (List.mem_cons_self _ _), hey, hex, ?_, heh⟩
      show e.2.1 + (sizes.getD e.1 (0, 0)).1 ≤ t.filled + rect.1 + 1
      omega
    · exact ⟨t, List.mem_append_right _ (List.mem_cons_of_mem _ hts2), hey, hex, hexw, heh⟩

theorem placedOk_concat (sizes : List (Int × Int)) (levels : List BoxPackingStrip)
    (t : BoxPackingStrip) (e : ℕ × (Int × Int)) (hp : placedOk sizes levels e) :
    placedOk sizes (levels ++ [t]) e := by
  obtain ⟨s, hs, h⟩ := hp
  exact ⟨s, List.mem_append_left _ hs, h⟩

theorem disjoint_update (sizes : List (Int × Int)) (spaceSize : Int)
    (pre : List BoxPackingStrip) (s : BoxPackingStrip) (suf : List BoxPackingStrip) (y0 : Int)
    (hc : StripChain spaceSize y0 (pre ++ s :: suf))
    (idx : ℕ) (rect : Int × Int) (hsz : sizes.getD idx (0, 0) = rect)
    (hfit : s.fitsRect rect spaceSize = true)
    (e : ℕ × (Int × Int)) (hp : placedOk sizes (pre ++ s :: suf) e) :
    entryDisjoint sizes e (idx, (s.filled + 1, s.y)) := by
  obtain ⟨t, ht, hey, hex, hexw, heh⟩ := hp
  rw [BoxPackingStrip.fitsRect] at hfit
  simp only [Bool.and_eq_true, decide_eq_true_eq] at hfit
  have hpw := stripChain_pairwise spaceSize _ y0 hc
  rw [List.pairwise_append] at hpw
  rw [entryDisjoint, rectDisjoint, hsz]
  rcases List.mem_append.mp ht with htp | hts
  · -- t lies strictly below s
    have hrel := hpw.2.2 t htp s (List.mem_cons_self _ _)
    right; right; left
    simp only
    omega
  · rcases List.mem_cons.mp hts with rfl | hts2
    · -- same strip: e ends at or before filled + 1
      left
      simp only
      omega
    · -- t lies strictly above s
      have hrel := List.rel_of_pairwise_cons hpw.2.1 hts2
      have hmem := stripChain_mem spaceSize (pre ++ s :: suf) y0 hc t
        (List.mem_append_right _ (List.mem_cons_of_mem _ hts2))
      right; right; right
      simp only
      omega

theorem disjoint_concat (sizes : List (Int × Int)) (spaceSize : Int)
    (levels : List BoxPackingStrip)
    (hc : StripChain spaceSize 0 levels)
    (idx : ℕ) (e : ℕ × (Int × Int)) (hp : placedOk sizes levels e) :
    entryDisjoint sizes e (idx, (0, sumHeights levels)) := by
  obtain ⟨t, ht, hey, hex, hexw, heh⟩ := hp
  have hmem := stripChain_mem spaceSize levels 0 hc t ht
  rw [entryDisjoint, rectDisjoint]
  right; right; left
  simp only
  omega

theorem packPass_correct (sizes : List (Int × Int)) (spaceSize : Int) :
    ∀ (todo : List (ℕ × (Int × Int))) (levels : List BoxPackingStrip)
      (acc out : List (ℕ × (Int × Int))),
      (∀ e ∈ todo, e.1 < sizes.length ∧ sizes.getD e.1 (0, 0) = e.2 ∧
        1 ≤ e.2.1 ∧ e.2.1 ≤ spaceSize ∧ 1 ≤ e.2.2) →
      StripChain spaceSize 0 levels →
      (∀ e ∈ acc, e.1 < sizes.length ∧ placedOk sizes levels e) →
      acc.Pairwise (entryDisjoint sizes) →
      packPass spaceSize todo levels acc = some out →
      out.map Prod.fst = acc.reverse.map Prod.fst ++ todo.map Prod.fst ∧
      (∀ e ∈ out, e.1 < sizes.length ∧ entryInBounds sizes spaceSize e) ∧
      out.Pairwise (entryDisjoint sizes) := by
  intro todo
  induction todo with
  | nil =>
    intro levels acc out htodo hchain hacc hpw hsome
    rw [packPass] at hsome
    have hout : out = acc.reverse := (Option.some.injEq _ _ ▸ hsome).symm
    subst hout
    refine ⟨by simp, ?_, ?_⟩
    · intro e he
      have he2 := List.mem_reverse.mp he
      exact ⟨(hacc e he2).1, placedOk_bounds sizes spaceSize levels e hchain (hacc e he2).2⟩
    · rw [List.pairwise_reverse]
      exact hpw.imp (fun h => entryDisjoint_symm sizes h)
  | cons hd rest ih =>
    obtain ⟨idx, rect⟩ := hd
    intro levels acc out htodo hchain hacc hpw hsome
    have hhd := htodo (idx, rect) (List.mem_cons_self _ _)
    simp only at hhd
    obtain ⟨hidx, hsz, hw1, hwle, hh1⟩ := hhd
    have htodo' : ∀ e ∈ rest, e.1 < sizes.length ∧ sizes.getD e.1 (0, 0) = e.2 ∧
        1 ≤ e.2.1 ∧ e.2.1 ≤ spaceSize ∧ 1 ≤ e.2.2 :=
      fun e he => htodo e (List.mem_cons_of_mem _ he)
    rw [packPass] at hsome
    cases hpl : placeOnFirstStrip levels rect spaceSize with
    | some val =>
      obtain ⟨levels', pos⟩ := val
      rw [hpl] at hsome
      obtain ⟨pre, s, suf, hdec, hfit, hlev, hpos⟩ :=
        placeOnFirstStrip_some rect spaceSize levels levels' pos hpl
      subst hdec
      have hsmem := stripChain_mem spaceSize _ 0 hchain s
        (List.mem_append_right _ (List.mem_cons_self _ _))
      have hchain' : StripChain spaceSize 0 levels' := by
        rw [hlev]
        exact stripChain_update spaceSize rect (by omega) pre s suf 0 hchain hfit
      have hfitu := hfit
      rw [BoxPackingStrip.fitsRect] at hfitu
      simp only [Bool.and_eq_true, decide_eq_true_eq] at hfitu
      have hacc' : ∀ e ∈ (idx, pos) :: acc, e.1 < sizes.length ∧ placedOk sizes levels' e := by
        intro e he
        rcases List.mem_cons.mp he with rfl | he2
        · refine ⟨hidx, ?_⟩
          rw [hlev, hpos]
          refine ⟨⟨s.y, s.height, s.filled + rect.1⟩,
            List.mem_append_right _ (List.mem_cons_self _ _), rfl, ?_, ?_, ?_⟩
          · show 0 ≤ s.filled + 1
            omega
          · show s.filled + 1 + (sizes.getD idx (0, 0)).1 ≤ s.filled + rect.1 + 1
            rw [hsz]
            omega
          · show (sizes.getD idx (0, 0)).2 ≤ s.height
            rw [hsz]
            omega
        · exact ⟨(hacc e he2).1, by
            rw [hlev]
            exact placedOk_update sizes rect (by omega) pre s suf e (hacc e he2).2⟩
      have hpw' : ((idx, pos) :: acc).Pairwise (entryDisjoint sizes) := by
        refine List.Pairwise.cons ?_ hpw
        intro e he
        rw [hpos]
        exact entryDisjoint_symm sizes
          (disjoint_update sizes spaceSize pre s suf 0 hchain idx rect hsz hfit e (hacc e he).2)
      obtain ⟨hmap, hbnd, hpw2⟩ := ih levels' ((idx, pos) :: acc) out htodo' hchain' hacc' hpw' hsome
      refine ⟨?_, hbnd, hpw2⟩
      rw [hmap]
      simp
    | none =>
      rw [hpl] at hsome
      simp only at hsome
      by_cases hov : newStripY levels + rect.2 > spaceSize
      · rw [if_pos hov] at hsome
        exact absurd hsome (by simp)
      · rw [if_neg hov] at hsome
        have hy := newStripY_of_chain spaceSize levels hchain
        have hsum0 := stripChain_sumHeights_nonneg spaceSize levels 0 hchain
        have hchain' : StripChain spaceSize 0
            (levels ++ [⟨newStripY levels, rect.2, -1 + rect.1⟩]) := by
          refine stripChain_concat spaceSize _ levels 0 hchain le_rfl ?_ ?_ ?_ ?_ ?_
          · show newStripY levels = 0 + sumHeights levels
            omega
          · exact hh1
          · show newStripY levels + rect.2 ≤ spaceSize
            omega
          · show -1 ≤ -1 + rect.1
            omega
          · show -1 + rect.1 + 1 ≤ spaceSize
            omega
        have hacc' : ∀ e ∈ (idx, (0, newStripY levels)) :: acc,
            e.1 < sizes.length ∧
              placedOk sizes (levels ++ [⟨newStripY levels, rect.2, -1 + rect.1⟩]) e := by
          intro e he
          rcases List.mem_cons.mp he with rfl | he2
          · refine ⟨hidx, ⟨⟨newStripY levels, rect.2, -1 + rect.1⟩,
              List.mem_append_right _ (List.mem_cons_self _ _), rfl, le_rfl, ?_, ?_⟩⟩
            · show 0 + (sizes.getD idx (0, 0)).1 ≤ -1 + rect.1 + 1
              rw [hsz]
              omega
            · show (sizes.getD idx (0, 0)).2 ≤ rect.2
              rw [hsz]
          · exact ⟨(hacc e he2).1, placedOk_concat sizes levels _ e (hacc e he2).2⟩
        have hpw' : ((idx, (0, newStripY levels)) :: acc).Pairwise (entryDisjoint sizes) := by
          refine List.Pairwise.cons ?_ hpw
          intro e he
          have := disjoint_concat sizes spaceSize levels hchain idx e (hacc e he).2
          rw [← hy] at this
          exact entryDisjoint_symm sizes this
        obtain ⟨hmap, hbnd, hpw2⟩ :=
          ih (levels ++ [⟨newStripY levels, rect.2, -1 + rect.1⟩])
            ((idx, (0, newStripY levels)) :: acc) out htodo' hchain' hacc' hpw' hsome
        refine ⟨?_, hbnd, hpw2⟩
        rw [hmap]
        simp

theorem newStripY_update (pre suf : List BoxPackingStrip) (s : BoxPackingStrip) (f : Int) :
    newStripY (pre ++ (⟨s.y, s.height, f⟩ : BoxPackingStrip) :: suf) =
      newStripY (pre ++ s :: suf) := by
  rw [newStripY, newStripY, List.getLast?_append, List.getLast?_append]
  cases suf with
  | nil => rfl
  | cons u suf2 =>
    rw [List.getLast?_cons_cons, List.getLast?_cons_cons]

theorem packPass_isSome (spaceSize : Int) :
    ∀ (todo : List (ℕ × (Int × Int))) (levels : List BoxPackingStrip)
      (acc : List (ℕ × (Int × Int))),
      (∀ e ∈ todo, 0 ≤ e.2.2) →
      newStripY levels + (todo.map (fun e => e.2.2)).sum ≤ spaceSize →
      (packPass spaceSize todo levels acc).isSome := by
  intro todo
  induction todo with
  | nil =>
    intro levels acc _ _
    rw [packPass]
    rfl
  | cons hd rest ih =>
    obtain ⟨idx, rect⟩ := hd
    intro levels acc hnn hbudget
    have hh0 : 0 ≤ rect.2 := hnn (idx, rect) (List.mem_cons_self _ _)
    have hrestnn : ∀ e ∈ rest, 0 ≤ e.2.2 := fun e he => hnn e (List.mem_cons_of_mem _ he)
    have hsumrest : 0 ≤ (rest.map (fun e => e.2.2)).sum :=
      List.sum_nonneg (by
        intro x hx
        obtain ⟨e, he, rfl⟩ := List.mem_map.mp hx
        exact hrestnn e he)
    rw [List.map_cons, List.sum_cons] at hbudget
    have hbudget2 : newStripY levels + (rect.2 + (rest.map (fun e => e.2.2)).sum) ≤ spaceSize :=
      hbudget
    clear hbudget
    rw [packPass]
    cases hpl : placeOnFirstStrip levels rect spaceSize with
    | some val =>
      obtain ⟨levels', pos⟩ := val
      obtain ⟨pre, s, suf, hdec, hfit, hlev, hpos⟩ :=
        placeOnFirstStrip_some rect spaceSize levels levels' pos hpl
      refine ih levels' ((idx, pos) :: acc) hrestnn ?_
      rw [hdec] at hbudget2
      rw [hlev, newStripY_update]
      omega
    | none =>
      have hov : ¬ (newStripY levels + rect.2 > spaceSize) := by omega
      rw [if_neg hov]
      refine ih _ ((idx, (0, newStripY levels)) :: acc) hrestnn ?_
      rw [newStripY_concat]
      show newStripY levels + rect.2 + (rest.map (fun e => e.2.2)).sum ≤ spaceSize
      omega

theorem packLoop_correct (sizes : List (Int × Int)) (rects : List (ℕ × (Int × Int))) :
    ∀ (fuel : ℕ) (spaceSize : Int) (out : List (ℕ × (Int × Int))) (finalSpace : Int),
      1 ≤ spaceSize →
      (∀ e ∈ rects, e.1 < sizes.length ∧ sizes.getD e.1 (0, 0) = e.2 ∧
        1 ≤ e.2.1 ∧ e.2.1 ≤ spaceSize ∧ 1 ≤ e.2.2) →
      packLoop rects spaceSize fuel = some (out, finalSpace) →
      out.map Prod.fst = rects.map Prod.fst ∧ 1 ≤ finalSpace ∧
      (∀ e ∈ out, e.1 < sizes.length ∧ entryInBounds sizes finalSpace e) ∧
      out.Pairwise (entryDisjoint sizes) := by
  intro fuel
  induction fuel with
  | zero =>
    intro spaceSize out finalSpace _ _ hsome
    rw [packLoop] at hsome
    exact absurd hsome (by simp)
  | succ fuel ih =>
    intro spaceSize out finalSpace hsp hrects hsome
    rw [packLoop] at hsome
    cases hpp : packPass spaceSize rects [] [] with
    | some out0 =>
      rw [hpp] at hsome
      have h1 : out0 = out ∧ spaceSize = finalSpace := by
        have := Option.some.injEq _ _ ▸ hsome
        exact ⟨congrArg Prod.fst this, congrArg Prod.snd this⟩
      obtain ⟨rfl, rfl⟩ := h1
      obtain ⟨hmap, hbnd, hpw⟩ := packPass_correct sizes spaceSize rects [] [] out0
        hrects trivial (by intro e he; exact absurd he (List.not_mem_nil e))
        List.Pairwise.nil hpp
      refine ⟨by simpa using hmap, hsp, hbnd, hpw⟩
    | none =>
      rw [hpp] at hsome
      have hsp2 : 1 ≤ spaceSize * 2 := by omega
      have hrects2 : ∀ e ∈ rects, e.1 < sizes.length ∧ sizes.getD e.1 (0, 0) = e.2 ∧
          1 ≤ e.2.1 ∧ e.2.1 ≤ spaceSize * 2 ∧ 1 ≤ e.2.2 := by
        intro e he
        obtain ⟨h1, h2, h3, h4, h5⟩ := hrects e he
        exact ⟨h1, h2, h3, by omega, h5⟩
      exact ih (spaceSize * 2) out finalSpace hsp2 hrects2 hsome

theorem packLoop_isSome (rects : List (ℕ × (Int × Int))) :
    ∀ (fuel : ℕ) (spaceSize : Int), 1 ≤ spaceSize →
      (∀ e ∈ rects, 0 ≤ e.2.2) →
      (rects.map (fun e => e.2.2)).sum ≤ spaceSize * 2 ^ fuel →
      (packLoop rects spaceSize (fuel + 1)).isSome := by
  intro fuel
  induction fuel with
  | zero =>
    intro spaceSize hsp hnn hbudget
    rw [packLoop]
    cases hpp : packPass spaceSize rects [] [] with
    | some out0 => rfl
    | none =>
      have := packPass_isSome spaceSize rects [] [] hnn (by
        rw [pow_zero, mul_one] at hbudget
        show newStripY [] + (rects.map (fun e => e.2.2)).sum ≤ spaceSize
        rw [newStripY]
        simpa using hbudget)
      rw [hpp] at this
      exact absurd this (by simp)
  | succ fuel ih =>
    intro spaceSize hsp hnn hbudget
    rw [packLoop]
    cases hpp : packPass spaceSize rects [] [] with
    | some out0 => rfl
    | none =>
      refine ih (spaceSize * 2) (by omega) hnn ?_
      calc (rects.map (fun e => e.2.2)).sum ≤ spaceSize * 2 ^ (fuel + 1) := hbudget
        _ = spaceSize * 2 * 2 ^ fuel := by ring

instance : IsTrans (ℕ × (Int × Int)) idxPosLe := by
  constructor
  intro a b c hab hbc
  rw [idxPosLe] at *
  omega

instance : IsTotal (ℕ × (Int × Int)) idxPosLe := by
  constructor
  intro a b
  rw [idxPosLe, idxPosLe]
  omega

theorem foldl_add_natAbs (l : List (Int × Int)) :
    ∀ n : ℕ, l.foldl (fun a r => a + r.2.natAbs) n = n + (l.map (fun r => r.2.natAbs)).sum := by
  induction l with
  | nil => intro n; simp
  | cons r rest ih =>
    intro n
    rw [List.foldl_cons, ih, List.map_cons, List.sum_cons]
    omega

theorem sum_natAbs_cast (l : List (Int × Int)) (h : ∀ r ∈ l, 0 ≤ r.2) :
    (((l.map (fun r => r.2.natAbs)).sum : ℕ) : Int) = (l.map (fun r => r.2)).sum := by
  induction l with
  | nil => simp
  | cons r rest ih =>
    rw [List.map_cons, List.sum_cons, List.map_cons, List.sum_cons, Nat.cast_add,
      ih (fun x hx => h x (List.mem_cons_of_mem _ hx)),
      Int.natAbs_of_nonneg (h r (List.mem_cons_self _ _))]

/-! ### Claims C1 and C3: packer correctness and the flush-width fits test -/

/-- C1 (counterexample): `pack_rects` does *not* keep every rectangle inside
`[0, final_space_size)²` for arbitrary inputs.  The first rectangle on a fresh
shelf is placed with no horizontal check at all (only the vertical
`y + height > space_size` test can trigger a restart), so a single rectangle
of width 20 on an initial space of 16 is placed at `(0, 0)` with the space
size left at 16, and `0 + 20 ≤ 16` fails: the placement is not in bounds. -/
theorem C1_counterexample :
    packRects [((20 : Int), (4 : Int))] 16 = some ([(0, 0)], 16) ∧
    ¬ entryInBounds [((20 : Int), (4 : Int))] 16 (0, (0, 0)) := by
  constructor
  · decide
  · rw [entryInBounds]
    decide

/-- C1: amended packer correctness.  When every rectangle has positive width
and height, the initial space size is positive, and every width fits the
initial space size (the source never grows the space for a too-wide first
rectangle on a shelf, so this is needed), `pack_rects` returns one position
per input rectangle in input order, every placed rectangle lies inside
`[0, final_space_size)²`, and the placed rectangles are pairwise disjoint. -/
theorem C1_theorem (rectSizes : List (Int × Int)) (initialSpaceSize : Int)
    (hpos : ∀ r ∈ rectSizes, 1 ≤ r.1 ∧ 1 ≤ r.2)
    (hinit : 1 ≤ initialSpaceSize)
    (hwle : ∀ r ∈ rectSizes, r.1 ≤ initialSpaceSize) :
    ∃ positions spaceSize,
      packRects rectSizes initialSpaceSize = some (positions, spaceSize) ∧
      positions.length = rectSizes.length ∧
      (∀ i, i < rectSizes.length →
        0 ≤ (positions.getD i (0, 0)).1 ∧
        (positions.getD i (0, 0)).1 + (rectSizes.getD i (0, 0)).1 ≤ spaceSize ∧
        0 ≤ (positions.getD i (0, 0)).2 ∧
        (positions.getD i (0, 0)).2 + (rectSizes.getD i (0, 0)).2 ≤ spaceSize) ∧
      (∀ i j, i < rectSizes.length → j < rectSizes.length → i ≠ j →
        rectDisjoint (positions.getD i (0, 0)) (rectSizes.getD i (0, 0))
          (positions.getD j (0, 0)) (rectSizes.getD j (0, 0))) := by
  have hperm : List.Perm ((rectSizes.enum).insertionSort heightGe) rectSizes.enum :=
    List.perm_insertionSort heightGe rectSizes.enum
  have hmem : ∀ e ∈ (rectSizes.enum).insertionSort heightGe,
      e.1 < rectSizes.length ∧ rectSizes.getD e.1 (0, 0) = e.2 ∧
        1 ≤ e.2.1 ∧ e.2.1 ≤ initialSpaceSize ∧ 1 ≤ e.2.2 := by
    intro e he
    have he2 : e ∈ rectSizes.enum := hperm.mem_iff.mp he
    obtain ⟨i, hi, hei⟩ := List.mem_iff_getElem.mp he2
    rw [List.getElem_enum] at hei
    have hin : i < rectSizes.length := by
      have := hi
      rwa [List.enum_length] at this
    have hmemi : rectSizes[i] ∈ rectSizes := List.getElem_mem _
    subst hei
    refine ⟨hin, List.getD_eq_getElem rectSizes (0, 0) hin, (hpos _ hmemi).1,
      hwle _ hmemi, (hpos _ hmemi).2⟩
  have hnn : ∀ e ∈ (rectSizes.enum).insertionSort heightGe, 0 ≤ e.2.2 := by
    intro e he
    have := (hmem e he).2.2.2.2
    omega
  have hsum : ((((rectSizes.enum).insertionSort heightGe).map (fun e => e.2.2)).sum : Int)
      = (rectSizes.map (fun r => r.2)).sum := by
    have h1 := (hperm.map (fun e => e.2.2)).sum_eq
    rw [h1]
    have h2 : rectSizes.enum.map (fun (e : ℕ × Int × Int) => e.2.2)
        = (rectSizes.enum.map Prod.snd).map (fun r => r.2) := by
      rw [List.map_map]
      rfl
    rw [h2, List.enum_map_snd]
  have hpos2 : ∀ r ∈ rectSizes, 0 ≤ r.2 := fun r hr => by have := (hpos r hr).2; omega
  have hbudget : ((((rectSizes.enum).insertionSort heightGe).map (fun e => e.2.2)).sum : Int)
      ≤ initialSpaceSize * 2 ^ ((rectSizes.map (fun r => r.2.natAbs)).sum) := by
    rw [hsum, ← sum_natAbs_cast rectSizes hpos2]
    have h2 : (((rectSizes.map (fun r => r.2.natAbs)).sum : ℕ) : Int)
        ≤ ((2 ^ (rectSizes.map (fun r => r.2.natAbs)).sum : ℕ) : Int) :=
      Nat.cast_le.mpr (Nat.lt_two_pow ((rectSizes.map (fun r => r.2.natAbs)).sum)).le
    have h3 : ((2 ^ (rectSizes.map (fun r => r.2.natAbs)).sum : ℕ) : Int)
        = (2 : Int) ^ ((rectSizes.map (fun r => r.2.natAbs)).sum) := by
      push_cast
      ring
    rw [h3] at h2
    have hp : (0 : Int) < 2 ^ ((rectSizes.map (fun r => r.2.natAbs)).sum) := by positivity
    nlinarith
  have hisSome := packLoop_isSome ((rectSizes.enum).insertionSort heightGe)
    ((rectSizes.map (fun r => r.2.natAbs)).sum) initialSpaceSize hinit hnn hbudget
  obtain ⟨val, hloop⟩ := Option.isSome_iff_exists.mp hisSome
  obtain ⟨out, fs⟩ := val
  have hfuel : rectSizes.foldl (fun a r => a + r.2.natAbs) 0 + 1
      = (rectSizes.map (fun r => r.2.natAbs)).sum + 1 := by
    rw [foldl_add_natAbs rectSizes 0]
    omega
  have hpack : packRects rectSizes initialSpaceSize
      = some ((out.insertionSort idxPosLe).map (·.2), fs) := by
    rw [packRects, hfuel, hloop]
  obtain ⟨hmapfst, hfs1, hbounds, hpwout⟩ :=
    packLoop_correct rectSizes ((rectSizes.enum).insertionSort heightGe)
      ((rectSizes.map (fun r => r.2.natAbs)).sum + 1) initialSpaceSize out fs hinit hmem hloop
  have hlen_sorted : ((rectSizes.enum).insertionSort heightGe).length = rectSizes.length := by
    rw [List.length_insertionSort, List.enum_length]
  have hlen_out : out.length = rectSizes.length := by
    have := congrArg List.length hmapfst
    rw [List.length_map, List.length_map] at this
    rw [this, hlen_sorted]
  have hpermso : List.Perm (out.insertionSort idxPosLe) out :=
    List.perm_insertionSort idxPosLe out
  have hlen_so : (out.insertionSort idxPosLe).length = rectSizes.length := by
    rw [List.length_insertionSort, hlen_out]
  have hfst_perm : List.Perm ((out.insertionSort idxPosLe).map Prod.fst)
      (List.range rectSizes.length) := by
    refine (hpermso.map Prod.fst).trans ?_
    rw [hmapfst]
    refine (hperm.map Prod.fst).trans ?_
    rw [List.enum_map_fst]
  have hso_pw : (out.insertionSort idxPosLe).Pairwise idxPosLe :=
    List.sorted_insertionSort idxPosLe out
  have hfst_sorted : ((out.insertionSort idxPosLe).map Prod.fst).Pairwise (· ≤ ·) :=
    hso_pw.map Prod.fst (by
      intro a b hab
      rw [idxPosLe] at hab
      omega)
  have hrange_sorted : (List.range rectSizes.length).Pairwise
      ((· ≤ ·) : ℕ → ℕ → Prop) :=
    (List.pairwise_lt_range rectSizes.length).imp (fun h => le_of_lt h)
  have hrange : (out.insertionSort idxPosLe).map Prod.fst = List.range rectSizes.length :=
    List.eq_of_perm_of_sorted hfst_perm hfst_sorted hrange_sorted
  have hfst_at : ∀ i, ∀ hi2 : i < (out.insertionSort idxPosLe).length,
      ((out.insertionSort idxPosLe).get ⟨i, hi2⟩).1 = i := by
    intro i hi2
    have h1 := congrArg (fun l => l.getD i 0) hrange
    simp only [] at h1
    rw [List.getD_eq_getElem _ 0 (by rw [List.length_map]; exact hi2),
      List.getElem_map,
      List.getD_eq_getElem _ 0 (by rw [List.length_range, ← hlen_so]; exact hi2),
      List.getElem_range] at h1
    exact h1
  have hpos_at : ∀ i, ∀ hi2 : i < (out.insertionSort idxPosLe).length,
      ((out.insertionSort idxPosLe).map (·.2)).getD i ((0 : Int), (0 : Int))
        = ((out.insertionSort idxPosLe).get ⟨i, hi2⟩).2 := by
    intro i hi2
    rw [List.getD_eq_getElem _ _ (by rw [List.length_map]; exact hi2), List.getElem_map]
    rfl
  have hmem_so : ∀ i, ∀ hi2 : i < (out.insertionSort idxPosLe).length,
      (out.insertionSort idxPosLe).get ⟨i, hi2⟩ ∈ out := by
    intro i hi2
    exact hpermso.mem_iff.mp (List.get_mem _ _ hi2)
  have hpw_so : (out.insertionSort idxPosLe).Pairwise (entryDisjoint rectSizes) := by
    refine (List.Perm.pairwise_iff ?_ hpermso).mpr hpwout
    intro a b h
    exact entryDisjoint_symm rectSizes h
  refine ⟨(out.insertionSort idxPosLe).map (·.2), fs, hpack, ?_, ?_, ?_⟩
  · rw [List.length_map, hlen_so]
  · intro i hi
    have hi2 : i < (out.insertionSort idxPosLe).length := by rw [hlen_so]; exact hi
    obtain ⟨hlt, hib⟩ := hbounds _ (hmem_so i hi2)
    rw [entryInBounds, hfst_at i hi2] at hib
    rw [hpos_at i hi2]
    exact hib
  · intro i j hi hj hne
    have hi2 : i < (out.insertionSort idxPosLe).length := by rw [hlen_so]; exact hi
    have hj2 : j < (out.insertionSort idxPosLe).length := by rw [hlen_so]; exact hj
    have hd : entryDisjoint rectSizes ((out.insertionSort idxPosLe).get ⟨i, hi2⟩)
        ((out.insertionSort idxPosLe).get ⟨j, hj2⟩) := by
      rcases Nat.lt_or_ge i j with hlt | hge
      · exact (List.pairwise_iff_getElem.mp hpw_so) i j hi2 hj2 hlt
      · have hjlt : j < i := by omega
        exact entryDisjoint_symm rectSizes
          ((List.pairwise_iff_getElem.mp hpw_so) j i hj2 hi2 hjlt)
    rw [entryDisjoint, hfst_at i hi2, hfst_at j hj2] at hd
    rw [hpos_at i hi2, hpos_at j hj2]
    exact hd

/-- Witness for C1 at `rect_sizes = [(8, 4), (8, 4)]`, `initial_space_size = 16`. -/
theorem C1_witness :
    ∃ positions spaceSize,
      packRects [((8 : Int), (4 : Int)), ((8 : Int), (4 : Int))] 16
        = some (positions, spaceSize) ∧
      positions.length = ([((8 : Int), (4 : Int)), ((8 : Int), (4 : Int))] : List (Int × Int)).length ∧
      (∀ i, i < ([((8 : Int), (4 : Int)), ((8 : Int), (4 : Int))] : List (Int × Int)).length →
        0 ≤ (positions.getD i (0, 0)).1 ∧
        (positions.getD i (0, 0)).1
          + (([((8 : Int), (4 : Int)), ((8 : Int), (4 : Int))] : List (Int × Int)).getD i (0, 0)).1 ≤ spaceSize ∧
        0 ≤ (positions.getD i (0, 0)).2 ∧
        (positions.getD i (0, 0)).2
          + (([((8 : Int), (4 : Int)), ((8 : Int), (4 : Int))] : List (Int × Int)).getD i (0, 0)).2 ≤ spaceSize) ∧
      (∀ i j, i < ([((8 : Int), (4 : Int)), ((8 : Int), (4 : Int))] : List (Int × Int)).length →
        j < ([((8 : Int), (4 : Int)), ((8 : Int), (4 : Int))] : List (Int × Int)).length → i ≠ j →
        rectDisjoint (positions.getD i (0, 0))
          (([((8 : Int), (4 : Int)), ((8 : Int), (4 : Int))] : List (Int × Int)).getD i (0, 0))
          (positions.getD j (0, 0))
          (([((8 : Int), (4 : Int)), ((8 : Int), (4 : Int))] : List (Int × Int)).getD j (0, 0))) :=
  C1_theorem [((8 : Int), (4 : Int)), ((8 : Int), (4 : Int))] 16
    (by decide) (by decide) (by decide)

/-- C3 (counterexample): a rectangle flush with a shelf's remaining width is
*accepted*, not rejected.  After an 8-wide rectangle is placed on the first
shelf of a 16-wide space, the shelf has `filled = 7` (the counter starts at
`-1`), the remaining width is `16 - 8 = 8`, and the fits test
`8 < 16 - 7` accepts a second 8-wide rectangle: `pack_rects` places it on the
*same* shelf at `(8, 0)` rather than on a later or new shelf. -/
theorem C3_counterexample :
    BoxPackingStrip.fitsRect ⟨0, 4, 7⟩ ((8 : Int), (4 : Int)) 16 = true ∧
    packRects [((8 : Int), (4 : Int)), ((8 : Int), (4 : Int))] 16
      = some ([(0, 0), (8, 0)], 16) := by
  constructor
  · decide
  · decide

/-- C3: amended characterisation of the fits test.  A shelf on which
rectangles of total width `totalW` have been placed has `filled = totalW - 1`
(the counter starts at `-1` and each placement adds the rect's width), so for
a rectangle that fits vertically the test `rect.width < space_size - filled`
holds iff `rect.width ≤ space_size - totalW`: a rectangle exactly flush with
the remaining width is accepted, and only strictly wider ones are rejected. -/
theorem C3_theorem (spaceSize totalW y h : Int) (rect : Int × Int)
    (hh : rect.2 ≤ h) :
    BoxPackingStrip.fitsRect ⟨y, h, totalW - 1⟩ rect spaceSize = true ↔
      rect.1 ≤ spaceSize - totalW := by
  rw [BoxPackingStrip.fitsRect]
  simp only [Bool.and_eq_true, decide_eq_true_eq]
  constructor
  · intro hc
    have := hc.2
    omega
  · intro hc
    exact ⟨by exact_mod_cast hh, by omega⟩

/-- Witness for C3 at the flush configuration from the run above:
`spaceSize = 16`, `totalW = 8`, shelf height 4, rect `(8, 4)`. -/
theorem C3_witness :
    (4 : Int) ≤ 4 ∧
    (BoxPackingStrip.fitsRect ⟨0, 4, 8 - 1⟩ ((8 : Int), (4 : Int)) 16 = true ↔
      (8 : Int) ≤ 16 - 8) :=
  ⟨by decide, C3_theorem 16 8 0 4 (8, 4) (by decide)⟩

/-! ## UV islands and the island merger (`islands.py`)

UV coordinates are floats in the source; they are modelled as `ℚ` (the code
only performs field operations and order comparisons on them).  Of a
`UVIsland` we keep the fields that `merge` and `merge_overlapping_islands`
read or write: the `min`/`max` UV bounds, `average_uv`, `num_uv` and the face
list (faces are represented by their integer indices). -/

/-- `elem_min` from `common.py` (componentwise minimum). -/
def elemMin (a b : ℚ × ℚ) : ℚ × ℚ := (min a.1 b.1, min a.2 b.2)

/-- `elem_max` from `common.py` (componentwise maximum). -/
def elemMax (a b : ℚ × ℚ) : ℚ × ℚ := (max a.1 b.1, max a.2 b.2)

/-- The fields of `UVIsland` (from `islands.py`) used by the island merger. -/
structure UVIsland where
  min : ℚ × ℚ
  max : ℚ × ℚ
  averageUv : ℚ × ℚ
  numUv : ℕ
  uvFaces : List ℕ
deriving DecidableEq

instance : Inhabited UVIsland := ⟨⟨(0, 0), (0, 0), (0, 0), 0, []⟩⟩

/-- `UVIsland.merge(other)` from `islands.py`: elementwise min/max of bounds,
UV-count-weighted average, concatenated face lists.  (In Lean, `ℚ` division by
zero yields `0` where Python would raise; the merger only ever merges islands
built from at least one face each, so the divisor is positive in every run the
theorems below are about.) -/
def UVIsland.mergeWith (self other : UVIsland) : UVIsland where
  min := elemMin self.min other.min
  max := elemMax self.max other.max
  averageUv :=
    ((self.averageUv.1 * self.numUv + other.averageUv.1 * other.numUv) / (self.numUv + other.numUv),
     (self.averageUv.2 * self.numUv + other.averageUv.2 * other.numUv) / (self.numUv + other.numUv))
  numUv := self.numUv + other.numUv
  uvFaces := self.uvFaces ++ other.uvFaces

/-- The inline bounds-overlap test of `merge_overlapping_islands`
(`islands.py` lines 302-307).  Note it uses strict `>` in the four
separation disjuncts, so bounds that merely touch count as overlapping. -/
def boundsOverlap (islandI islandJ : UVIsland) : Bool :=
  !(decide (islandJ.min.1 > islandI.max.1) || decide (islandI.min.1 > islandJ.max.1)
    || decide (islandJ.min.2 > islandI.max.2) || decide (islandI.min.2 > islandJ.max.2))

/-- The inner `while j < len(islands)` loop of `merge_overlapping_islands`:
on overlap, island `i` absorbs island `j`, `j` is deleted and the scan
restarts at `j = i + 1`; otherwise `j` advances. -/
def mergeInner (islands : List UVIsland) (i j : ℕ) : List UVIsland :=
  if h : j < islands.length then
    if boundsOverlap (islands.getD i default) (islands.getD j default) then
      mergeInner
        ((islands.set i ((islands.getD i default).mergeWith (islands.getD j default))).eraseIdx j)
        i (i + 1)
    else
      mergeInner islands i (j + 1)
  else
    islands
termination_by (islands.length, islands.length - j)
decreasing_by
  · have hlen := List.length_eraseIdx_add_one
      (l := islands.set i ((islands.getD i default).mergeWith (islands.getD j default)))
      (i := j) (by simpa using h)
    simp only [List.length_set] at hlen
    simp only [Prod.lex_iff]
    omega
  · simp only [Prod.lex_iff]
    refine Or.inr ⟨trivial, ?_⟩
    omega

theorem mergeInner_length_le (islands : List UVIsland) (i j : ℕ) :
    (mergeInner islands i j).length ≤ islands.length := by
  induction islands, i, j using mergeInner.induct with
  | case1 islands i j h hov ih =>
    rw [mergeInner, dif_pos h, if_pos hov]
    refine ih.trans ?_
    have hlen := List.length_eraseIdx_add_one
      (l := islands.set i ((islands.getD i default).mergeWith (islands.getD j default)))
      (i := j) (by simpa using h)
    simp only [List.length_set] at hlen
    omega
  | case2 islands i j h hov ih =>
    rw [mergeInner, dif_pos h, if_neg hov]
    exact ih
  | case3 islands i j h => rw [mergeInner, dif_neg h]

/-- The outer `while i < len(islands)` loop of `merge_overlapping_islands`. -/
def mergeOuterLoop (islands : List UVIsland) (i : ℕ) : List UVIsland :=
  if i < islands.length then
    mergeOuterLoop (mergeInner islands i (i + 1)) (i + 1)
  else
    islands
termination_by islands.length + 1 - i
decreasing_by
  have := mergeInner_length_le islands i (i + 1)
  omega

/-- `merge_overlapping_islands(islands)` from `islands.py`. -/
def mergeOverlappingIslands (islands : List UVIsland) : List UVIsland :=
  mergeOuterLoop islands 0

/-! ### Claims C4 and C6: behaviour of the island merger -/

/-- Two islands whose bounds merely touch: `[0,1] × [0,1]` and `[1,2] × [0,1]`
(the right edge of the first coincides with the left edge of the second, with
no interior intersection). -/
def touchIslandA : UVIsland := ⟨(0, 0), (1, 1), (0, 0), 4, [0]⟩

/-- See `touchIslandA`. -/
def touchIslandB : UVIsland := ⟨(1, 0), (2, 1), (0, 0), 4, [1]⟩

/-- C4 (counterexample): the claim says islands whose bounds merely touch
(`max.x` of one equals `min.x` of the other, no interior intersection) remain
separate; but `merge_overlapping_islands` applied to the two touching islands
`touchIslandA`, `touchIslandB` merges them into a single island (output length
1, not 2), because its inline separation test uses strict `>`. -/
theorem C4_counterexample :
    touchIslandA.max.1 = touchIslandB.min.1 ∧
      (mergeOverlappingIslands [touchIslandA, touchIslandB]).length = 1 := by
  refine ⟨rfl, ?_⟩
  rw [mergeOverlappingIslands, mergeOuterLoop, if_pos (by norm_num)]
  rw [mergeInner, dif_pos (by norm_num)]
  simp only [List.getD_cons_zero, List.getD_cons_succ]
  rw [if_pos (by norm_num [boundsOverlap, touchIslandA, touchIslandB])]
  simp only [List.set_cons_zero, List.set_cons_succ, List.eraseIdx_cons_succ,
    List.eraseIdx_cons_zero, List.eraseIdx_nil]
  rw [mergeInner, dif_neg (by norm_num)]
  rw [mergeOuterLoop, if_neg (by norm_num)]
  rfl

/-- C4 (amended): `merge_overlapping_islands` merges two islands exactly when
their *closed* axis-aligned bounds intersect
(`b.min.x ≤ a.max.x ∧ a.min.x ≤ b.max.x ∧ b.min.y ≤ a.max.y ∧ a.min.y ≤ b.max.y`),
which includes every touching configuration (equal coordinates on either
axis, in either orientation) as well as proper overlap: such pairs collapse
to the single merged island.  The pair is returned unchanged (the islands
stay separate) if and only if the bounds are strictly separated on some
axis. -/
theorem C4_theorem (a b : UVIsland) :
    (mergeOverlappingIslands [a, b] =
      if b.min.1 ≤ a.max.1 ∧ a.min.1 ≤ b.max.1 ∧ b.min.2 ≤ a.max.2 ∧ a.min.2 ≤ b.max.2
      then [a.mergeWith b] else [a, b]) ∧
    ((mergeOverlappingIslands [a, b] = [a, b]) ↔
      (a.max.1 < b.min.1 ∨ b.max.1 < a.min.1 ∨ a.max.2 < b.min.2 ∨ b.max.2 < a.min.2)) := by
  have hiff : boundsOverlap a b = true ↔
      (b.min.1 ≤ a.max.1 ∧ a.min.1 ≤ b.max.1 ∧ b.min.2 ≤ a.max.2 ∧ a.min.2 ≤ b.max.2) := by
    rw [boundsOverlap]
    simp only [Bool.not_eq_eq_eq_not, Bool.not_true, Bool.or_eq_false_iff,
      decide_eq_false_iff_not, not_lt]
    constructor
    · intro h
      exact ⟨h.1.1.1, h.1.1.2, h.1.2, h.2⟩
    · intro h
      exact ⟨⟨⟨h.1, h.2.1⟩, h.2.2.1⟩, h.2.2.2⟩
  by_cases hc : b.min.1 ≤ a.max.1 ∧ a.min.1 ≤ b.max.1 ∧ b.min.2 ≤ a.max.2 ∧ a.min.2 ≤ b.max.2
  · have hov : boundsOverlap a b = true := hiff.mpr hc
    have hrun : mergeOverlappingIslands [a, b] = [a.mergeWith b] := by
      rw [mergeOverlappingIslands, mergeOuterLoop, if_pos (by norm_num)]
      rw [mergeInner, dif_pos (by norm_num)]
      simp only [List.getD_cons_zero, List.getD_cons_succ, List.set_cons_zero,
        List.eraseIdx_cons_succ, List.eraseIdx_cons_zero, List.eraseIdx_nil]
      rw [if_pos hov]
      rw [mergeInner, dif_neg (by norm_num)]
      rw [mergeOuterLoop, if_neg (by norm_num)]
    refine ⟨by rw [hrun, if_pos hc], ?_⟩
    rw [hrun]
    constructor
    · intro h2
      have := congrArg List.length h2
      exact absurd this (by norm_num)
    · intro h2
      rcases h2 with h | h | h | h
      · exact absurd hc.1 (not_le.mpr h)
      · exact absurd hc.2.1 (not_le.mpr h)
      · exact absurd hc.2.2.1 (not_le.mpr h)
      · exact absurd hc.2.2.2 (not_le.mpr h)
  · have hov : ¬ (boundsOverlap a b = true) := fun h2 => hc (hiff.mp h2)
    have hrun : mergeOverlappingIslands [a, b] = [a, b] := by
      rw [mergeOverlappingIslands, mergeOuterLoop, if_pos (by norm_num)]
      rw [mergeInner, dif_pos (by norm_num)]
      simp only [List.getD_cons_zero, List.getD_cons_succ]
      rw [if_neg hov]
      rw [mergeInner, dif_neg (by norm_num)]
      rw [mergeOuterLoop, if_pos (by norm_num)]
      rw [mergeInner, dif_neg (by norm_num)]
      rw [mergeOuterLoop, if_neg (by norm_num)]
    refine ⟨by rw [hrun, if_neg hc], ?_⟩
    rw [hrun]
    constructor
    · intro _
      by_contra hno
      push_neg at hno
      exact hc ⟨hno.1, hno.2.1, hno.2.2.1, hno.2.2.2⟩
    · intro _
      rfl

/-- Witness for `C4_theorem` at the touching pair. -/
theorem C4_witness :
    (mergeOverlappingIslands [touchIslandA, touchIslandB] =
      if touchIslandB.min.1 ≤ touchIslandA.max.1 ∧ touchIslandA.min.1 ≤ touchIslandB.max.1 ∧
          touchIslandB.min.2 ≤ touchIslandA.max.2 ∧ touchIslandA.min.2 ≤ touchIslandB.max.2
      then [touchIslandA.mergeWith touchIslandB] else [touchIslandA, touchIslandB]) ∧
    ((mergeOverlappingIslands [touchIslandA, touchIslandB] = [touchIslandA, touchIslandB]) ↔
      (touchIslandA.max.1 < touchIslandB.min.1 ∨ touchIslandB.max.1 < touchIslandA.min.1 ∨
        touchIslandA.max.2 < touchIslandB.min.2 ∨ touchIslandB.max.2 < touchIslandA.min.2)) :=
  C4_theorem touchIslandA touchIslandB

theorem mergeInner_of_no_overlap (islands : List UVIsland) (i j : ℕ) (hij : i < j)
    (h : ∀ (p q : ℕ) (hp : p < islands.length) (hq : q < islands.length), p < q →
      boundsOverlap islands[p] islands[q] = false) :
    mergeInner islands i j = islands := by
  induction islands, i, j using mergeInner.induct with
  | case1 islands i j hj hov ih =>
    exfalso
    have hi : i < islands.length := lt_trans hij hj
    rw [List.getD_eq_getElem islands default hi, List.getD_eq_getElem islands default hj] at hov
    rw [h i j hi hj hij] at hov
    exact Bool.false_ne_true hov
  | case2 islands i j hj hov ih =>
    rw [mergeInner, dif_pos hj, if_neg hov]
    exact ih (lt_trans hij (Nat.lt_succ_self j)) h
  | case3 islands i j hj => rw [mergeInner, dif_neg hj]

theorem mergeOuterLoop_of_no_overlap (islands : List UVIsland) (i : ℕ)
    (h : ∀ (p q : ℕ) (hp : p < islands.length) (hq : q < islands.length), p < q →
      boundsOverlap islands[p] islands[q] = false) :
    mergeOuterLoop islands i = islands := by
  induction islands, i using mergeOuterLoop.induct with
  | case1 islands i hi ih =>
    have hmi := mergeInner_of_no_overlap islands i (i + 1) (Nat.lt_succ_self i) h
    rw [mergeOuterLoop, if_pos hi, hmi]
    rw [hmi] at ih
    exact ih h
  | case2 islands i hi => rw [mergeOuterLoop, if_neg hi]

/-- Three islands witnessing non-idempotence of the merger: `cornerIslandB`
and `cornerIslandC` overlap each other but neither overlaps `cornerIslandA`;
their merged bounding box, however, swallows `cornerIslandA`'s bounds. -/
def cornerIslandA : UVIsland := ⟨(0, 0), (4, 4), (0, 0), 4, [0]⟩

/-- See `cornerIslandA`. -/
def cornerIslandB : UVIsland := ⟨(6, 0), (20, 10), (0, 0), 4, [1]⟩

/-- See `cornerIslandA`. -/
def cornerIslandC : UVIsland := ⟨(0, 6), (10, 20), (0, 0), 4, [2]⟩

/-- C6 (counterexample): `merge_overlapping_islands` is *not* idempotent.  On
`[cornerIslandA, cornerIslandB, cornerIslandC]` the first run merges only
`B` and `C` (pairs involving `A` are tested before `B` grows); the merged
island's bounds then overlap `A`'s, so a second run merges again and returns a
different (shorter) list. -/
theorem C6_counterexample :
    mergeOverlappingIslands
        (mergeOverlappingIslands [cornerIslandA, cornerIslandB, cornerIslandC])
      ≠ mergeOverlappingIslands [cornerIslandA, cornerIslandB, cornerIslandC] := by
  have merge_first :
      mergeOverlappingIslands [cornerIslandA, cornerIslandB, cornerIslandC]
        = [cornerIslandA, cornerIslandB.mergeWith cornerIslandC] := by
    rw [mergeOverlappingIslands, mergeOuterLoop, if_pos (by norm_num)]
    rw [mergeInner, dif_pos (by norm_num)]
    simp only [List.getD_cons_zero, List.getD_cons_succ]
    rw [if_neg (by norm_num [boundsOverlap, cornerIslandA, cornerIslandB])]
    rw [mergeInner, dif_pos (by norm_num)]
    simp only [List.getD_cons_zero, List.getD_cons_succ]
    rw [if_neg (by norm_num [boundsOverlap, cornerIslandA, cornerIslandC])]
    rw [mergeInner, dif_neg (by norm_num)]
    rw [mergeOuterLoop, if_pos (by norm_num)]
    rw [mergeInner, dif_pos (by norm_num)]
    simp only [List.getD_cons_zero, List.getD_cons_succ]
    rw [if_pos (by norm_num [boundsOverlap, cornerIslandB, cornerIslandC])]
    simp only [List.set_cons_zero, List.set_cons_succ, List.eraseIdx_cons_succ,
      List.eraseIdx_cons_zero, List.eraseIdx_nil]
    rw [mergeInner, dif_neg (by norm_num)]
    rw [mergeOuterLoop, if_neg (by norm_num)]
  have merge_second :
      mergeOverlappingIslands [cornerIslandA, cornerIslandB.mergeWith cornerIslandC]
        = [cornerIslandA.mergeWith (cornerIslandB.mergeWith cornerIslandC)] := by
    rw [mergeOverlappingIslands, mergeOuterLoop, if_pos (by norm_num)]
    rw [mergeInner, dif_pos (by norm_num)]
    simp only [List.getD_cons_zero, List.getD_cons_succ]
    rw [if_pos (by norm_num [boundsOverlap, cornerIslandA, cornerIslandB, cornerIslandC,
      UVIsland.mergeWith, elemMin, elemMax])]
    simp only [List.set_cons_zero, List.set_cons_succ, List.eraseIdx_cons_succ,
      List.eraseIdx_cons_zero, List.eraseIdx_nil]
    rw [mergeInner, dif_neg (by norm_num)]
    rw [mergeOuterLoop, if_neg (by norm_num)]
  rw [merge_first, merge_second]
  intro hcontra
  exact absurd (congrArg List.length hcontra) (by norm_num)

/-- C6 (amended): when no pair of islands in the input overlaps under the
merger's own (inclusive) bounds test, `merge_overlapping_islands` returns the
list unchanged.  In particular the merger is idempotent on overlap-free lists;
in general (see the three-island run above) a merge can enlarge an island after it
was compared with an earlier one, so the output may still contain overlapping
pairs and a second run may merge further. -/
theorem C6_theorem (islands : List UVIsland)
    (h : List.Pairwise (fun a b => boundsOverlap a b = false) islands) :
    mergeOverlappingIslands islands = islands := by
  rw [mergeOverlappingIslands]
  refine mergeOuterLoop_of_no_overlap islands 0 ?_
  intro p q hp hq hpq
  exact List.pairwise_iff_getElem.mp h p q hp hq hpq

/-- Witness for `C6_theorem`: two strictly separated islands are returned
unchanged. -/
theorem C6_witness :
    mergeOverlappingIslands [touchIslandA, cornerIslandB] = [touchIslandA, cornerIslandB] :=
  C6_theorem [touchIslandA, cornerIslandB]
    (by simp [List.pairwise_cons]
        norm_num [boundsOverlap, touchIslandA, cornerIslandB])

/-! ## The free-space finder (`packing.py`, `find_free_space_for_island`) -/

/-- The fields of the islands handled by `find_free_space_for_island`
(typed `UVFaceSet` in `packing.py`): the UV-space bounds, from which the
integer pixel bounds are computed. -/
structure UVFaceSet where
  min : ℚ × ℚ
  max : ℚ × ℚ
deriving DecidableEq

/-- `UVIsland.calc_pixel_bounds(texture_size, min_padding=0.3)` from
`islands.py`: converts UV bounds to integer pixel bounds via
`floor(min·size − padding)` / `ceil(max·size + padding)`. -/
def calcPixelBounds (island : UVFaceSet) (textureSize : Int) (minPadding : ℚ := 3/10) : RectInt :=
  ⟨⟨⌊island.min.1 * textureSize - minPadding⌋, ⌊island.min.2 * textureSize - minPadding⌋⟩,
   ⟨⌈island.max.1 * textureSize + minPadding⌉, ⌈island.max.2 * textureSize + minPadding⌉⟩⟩

/-- Modelled from the spec: the `calc_pixel_pos`/`pixel_pos` attribute read by
`find_free_space_for_island` is not defined anywhere under `src/` (only its
callers appear); per the spec, an island's pixel position is its "lazily
computed integer pixel bounds (`RectInt`)" for the given texture size, i.e.
the value of `calc_pixel_bounds` at the default padding. -/
def pixelPos (island : UVFaceSet) (textureSize : Int) : RectInt :=
  calcPixelBounds island textureSize

/-- The `(p.y, p.x)` key order used by `candidate_positions.sort`; Python's
stable sort under this key equals `List.insertionSort yxLe`. -/
def yxLe (a b : Vector2Int) : Prop := a.y < b.y ∨ (a.y = b.y ∧ a.x ≤ b.x)

instance : DecidableRel yxLe := fun _ _ => by unfold yxLe; infer_instance

/-- The body of `find_free_space_for_island` once the pixel positions of the
target (`targetRect`) and of the other islands (`rects`, in list order) are
computed: corner-point candidates sorted by `(y, x)`, the target's current
position inserted first, then the in-bounds scan, the unbounded fallback scan,
and the final origin fallback. -/
def findFreeSpaceCore (targetRect : RectInt) (rects : List RectInt) (textureSize : Int) :
    Vector2Int :=
  let candidates0 := (⟨0, 0⟩ : Vector2Int) ::
    rects.flatMap (fun r => [⟨r.max.x, r.min.y⟩, ⟨r.min.x, r.max.y⟩])
  let candidates := targetRect.min :: candidates0.insertionSort yxLe
  let texRect : RectInt := ⟨⟨0, 0⟩, ⟨textureSize, textureSize⟩⟩
  let size := targetRect.size
  match candidates.find? (fun p =>
      texRect.contains p size && !(rects.any (fun r => r.overlaps p size))) with
  | some p => p
  | none =>
    match candidates.find? (fun p => !(rects.any (fun r => r.overlaps p size))) with
    | some p => p
    | none => ⟨0, 0⟩

/-- `find_free_space_for_island(target_island, all_islands, texture_size)`
from `packing.py`: each island in `all_islands` other than the target
contributes its pixel rectangle and two corner candidates (in list order),
and the search runs on those rectangles.  Note the source has no
`prefer_current` parameter: the target's current position is always inserted
at the front of the candidate list. -/
def findFreeSpaceForIsland (targetIsland : UVFaceSet) (allIslands : List UVFaceSet)
    (textureSize : Int) : Vector2Int :=
  findFreeSpaceCore (pixelPos targetIsland textureSize)
    ((allIslands.filter (fun uvIsland => uvIsland ≠ targetIsland)).map
      (fun uvIsland => pixelPos uvIsland textureSize))
    textureSize

/-! ### Claim C8: the 4×4 exact-fit scenario -/

/-- The single occupied island of the C8 scenario: its pixel bounds on a
16-texture are the 4×4 rectangle at the origin (see
`freeSpaceOther_pixelPos`). -/
def freeSpaceOther : UVFaceSet := ⟨(1/20, 1/20), (1/5, 1/5)⟩

theorem freeSpaceOther_pixelPos : pixelPos freeSpaceOther 16 = ⟨⟨0, 0⟩, ⟨4, 4⟩⟩ := by
  unfold pixelPos calcPixelBounds freeSpaceOther
  norm_num
  rw [Int.ceil_eq_iff]
  norm_num

/-- The 4×4 pixel rectangle at the origin occupied by `freeSpaceOther`. -/
def occupiedRect : RectInt := ⟨⟨0, 0⟩, ⟨4, 4⟩⟩

/-- The 16×16 texture rectangle of the C8 scenario. -/
def texRect16 : RectInt := ⟨⟨0, 0⟩, ⟨16, 16⟩⟩

/-- A target island whose pixel bounds on the 16-texture are the free,
in-bounds 4×4 rectangle at `(8, 8)` (see `freeSpaceTarget_pixelPos`). -/
def freeSpaceTarget : UVFaceSet := ⟨(9/16, 9/16), (11/16, 11/16)⟩

theorem freeSpaceTarget_pixelPos : pixelPos freeSpaceTarget 16 = ⟨⟨8, 8⟩, ⟨12, 12⟩⟩ := by
  unfold pixelPos calcPixelBounds freeSpaceTarget
  norm_num
  rw [Int.ceil_eq_iff]
  norm_num

/-- C8 (counterexample): with one island occupying the 4×4 rectangle at
`(0,0)` on a 16×16 texture and a 4×4 target currently sitting at the free
spot `(8,8)`, `find_free_space_for_island` returns the target's current
position `(8,8)`, not `(4,0)` as the claim states: the function has no
`prefer_current` option and always tries the current position first. -/
theorem C8_counterexample :
    findFreeSpaceForIsland freeSpaceTarget [freeSpaceOther] 16 = ⟨8, 8⟩ ∧
      ((⟨8, 8⟩ : Vector2Int) ≠ ⟨4, 0⟩) := by
  constructor
  · have hfm : ([freeSpaceOther].filter (fun u => u ≠ freeSpaceTarget)).map
        (fun u => pixelPos u 16) = [occupiedRect] := by
      have hne : freeSpaceOther ≠ freeSpaceTarget := by
        norm_num [freeSpaceOther, freeSpaceTarget]
      simp [hne, freeSpaceOther_pixelPos, occupiedRect]
    rw [findFreeSpaceForIsland, hfm, freeSpaceTarget_pixelPos]
    decide
  · decide

/-- C8 (amended): in the claim's scenario (one other island occupying the 4×4
pixel rectangle at the origin of a 16×16 texture, 4×4 target) the value
`(4,0)` is returned exactly in the fallback situation: whenever the target's
current position is itself unusable (not fully inside the texture, or
overlapping the occupied rectangle), the first usable candidate in ascending
`(y, x)` scan order is `(4,0)`.  When the current position is usable it is
returned instead (as the run above shows), since the source always prefers it. -/
theorem C8_theorem (target : UVFaceSet) (p0 : Vector2Int)
    (hne : freeSpaceOther ≠ target)
    (hpix : pixelPos target 16 = ⟨p0, ⟨p0.x + 4, p0.y + 4⟩⟩)
    (hbad : texRect16.contains p0 ⟨4, 4⟩ = false ∨ occupiedRect.overlaps p0 ⟨4, 4⟩ = true) :
    findFreeSpaceForIsland target [freeSpaceOther] 16 = ⟨4, 0⟩ := by
  have hfm : ([freeSpaceOther].filter (fun u => u ≠ target)).map
      (fun u => pixelPos u 16) = [occupiedRect] := by
    simp [hne, freeSpaceOther_pixelPos, occupiedRect]
  rw [findFreeSpaceForIsland, hfm, hpix]
  have hsize : (RectInt.mk p0 ⟨p0.x + 4, p0.y + 4⟩).size = ⟨4, 4⟩ := by
    simp [RectInt.size]
  simp only [findFreeSpaceCore, hsize, occupiedRect, List.flatMap_cons, List.flatMap_nil,
    List.append_nil]
  have hsort : List.insertionSort yxLe
      [(⟨0, 0⟩ : Vector2Int), ⟨4, 0⟩, ⟨0, 4⟩] = [⟨0, 0⟩, ⟨4, 0⟩, ⟨0, 4⟩] := by decide
  rw [hsort]
  simp only [texRect16, occupiedRect] at hbad
  have hc0 : (fun p => RectInt.contains ⟨⟨0, 0⟩, ⟨16, 16⟩⟩ p ⟨4, 4⟩
      && !((([⟨⟨0, 0⟩, ⟨4, 4⟩⟩] : List RectInt)).any fun r => r.overlaps p ⟨4, 4⟩)) p0
      ≠ true := by
    rcases hbad with hbad | hbad
    · simp [hbad]
    · simp [hbad]
  rw [@List.find?_cons_of_neg _ (fun p => RectInt.contains ⟨⟨0, 0⟩, ⟨16, 16⟩⟩ p ⟨4, 4⟩
      && !((([⟨⟨0, 0⟩, ⟨4, 4⟩⟩] : List RectInt)).any fun r => r.overlaps p ⟨4, 4⟩)) p0
      [⟨0, 0⟩, ⟨4, 0⟩, ⟨0, 4⟩] hc0]
  have hfind : List.find? (fun p => RectInt.contains ⟨⟨0, 0⟩, ⟨16, 16⟩⟩ p ⟨4, 4⟩
      && !((([⟨⟨0, 0⟩, ⟨4, 4⟩⟩] : List RectInt)).any fun r => r.overlaps p ⟨4, 4⟩))
      [(⟨0, 0⟩ : Vector2Int), ⟨4, 0⟩, ⟨0, 4⟩] = some ⟨4, 0⟩ := by decide
  rw [hfind]

/-- A second target island with the same pixel bounds `(0,0)–(4,4)` as the
occupied rectangle (hence overlapping it), but different UV bounds. -/
def freeSpaceTargetAtOrigin : UVFaceSet := ⟨(1/16, 1/16), (11/50, 11/50)⟩

/-- Witness for `C8_theorem`: the target sitting on the occupied rectangle is
sent to `(4, 0)`. -/
theorem C8_witness :
    findFreeSpaceForIsland freeSpaceTargetAtOrigin [freeSpaceOther] 16 = ⟨4, 0⟩ :=
  C8_theorem freeSpaceTargetAtOrigin ⟨0, 0⟩
    (by norm_num [freeSpaceOther, freeSpaceTargetAtOrigin])
    (by unfold pixelPos calcPixelBounds freeSpaceTargetAtOrigin
        norm_num
        rw [Int.ceil_eq_iff]
        norm_num)
    (Or.inr (by decide))

/-! ## The pixel buffer and region transform (`texture.py`)

A `PixelArray` holds a flat RGBA float buffer (modelled as `List ℚ`) of
`width · height · 4` entries (the constructor asserts this invariant).  The
affine pixel-space transforms passed to `copy_region_transformed` are 3×3
homogeneous matrices with last row `(0, 0, 1)`; `Affine2` stores their six
meaningful entries. -/

/-- `PixelArray` from `texture.py` (the fields; the buffer invariant
`pixels.length = width · height · 4` asserted by the constructor is carried
as a hypothesis by the theorems). -/
structure PixelArray where
  width : ℕ
  height : ℕ
  pixels : List ℚ
deriving DecidableEq

/-- `PixelArray.get_pixel(x, y)`: wrap-around (toroidal) read of the four
RGBA components at `(x % width, y % height)` (the Python slice
`pixels[idx : idx + 4]`). -/
def PixelArray.getPixel (a : PixelArray) (x y : Int) : List ℚ :=
  let xw := x.emod a.width
  let yw := y.emod a.height
  let idx := ((yw * a.width + xw) * 4).toNat
  (a.pixels.drop idx).take 4

/-- `PixelArray.set_pixel(x, y, pix)`: wrap-around write of four components,
the Python slice assignment `pixels[idx : idx + 4] = pix`. -/
def PixelArray.setPixel (a : PixelArray) (x y : Int) (pix : List ℚ) : PixelArray :=
  let xw := x.emod a.width
  let yw := y.emod a.height
  let idx := ((yw * a.width + xw) * 4).toNat
  { a with pixels := a.pixels.take idx ++ pix ++ a.pixels.drop (idx + 4) }

/-- A pixel-space affine transform: the 3×3 homogeneous matrix
`[[a, b, c], [d, e, f], [0, 0, 1]]`. -/
structure Affine2 where
  a : ℚ
  b : ℚ
  c : ℚ
  d : ℚ
  e : ℚ
  f : ℚ
deriving DecidableEq

/-- Application `transform @ (x, y, 1)` (the third homogeneous coordinate
stays `1` for an affine matrix, so the code's division by `z` is by `1`). -/
def Affine2.apply (t : Affine2) (p : ℚ × ℚ) : ℚ × ℚ :=
  (t.a * p.1 + t.b * p.2 + t.c, t.d * p.1 + t.e * p.2 + t.f)

/-- Determinant of the linear part (equals the 3×3 determinant). -/
def Affine2.det (t : Affine2) : ℚ := t.a * t.e - t.b * t.d

/-- `mathutils.Matrix.inverted()`: raises `ValueError` on a singular matrix
(modelled as `none`), otherwise the inverse affine matrix. -/
def Affine2.inverted (t : Affine2) : Option Affine2 :=
  if t.det = 0 then none
  else some
    ⟨t.e / t.det, -t.b / t.det, (t.b * t.f - t.e * t.c) / t.det,
     -t.d / t.det, t.a / t.det, (t.d * t.c - t.a * t.f) / t.det⟩

/-- Python's `range(a, b)` over integers. -/
def intRange (a b : Int) : List Int := (List.range (b - a).toNat).map (fun (k : ℕ) => a + (k : Int))

/-- The clamped destination scan bounds `(dst_min_x, dst_min_y, dst_max_x,
dst_max_y)` computed by `copy_region_transformed` (`texture.py` lines
110-135): transform the four half-pixel-inset corners of `src_rect`, take the
floor/ceil of their bounding box, and clamp to the buffer. -/
def PixelArray.dstBounds (dst : PixelArray) (srcRect : RectInt) (transform : Affine2) :
    Int × Int × Int × Int :=
  let bl := transform.apply ((srcRect.min.x : ℚ) + 1/2, (srcRect.min.y : ℚ) + 1/2)
  let tr := transform.apply ((srcRect.max.x : ℚ) - 1/2, (srcRect.max.y : ℚ) - 1/2)
  let tl := transform.apply ((srcRect.min.x : ℚ) + 1/2, (srcRect.max.y : ℚ) - 1/2)
  let br := transform.apply ((srcRect.max.x : ℚ) - 1/2, (srcRect.min.y : ℚ) + 1/2)
  (max 0 ⌊min (min bl.1 br.1) (min tl.1 tr.1)⌋,
   max 0 ⌊min (min bl.2 br.2) (min tl.2 tr.2)⌋,
   min (dst.width : Int) ⌈max (max bl.1 br.1) (max tl.1 tr.1)⌉,
   min (dst.height : Int) ⌈max (max bl.2 br.2) (max tl.2 tr.2)⌉)

/-- `PixelArray.copy_region_transformed(source, src_rect, transform)` from
`texture.py`: scan the clamped destination bounds, inverse-transform each
destination pixel center, and nearest-neighbor copy the source pixel
(wrap-around read, in-bounds write).  `none` models the `ValueError` raised
by `transform.inverted()` on a singular transform (raised before any write). -/
def PixelArray.copyRegionTransformed (dst source : PixelArray) (srcRect : RectInt)
    (transform : Affine2) : Option PixelArray :=
  let bounds := dst.dstBounds srcRect transform
  match transform.inverted with
  | none => none
  | some invTransform =>
    some ((intRange bounds.2.1 bounds.2.2.2).foldl (fun acc (y : Int) =>
      (intRange bounds.1 bounds.2.2.1).foldl (fun acc2 (x : Int) =>
        let srcPoint := invTransform.apply ((x : ℚ) + 1/2, (y : ℚ) + 1/2)
        acc2.setPixel x y (source.getPixel ⌊srcPoint.1⌋ ⌊srcPoint.2⌋)) acc) dst)

/-- `PixelArray.copy_region(source, src_pos, size, dst_pos)` from
`texture.py`: a pure translation expressed as an identity matrix with the
offset in the third column, passed to `copy_region_transformed`. -/
def PixelArray.copyRegion (dst source : PixelArray) (srcPos size dstPos : Vector2Int) :
    Option PixelArray :=
  let offset := dstPos - srcPos
  dst.copyRegionTransformed source ⟨srcPos, srcPos + size⟩
    ⟨1, 0, (offset.x : ℚ), 0, 1, (offset.y : ℚ)⟩

/-! ### Supporting lemmas for the region transform -/

theorem mem_intRange {x a b : Int} : x ∈ intRange a b ↔ a ≤ x ∧ x < b := by
  rw [intRange]
  constructor
  · intro hx
    obtain ⟨k, hk, he⟩ := List.mem_map.mp hx
    rw [List.mem_range] at hk
    omega
  · intro h
    refine List.mem_map.mpr ⟨(x - a).toNat, ?_, ?_⟩
    · rw [List.mem_range]
      omega
    · omega

theorem splice_getElem?_of_lt {α} (l m : List α) (i j : ℕ) (hi : i ≤ l.length) (hj : j < i) :
    (l.take i ++ m ++ l.drop (i + 4))[j]? = l[j]? := by
  have h0 : j < (l.take i).length := by simp [List.length_take]; omega
  have h1 : j < (l.take i ++ m).length := by simp [List.length_take, List.length_append]; omega
  rw [List.getElem?_append_left h1, List.getElem?_append_left h0]
  exact List.getElem?_take_of_lt hj

theorem splice_getElem?_of_ge {α} (l m : List α) (i j : ℕ) (hi : i ≤ l.length)
    (hm : m.length = 4) (hj : i + 4 ≤ j) :
    (l.take i ++ m ++ l.drop (i + 4))[j]? = l[j]? := by
  have h1 : (l.take i ++ m).length ≤ j := by
    simp [List.length_take, List.length_append, hm]
    omega
  rw [List.getElem?_append_right h1, List.getElem?_drop]
  have h2 : (l.take i ++ m).length = i + 4 := by
    simp [List.length_take, List.length_append, hm]
    omega
  rw [h2]
  congr 1
  omega

theorem setPixel_width (a : PixelArray) (x y : Int) (p : List ℚ) :
    (a.setPixel x y p).width = a.width := rfl

theorem setPixel_height (a : PixelArray) (x y : Int) (p : List ℚ) :
    (a.setPixel x y p).height = a.height := rfl

theorem cell_mul_bound (w h x y : Int) (hx0 : 0 ≤ x) (hxw : x < w) (hy0 : 0 ≤ y) (hyh : y < h) :
    (y * w + x) * 4 + 4 ≤ w * h * 4 := by
  nlinarith [mul_nonneg hy0 (le_trans hx0 hxw.le), (h - 1 - y) * w]

theorem setPixel_length (a : PixelArray) (x y : Int) (p : List ℚ)
    (hp : p.length = 4)
    (hlen : a.pixels.length = a.width * a.height * 4)
    (hx0 : 0 ≤ x) (hxw : x < (a.width : Int)) (hy0 : 0 ≤ y) (hyh : y < (a.height : Int)) :
    (a.setPixel x y p).pixels.length = a.pixels.length := by
  have hxe : x.emod a.width = x := Int.emod_eq_of_lt hx0 hxw
  have hye : y.emod a.height = y := Int.emod_eq_of_lt hy0 hyh
  have key : (y * (a.width : Int) + x) * 4 + 4 ≤ (a.width : Int) * a.height * 4 :=
    cell_mul_bound _ _ _ _ hx0 hxw hy0 hyh
  have hcast : ((a.width * a.height * 4 : ℕ) : Int) = (a.width : Int) * a.height * 4 := by
    push_cast
    ring
  have hnn : 0 ≤ (y * (a.width : Int) + x) * 4 := by positivity
  have hidx : ((y * (a.width : Int) + x) * 4).toNat + 4 ≤ a.pixels.length := by
    rw [hlen]
    omega
  simp only [PixelArray.setPixel, hxe, hye]
  simp only [List.length_append, List.length_take, List.length_drop, hp]
  omega

theorem setPixel_getPixel_of_ne (a : PixelArray) (x0 y0 x y : Int) (p : List ℚ)
    (hp : p.length = 4) (hlen : a.pixels.length = a.width * a.height * 4)
    (hx00 : 0 ≤ x0) (hx0w : x0 < (a.width : Int)) (hy00 : 0 ≤ y0) (hy0h : y0 < (a.height : Int))
    (hx0 : 0 ≤ x) (hxw : x < (a.width : Int)) (hy0 : 0 ≤ y) (hyh : y < (a.height : Int))
    (hne : ¬ (x = x0 ∧ y = y0)) :
    (a.setPixel x0 y0 p).getPixel x y = a.getPixel x y := by
  have hcne : y * (a.width : Int) + x ≠ y0 * (a.width : Int) + x0 := by
    intro hc
    have hyy : y = y0 := by
      rcases lt_trichotomy y y0 with h | h | h
      · nlinarith
      · exact h
      · nlinarith
    rw [hyy] at hc
    exact hne ⟨by omega, hyy⟩
  have hxe : x.emod a.width = x := Int.emod_eq_of_lt hx0 hxw
  have hye : y.emod a.height = y := Int.emod_eq_of_lt hy0 hyh
  have hx0e : x0.emod a.width = x0 := Int.emod_eq_of_lt hx00 hx0w
  have hy0e : y0.emod a.height = y0 := Int.emod_eq_of_lt hy00 hy0h
  have key : (y * (a.width : Int) + x) * 4 + 4 ≤ (a.width : Int) * a.height * 4 :=
    cell_mul_bound _ _ _ _ hx0 hxw hy0 hyh
  have key0 : (y0 * (a.width : Int) + x0) * 4 + 4 ≤ (a.width : Int) * a.height * 4 :=
    cell_mul_bound _ _ _ _ hx00 hx0w hy00 hy0h
  have hnn : 0 ≤ y * (a.width : Int) + x := by positivity
  have hnn0 : 0 ≤ y0 * (a.width : Int) + x0 := by positivity
  have hcast : ((a.width * a.height * 4 : ℕ) : Int) = (a.width : Int) * a.height * 4 := by
    push_cast
    ring
  have hi0len : ((y0 * (a.width : Int) + x0) * 4).toNat + 4 ≤ a.pixels.length := by
    rw [hlen]
    omega
  have hilen : ((y * (a.width : Int) + x) * 4).toNat + 4 ≤ a.pixels.length := by
    rw [hlen]
    omega
  have hsep : ((y * (a.width : Int) + x) * 4).toNat + 4 ≤ ((y0 * (a.width : Int) + x0) * 4).toNat
      ∨ ((y0 * (a.width : Int) + x0) * 4).toNat + 4 ≤ ((y * (a.width : Int) + x) * 4).toNat := by
    rcases hcne.lt_or_lt with h | h
    · left
      omega
    · right
      omega
  simp only [PixelArray.setPixel, PixelArray.getPixel]
  rw [hxe, hye, hx0e, hy0e]
  apply List.ext_getElem?
  intro n
  by_cases hn : n < 4
  · rw [List.getElem?_take_of_lt hn, List.getElem?_take_of_lt hn, List.getElem?_drop,
      List.getElem?_drop]
    rcases hsep with hs | hs
    · refine splice_getElem?_of_lt _ _ _ _ ?_ ?_
      · omega
      · omega
    · refine splice_getElem?_of_ge _ _ _ _ ?_ hp ?_
      · omega
      · omega
  · rw [List.getElem?_eq_none (le_trans (List.length_take_le _ _) (by omega)),
      List.getElem?_eq_none (le_trans (List.length_take_le _ _) (by omega))]

theorem getPixel_length (a : PixelArray) (x y : Int)
    (hw : 0 < a.width) (hh : 0 < a.height)
    (hlen : a.pixels.length = a.width * a.height * 4) :
    (a.getPixel x y).length = 4 := by
  have hW0 : (0 : Int) < a.width := by exact_mod_cast hw
  have hH0 : (0 : Int) < a.height := by exact_mod_cast hh
  have hx0 : 0 ≤ x.emod a.width := Int.emod_nonneg x (by omega)
  have hxw : x.emod a.width < (a.width : Int) := Int.emod_lt_of_pos x hW0
  have hy0 : 0 ≤ y.emod a.height := Int.emod_nonneg y (by omega)
  have hyh : y.emod a.height < (a.height : Int) := Int.emod_lt_of_pos y hH0
  have key : (y.emod a.height * (a.width : Int) + x.emod a.width) * 4 + 4
      ≤ (a.width : Int) * a.height * 4 :=
    cell_mul_bound _ _ _ _ hx0 hxw hy0 hyh
  have hnn : 0 ≤ (y.emod a.height * (a.width : Int) + x.emod a.width) * 4 := by positivity
  have hcast : ((a.width * a.height * 4 : ℕ) : Int) = (a.width : Int) * a.height * 4 := by
    push_cast
    ring
  simp only [PixelArray.getPixel, List.length_take, List.length_drop, hlen]
  omega

theorem inner_fold_frame (dst : PixelArray) (minX minY maxX maxY : Int)
    (f : Int → Int → List ℚ) (hf : ∀ y x, (f y x).length = 4)
    (hminX : 0 ≤ minX) (hmaxX : maxX ≤ (dst.width : Int))
    (hminY : 0 ≤ minY) (hmaxY : maxY ≤ (dst.height : Int))
    (y0 : Int) (hy0a : minY ≤ y0) (hy0b : y0 < maxY)
    (xs : List Int) (hxs : ∀ x ∈ xs, minX ≤ x ∧ x < maxX)
    (acc : PixelArray)
    (haw : acc.width = dst.width) (hah : acc.height = dst.height)
    (hal : acc.pixels.length = dst.pixels.length)
    (hdlen : dst.pixels.length = dst.width * dst.height * 4)
    (hfr : ∀ x y : Int, 0 ≤ x → x < (dst.width : Int) → 0 ≤ y → y < (dst.height : Int) →
      (x < minX ∨ maxX ≤ x ∨ y < minY ∨ maxY ≤ y) → acc.getPixel x y = dst.getPixel x y) :
    let out := xs.foldl (fun acc2 x => acc2.setPixel x y0 (f y0 x)) acc
    out.width = dst.width ∧ out.height = dst.height ∧
      out.pixels.length = dst.pixels.length ∧
      (∀ x y : Int, 0 ≤ x → x < (dst.width : Int) → 0 ≤ y → y < (dst.height : Int) →
        (x < minX ∨ maxX ≤ x ∨ y < minY ∨ maxY ≤ y) →
          out.getPixel x y = dst.getPixel x y) := by
  induction xs generalizing acc with
  | nil => exact ⟨haw, hah, hal, hfr⟩
  | cons x0 rest ih =>
    have hx0 := hxs x0 (List.mem_cons_self x0 rest)
    have hrest : ∀ x ∈ rest, minX ≤ x ∧ x < maxX :=
      fun x hx => hxs x (List.mem_cons_of_mem x0 hx)
    simp only [List.foldl_cons]
    have hx0w : 0 ≤ x0 ∧ x0 < (acc.width : Int) := by
      rw [haw]
      exact ⟨le_trans hminX hx0.1, lt_of_lt_of_le hx0.2 hmaxX⟩
    have hy0w : 0 ≤ y0 ∧ y0 < (acc.height : Int) := by
      rw [hah]
      exact ⟨le_trans hminY hy0a, lt_of_lt_of_le hy0b hmaxY⟩
    have halen : acc.pixels.length = acc.width * acc.height * 4 := by
      rw [hal, haw, hah]
      exact hdlen
    refine ih hrest (acc.setPixel x0 y0 (f y0 x0)) haw hah ?_ ?_
    · rw [setPixel_length acc x0 y0 (f y0 x0) (hf y0 x0) halen hx0w.1 hx0w.2 hy0w.1 hy0w.2]
      exact hal
    · intro x y hxa hxb hya hyb hout
      have hne : ¬ (x = x0 ∧ y = y0) := by
        rintro ⟨rfl, rfl⟩
        rcases hout with h | h | h | h
        · omega
        · omega
        · omega
        · omega
      rw [setPixel_getPixel_of_ne acc x0 y0 x y (f y0 x0) (hf y0 x0) halen
        hx0w.1 hx0w.2 hy0w.1 hy0w.2 hxa (by rw [haw]; exact hxb)
        hya (by rw [hah]; exact hyb) hne]
      exact hfr x y hxa hxb hya hyb hout

theorem outer_fold_frame (dst : PixelArray) (minX minY maxX maxY : Int)
    (f : Int → Int → List ℚ) (hf : ∀ y x, (f y x).length = 4)
    (hminX : 0 ≤ minX) (hmaxX : maxX ≤ (dst.width : Int))
    (hminY : 0 ≤ minY) (hmaxY : maxY ≤ (dst.height : Int))
    (ys : List Int) (hys : ∀ y ∈ ys, minY ≤ y ∧ y < maxY)
    (acc : PixelArray)
    (haw : acc.width = dst.width) (hah : acc.height = dst.height)
    (hal : acc.pixels.length = dst.pixels.length)
    (hdlen : dst.pixels.length = dst.width * dst.height * 4)
    (hfr : ∀ x y : Int, 0 ≤ x → x < (dst.width : Int) → 0 ≤ y → y < (dst.height : Int) →
      (x < minX ∨ maxX ≤ x ∨ y < minY ∨ maxY ≤ y) → acc.getPixel x y = dst.getPixel x y) :
    let out := ys.foldl (fun acc1 y =>
      (intRange minX maxX).foldl (fun acc2 x => acc2.setPixel x y (f y x)) acc1) acc
    out.width = dst.width ∧ out.height = dst.height ∧
      out.pixels.length = dst.pixels.length ∧
      (∀ x y : Int, 0 ≤ x → x < (dst.width : Int) → 0 ≤ y → y < (dst.height : Int) →
        (x < minX ∨ maxX ≤ x ∨ y < minY ∨ maxY ≤ y) →
          out.getPixel x y = dst.getPixel x y) := by
  induction ys generalizing acc with
  | nil => exact ⟨haw, hah, hal, hfr⟩
  | cons y0 rest ih =>
    have hy0 := hys y0 (List.mem_cons_self y0 rest)
    have hrest : ∀ y ∈ rest, minY ≤ y ∧ y < maxY :=
      fun y hy => hys y (List.mem_cons_of_mem y0 hy)
    simp only [List.foldl_cons]
    have hxs : ∀ x ∈ intRange minX maxX, minX ≤ x ∧ x < maxX := by
      intro x hx
      exact (mem_intRange).mp hx
    have hstep := inner_fold_frame dst minX minY maxX maxY f hf hminX hmaxX hminY hmaxY
      y0 hy0.1 hy0.2 (intRange minX maxX) hxs acc haw hah hal hdlen hfr
    exact ih hrest _ hstep.1 hstep.2.1 hstep.2.2.1 hstep.2.2.2

theorem inverted_of_det_ne (t : Affine2) (h : t.det ≠ 0) :
    t.inverted = some
      ⟨t.e / t.det, -t.b / t.det, (t.b * t.f - t.e * t.c) / t.det,
       -t.d / t.det, t.a / t.det, (t.d * t.c - t.a * t.f) / t.det⟩ := by
  rw [Affine2.inverted, if_neg h]

/-- The full behaviour of `copy_region_transformed` needed by claims C7 and
C10: on an invertible transform the call succeeds, never resizes the buffer,
and leaves every buffer pixel outside the clamped destination scan region
untouched.  The hypotheses are the `PixelArray` data-model invariants asserted
by its constructor (and positive source dimensions, without which the Python
code would raise `ZeroDivisionError` in `get_pixel`). -/
theorem copyRegionTransformed_spec (dst source : PixelArray) (srcRect : RectInt) (t : Affine2)
    (hdet : t.det ≠ 0)
    (hdlen : dst.pixels.length = dst.width * dst.height * 4)
    (hsw : 0 < source.width) (hsh : 0 < source.height)
    (hslen : source.pixels.length = source.width * source.height * 4) :
    ∃ out, dst.copyRegionTransformed source srcRect t = some out ∧
      out.width = dst.width ∧ out.height = dst.height ∧
      out.pixels.length = dst.pixels.length ∧
      ∀ x y : Int, 0 ≤ x → x < (dst.width : Int) → 0 ≤ y → y < (dst.height : Int) →
        (x < (dst.dstBounds srcRect t).1 ∨ (dst.dstBounds srcRect t).2.2.1 ≤ x ∨
         y < (dst.dstBounds srcRect t).2.1 ∨ (dst.dstBounds srcRect t).2.2.2 ≤ y) →
        out.getPixel x y = dst.getPixel x y := by
  rw [PixelArray.copyRegionTransformed, inverted_of_det_ne t hdet]
  refine ⟨_, rfl, ?_⟩
  have hminX : 0 ≤ (dst.dstBounds srcRect t).1 := by
    rw [PixelArray.dstBounds]
    exact le_max_left 0 _
  have hminY : 0 ≤ (dst.dstBounds srcRect t).2.1 := by
    rw [PixelArray.dstBounds]
    exact le_max_left 0 _
  have hmaxX : (dst.dstBounds srcRect t).2.2.1 ≤ (dst.width : Int) := by
    rw [PixelArray.dstBounds]
    exact min_le_left _ _
  have hmaxY : (dst.dstBounds srcRect t).2.2.2 ≤ (dst.height : Int) := by
    rw [PixelArray.dstBounds]
    exact min_le_left _ _
  have hys : ∀ y ∈ intRange (dst.dstBounds srcRect t).2.1 (dst.dstBounds srcRect t).2.2.2,
      (dst.dstBounds srcRect t).2.1 ≤ y ∧ y < (dst.dstBounds srcRect t).2.2.2 :=
    fun y hy => mem_intRange.mp hy
  exact outer_fold_frame dst (dst.dstBounds srcRect t).1 (dst.dstBounds srcRect t).2.1
    (dst.dstBounds srcRect t).2.2.1 (dst.dstBounds srcRect t).2.2.2
    (fun y x =>
      source.getPixel
        ⌊(Affine2.apply
            ⟨t.e / t.det, -t.b / t.det, (t.b * t.f - t.e * t.c) / t.det,
             -t.d / t.det, t.a / t.det, (t.d * t.c - t.a * t.f) / t.det⟩
            ((x : ℚ) + 1/2, (y : ℚ) + 1/2)).1⌋
        ⌊(Affine2.apply
            ⟨t.e / t.det, -t.b / t.det, (t.b * t.f - t.e * t.c) / t.det,
             -t.d / t.det, t.a / t.det, (t.d * t.c - t.a * t.f) / t.det⟩
            ((x : ℚ) + 1/2, (y : ℚ) + 1/2)).2⌋)
    (fun y x => getPixel_length source _ _ hsw hsh hslen)
    hminX hmaxX hminY hmaxY _ hys dst rfl rfl rfl hdlen
    (fun x y _ _ _ _ _ => rfl)

/-! ### Claims C7 and C10 -/

/-- A 1×1 RGBA pixel buffer (satisfying the constructor invariant). -/
def onePixelArray : PixelArray := ⟨1, 1, [0, 0, 0, 1]⟩

/-- A singular affine transform (zero second row) that shifts x by −100: it
maps every corner of any source region far to the left of the buffer. -/
def singularShift : Affine2 := ⟨1, 0, -100, 0, 0, 0⟩

/-- C7 (counterexample): the claim promises that *every* such call completes
without raising; but for a singular affine transform (here `singularShift`,
whose transformed corners all lie at `x ≤ -96.5 < 0`, outside the destination
buffer) `transform.inverted()` raises `ValueError` (modelled as `none`)
before any pixel is written. -/
theorem C7_counterexample :
    (singularShift.apply ((0 : ℚ) + 1/2, (0 : ℚ) + 1/2)).1 < 0 ∧
      onePixelArray.copyRegionTransformed onePixelArray ⟨⟨0, 0⟩, ⟨4, 4⟩⟩ singularShift = none := by
  constructor
  · norm_num [Affine2.apply, singularShift]
  · have hinv : singularShift.inverted = none := by
      rw [Affine2.inverted, if_pos (by norm_num [Affine2.det, singularShift])]
    rw [PixelArray.copyRegionTransformed, hinv]

/-- C7 (amended): for every *invertible* affine transform (and any source
region), `copy_region_transformed` completes without raising and writes only
destination pixels inside the clamped scan region `[dminX, dmaxX) ×
[dminY, dmaxY)`, which by construction lies inside `[0, width) × [0, height)`;
every other destination pixel keeps its previous value.  A singular transform
instead raises `ValueError` in `transform.inverted()` (see
the singular-shift run above), before any write.  Hypotheses: the destination buffer
satisfies the constructor's size invariant, and the source buffer is
well-formed (positive dimensions and size invariant; otherwise `get_pixel`
would raise `ZeroDivisionError`). -/
theorem C7_theorem (dst source : PixelArray) (srcRect : RectInt) (transform : Affine2)
    (hdet : transform.det ≠ 0)
    (hdlen : dst.pixels.length = dst.width * dst.height * 4)
    (hsw : 0 < source.width) (hsh : 0 < source.height)
    (hslen : source.pixels.length = source.width * source.height * 4)
    (dminX dminY dmaxX dmaxY : Int)
    (hbounds : dst.dstBounds srcRect transform = (dminX, dminY, dmaxX, dmaxY)) :
    ∃ out, dst.copyRegionTransformed source srcRect transform = some out ∧
      (0 ≤ dminX ∧ dmaxX ≤ (dst.width : Int) ∧ 0 ≤ dminY ∧ dmaxY ≤ (dst.height : Int)) ∧
      ∀ x y : Int, 0 ≤ x → x < (dst.width : Int) → 0 ≤ y → y < (dst.height : Int) →
        (x < dminX ∨ dmaxX ≤ x ∨ y < dminY ∨ dmaxY ≤ y) →
        out.getPixel x y = dst.getPixel x y := by
  obtain ⟨out, hout, hw, hh, hl, hfr⟩ :=
    copyRegionTransformed_spec dst source srcRect transform hdet hdlen hsw hsh hslen
  refine ⟨out, hout, ?_, ?_⟩
  · refine ⟨?_, ?_, ?_, ?_⟩
    · have : 0 ≤ (dst.dstBounds srcRect transform).1 := by
        rw [PixelArray.dstBounds]
        exact le_max_left 0 _
      rwa [hbounds] at this
    · have : (dst.dstBounds srcRect transform).2.2.1 ≤ (dst.width : Int) := by
        rw [PixelArray.dstBounds]
        exact min_le_left _ _
      rwa [hbounds] at this
    · have : 0 ≤ (dst.dstBounds srcRect transform).2.1 := by
        rw [PixelArray.dstBounds]
        exact le_max_left 0 _
      rwa [hbounds] at this
    · have : (dst.dstBounds srcRect transform).2.2.2 ≤ (dst.height : Int) := by
        rw [PixelArray.dstBounds]
        exact min_le_left _ _
      rwa [hbounds] at this
  · intro x y hxa hxb hya hyb hout2
    refine hfr x y hxa hxb hya hyb ?_
    rw [hbounds]
    exact hout2

/-- Witness for `C7_theorem` at the identity transform on a 1×1 buffer. -/
theorem C7_witness :
    ∃ out, onePixelArray.copyRegionTransformed onePixelArray ⟨⟨0, 0⟩, ⟨1, 1⟩⟩
        ⟨1, 0, 0, 0, 1, 0⟩ = some out ∧
      (0 ≤ (0 : Int) ∧ (1 : Int) ≤ ((onePixelArray.width : ℕ) : Int) ∧ 0 ≤ (0 : Int) ∧
        (1 : Int) ≤ ((onePixelArray.height : ℕ) : Int)) ∧
      ∀ x y : Int, 0 ≤ x → x < ((onePixelArray.width : ℕ) : Int) → 0 ≤ y →
        y < ((onePixelArray.height : ℕ) : Int) →
        (x < 0 ∨ 1 ≤ x ∨ y < 0 ∨ 1 ≤ y) →
        out.getPixel x y = onePixelArray.getPixel x y :=
  C7_theorem onePixelArray onePixelArray ⟨⟨0, 0⟩, ⟨1, 1⟩⟩ ⟨1, 0, 0, 0, 1, 0⟩
    (by norm_num [Affine2.det])
    (by norm_num [onePixelArray])
    (by norm_num [onePixelArray])
    (by norm_num [onePixelArray])
    (by norm_num [onePixelArray])
    0 0 1 1
    (by rw [PixelArray.dstBounds]
        norm_num [Affine2.apply, onePixelArray])

/-- C10: `copy_region_transformed` (and hence `copy_region`, which calls it
with a pure-translation matrix of determinant 1) never resizes the
destination buffer: for every source buffer, source rectangle and invertible
affine transform, the call succeeds and the destination's `width`, `height`
and pixel-list length are unchanged; only pixel values are overwritten.
Hypotheses are the `PixelArray` constructor invariants as in `C7_theorem`. -/
theorem C10_theorem (dst source : PixelArray) (srcRect : RectInt) (transform : Affine2)
    (hdet : transform.det ≠ 0)
    (hdlen : dst.pixels.length = dst.width * dst.height * 4)
    (hsw : 0 < source.width) (hsh : 0 < source.height)
    (hslen : source.pixels.length = source.width * source.height * 4) :
    (∃ out, dst.copyRegionTransformed source srcRect transform = some out ∧
        out.width = dst.width ∧ out.height = dst.height ∧
        out.pixels.length = dst.pixels.length) ∧
      ∀ srcPos size dstPos : Vector2Int,
        ∃ out, dst.copyRegion source srcPos size dstPos = some out ∧
          out.width = dst.width ∧ out.height = dst.height ∧
          out.pixels.length = dst.pixels.length := by
  constructor
  · obtain ⟨out, hout, hw, hh, hl, _⟩ :=
      copyRegionTransformed_spec dst source srcRect transform hdet hdlen hsw hsh hslen
    exact ⟨out, hout, hw, hh, hl⟩
  · intro srcPos size dstPos
    obtain ⟨out, hout, hw, hh, hl, _⟩ :=
      copyRegionTransformed_spec dst source ⟨srcPos, srcPos + size⟩
        ⟨1, 0, ((dstPos - srcPos).x : ℚ), 0, 1, ((dstPos - srcPos).y : ℚ)⟩
        (by norm_num [Affine2.det]) hdlen hsw hsh hslen
    exact ⟨out, hout, hw, hh, hl⟩

/-- Witness for `C10_theorem` on a 1×1 buffer with the identity transform. -/
theorem C10_witness :
    (∃ out, onePixelArray.copyRegionTransformed onePixelArray ⟨⟨0, 0⟩, ⟨1, 1⟩⟩
        ⟨1, 0, 0, 0, 1, 0⟩ = some out ∧
        out.width = onePixelArray.width ∧ out.height = onePixelArray.height ∧
        out.pixels.length = onePixelArray.pixels.length) ∧
      ∀ srcPos size dstPos : Vector2Int,
        ∃ out, onePixelArray.copyRegion onePixelArray srcPos size dstPos = some out ∧
          out.width = onePixelArray.width ∧ out.height = onePixelArray.height ∧
          out.pixels.length = onePixelArray.pixels.length :=
  C10_theorem onePixelArray onePixelArray ⟨⟨0, 0⟩, ⟨1, 1⟩⟩ ⟨1, 0, 0, 0, 1, 0⟩
    (by norm_num [Affine2.det])
    (by norm_num [onePixelArray])
    (by norm_num [onePixelArray])
    (by norm_num [onePixelArray])
    (by norm_num [onePixelArray])

/-! ## The grid builder (`grids.py`)

The builder walks a selection of quad faces from a start face, assigning grid
coordinates; the walk is embedded with explicit fuel, and the claims about it
are settled through a soundness invariant (every dict entry comes from a
reachable face) and a completeness invariant (with enough fuel the final
state is closed under non-seam steps). -/

/-- The `Direction` enum from `grids.py` (EAST=0, NORTH=1, WEST=2, SOUTH=3). -/
inductive Direction where
  | east
  | north
  | west
  | south
deriving DecidableEq

/-- `Direction.value` (the enum's integer value). -/
def Direction.value : Direction → ℕ
  | .east => 0
  | .north => 1
  | .west => 2
  | .south => 3

/-- `Direction.opposite` from `grids.py`. -/
def Direction.opposite : Direction → Direction
  | .north => .south
  | .south => .north
  | .east => .west
  | .west => .east

/-- `Direction.vector` from `grids.py`: the unit step for each direction. -/
def Direction.vector : Direction → Int × Int
  | .east => (1, 0)
  | .north => (0, 1)
  | .west => (-1, 0)
  | .south => (0, -1)

/-- The Python constructor call `Direction(i)`; `_walk` only applies it to
`dir_idx ∈ range(4)`, so the catch-all case is never reached there. -/
def Direction.ofValue : ℕ → Direction
  | 0 => .east
  | 1 => .north
  | 2 => .west
  | _ => .south

/-- A bmesh face as the grid builder sees it: its `index` and the ids of the
edges in `face.edges` (cyclic boundary order). -/
structure BFace where
  index : ℕ
  edges : List ℕ
deriving DecidableEq

/-- The part of a bmesh relevant to `Grid.__init__`: the face list and the
`seam` flag of each edge (edges are named by id). -/
structure Mesh where
  faces : List BFace
  seam : ℕ → Bool

/-- `Grid.other_faces_on_edge(edge, face)`: all faces linked to the edge other
than `face` itself (an edge links exactly the faces having it in `edges`). -/
def otherFacesOnEdge (m : Mesh) (eid : ℕ) (fidx : ℕ) : List BFace :=
  m.faces.filter (fun f => decide (eid ∈ f.edges ∧ f.index ≠ fidx))

/-- The per-face record `GridFace` built by `_walk`: the assigned grid
coordinate and the four edge ids indexed by direction value
(EAST, NORTH, WEST, SOUTH). -/
structure GridFace where
  coord : Int × Int
  edges : List ℕ
deriving DecidableEq

/-- The edge rearrangement performed at the top of `_walk`:
`idx = list(face.edges).index(incoming_edge)`,
`north_edge_idx = (idx - edge_dir.value) % 4` (Python's floor `%`; written
with `+ 4` so the subtraction stays in `ℕ` — `idx` and `value` are `< 4`
whenever the incoming edge is one of a quad's edges), and the loop stores
`face.edges[(north_edge_idx + dir_idx) % 4]` for `dir_idx = 0, 1, 2, 3`. -/
def arrangeEdges (face : BFace) (incoming : ℕ) (edgeDir : Direction) : List ℕ :=
  let idx := face.edges.indexOf incoming
  let northEdgeIdx := (idx + 4 - edgeDir.value) % 4
  (List.range 4).map (fun d => face.edges.getD ((northEdgeIdx + d) % 4) 0)

/-- `Grid._walk` from `grids.py`, with the recursion made explicit.

The walked part of the `self._faces` dict is the association list `st`
(`st.lookup k = none` exactly when the dict still holds `None` at key `k`;
`keys` is the fixed key set).  The Python code appends to `gridface.edges`
inside the same loop that recurses into the neighbours; the recursive calls
never read a partially built edge list (they only test dict membership and
`None`-ness), so the model computes the full `arrangeEdges` list first and
then performs the recursive calls in the same order.  The recursion is run on
explicit fuel; a call with fuel 0 returns the state unchanged, and
`gridInit` passes enough fuel that fuel 0 is only ever reached by calls that
fail the guard anyway (each guarded call adds one key, so guarded calls nest
at most `keys.length` deep). -/
def walk (m : Mesh) (keys : List ℕ) :
    ℕ → BFace → Int × Int → ℕ → Direction → List (ℕ × GridFace) → List (ℕ × GridFace)
  | 0, _, _, _, _, st => st
  | fuel + 1, face, coord, incoming, edgeDir, st =>
    if face.index ∈ keys ∧ st.lookup face.index = none then
      (List.range 4).foldl
        (fun st2 d =>
          if m.seam ((arrangeEdges face incoming edgeDir).getD d 0) then st2
          else
            (otherFacesOnEdge m ((arrangeEdges face incoming edgeDir).getD d 0) face.index).foldl
              (fun st3 of =>
                walk m keys fuel of (coord + (Direction.ofValue d).vector)
                  ((arrangeEdges face incoming edgeDir).getD d 0)
                  (Direction.ofValue d).opposite st3)
              st2)
        ((face.index, ⟨coord, arrangeEdges face incoming edgeDir⟩) :: st)
    else st

/-- The ways `Grid.__init__` can fail: the plain
`Exception("Selection contains non-quads")`, the `StopIteration` that
`next(face for face in faces)` raises on an empty selection, and the
`GridBuildException` carrying the indices of the unreached faces. -/
inductive GridInitError where
  | nonQuads
  | emptySelection
  | gridBuildException (unreached : List ℕ)
deriving DecidableEq

/-- The data a successful `Grid.__init__` leaves behind: the walked faces (in
selection order, coordinates already normalised) and `self.size`. -/
structure Grid where
  faces : List (ℕ × GridFace)
  size : Int × Int
deriving DecidableEq

/-- The start-face choice in `Grid.__init__`: `bm.faces.active` if it is in
the selection, else the first face of the selection. -/
def startFace (active : Option BFace) (faces : List BFace) : Option BFace :=
  match active with
  | some f => if f ∈ faces then some f else faces.head?
  | none => faces.head?

/-- The walk as `Grid.__init__` runs it: from the start face at coordinate
`(0, 0)`, with the face's first edge called NORTH, over the dict keyed by the
selection's face indices.  The fuel `keys.length + 1` covers every guarded
call (each guarded call visits a new key, so guarded calls nest at most
`keys.length` deep, and deeper calls fail their guard and are no-ops exactly
like the fuel-0 base case). -/
def gridWalkResult (m : Mesh) (faces : List BFace) (sf : BFace) : List (ℕ × GridFace) :=
  walk m (faces.map (·.index)) ((faces.map (·.index)).length + 1) sf (0, 0)
    (sf.edges.getD 0 0) .north []

/-- The walked coordinates, in selection order (`self._faces.values()`). -/
def gridCoords (faces : List BFace) (st : List (ℕ × GridFace)) : List (Int × Int) :=
  (faces.map (·.index)).filterMap (fun k => (st.lookup k).map (·.coord))

/-- The componentwise-min fold of `Grid.__init__` (Python starts from `None`
and replaces it with the first coordinate, i.e. folds from the head). -/
def gridMinCoord (coords : List (Int × Int)) : Int × Int :=
  coords.foldl (fun a c => (min a.1 c.1, min a.2 c.2)) (coords.headD (0, 0))

/-- The componentwise-max fold of `Grid.__init__`. -/
def gridMaxCoord (coords : List (Int × Int)) : Int × Int :=
  coords.foldl (fun a c => (max a.1 c.1, max a.2 c.2)) (coords.headD (0, 0))

/-- `Grid.__init__(bm, faces)` from `grids.py`.

`_faces` is keyed by `face.index`; bmesh face indices in a selection are
distinct, so the dict keys are `faces.map (·.index)` in selection order.
The quad check runs first (raising the plain non-quad `Exception`), then the
start face is chosen (`next(...)` raising `StopIteration` on an empty
selection), then the walk runs; if some key was not reached the code raises
`GridBuildException` with the unreached keys in selection order, otherwise
it subtracts the componentwise minimum from every coordinate and sets
`size = max - min + 1` (the `+ 1` broadcasts to both components). -/
def gridInit (m : Mesh) (active : Option BFace) (faces : List BFace) :
    Except GridInitError Grid :=
  if faces.all (fun f => f.edges.length == 4) then
    match startFace active faces with
    | none => .error .emptySelection
    | some sf =>
      if (faces.map (·.index)).all (fun k => ((gridWalkResult m faces sf).lookup k).isSome) then
        .ok ⟨(faces.map (·.index)).filterMap
            (fun k => ((gridWalkResult m faces sf).lookup k).map
              (fun g => (k, GridFace.mk
                (g.coord - gridMinCoord (gridCoords faces (gridWalkResult m faces sf)))
                g.edges))),
          gridMaxCoord (gridCoords faces (gridWalkResult m faces sf))
            - gridMinCoord (gridCoords faces (gridWalkResult m faces sf)) + (1, 1)⟩
      else
        .error (.gridBuildException ((faces.map (·.index)).filter
          (fun k => ((gridWalkResult m faces sf).lookup k).isNone)))
  else .error .nonQuads

/-- One non-seam step of the walk's neighbour relation: `g` is another face
on one of `f`'s edges and that edge is not a seam. -/
def Step (m : Mesh) (f g : BFace) : Prop :=
  ∃ eid ∈ f.edges, m.seam eid = false ∧ g ∈ m.faces ∧ eid ∈ g.edges ∧ g.index ≠ f.index

/-- Seam-respecting reachability through selected faces: the walk can only
continue from a face whose index is a dict key, so every intermediate face of
a path must be selected. -/
inductive Reach (m : Mesh) (keys : List ℕ) : BFace → BFace → Prop where
  | refl (f : BFace) : Reach m keys f f
  | tail {f g h : BFace} : Reach m keys f g → g.index ∈ keys → Step m g h → Reach m keys f h

theorem Reach.head {m : Mesh} {keys : List ℕ} {f g h : BFace}
    (hf : f.index ∈ keys) (hs : Step m f g) (hr : Reach m keys g h) :
    Reach m keys f h := by
  induction hr with
  | refl => exact Reach.tail (Reach.refl f) hf hs
  | tail hr hk hs2 ih => exact Reach.tail ih hk hs2

theorem Reach.mem_faces {m : Mesh} {keys : List ℕ} {f g : BFace}
    (hr : Reach m keys f g) : g = f ∨ g ∈ m.faces := by
  induction hr with
  | refl => exact Or.inl rfl
  | tail hr hk hs ih =>
    right
    obtain ⟨eid, _, _, hgm, _, _⟩ := hs
    exact hgm

/-- Fold invariant preservation: if each step of a `foldl` preserves `P`, the
whole fold does. -/
theorem foldl_preserve {α σ : Type} (P : σ → Prop) (f : σ → α → σ) :
    ∀ (l : List α) (s : σ), (∀ s2 a, a ∈ l → P s2 → P (f s2 a)) → P s → P (l.foldl f s)
  | [], s, _, hs => hs
  | a :: l, s, h, hs => by
    rw [List.foldl_cons]
    exact foldl_preserve P f l (f s a) (fun s2 b hb => h s2 b (List.mem_cons_of_mem _ hb))
      (h s a (List.mem_cons_self _ _) hs)

/-- The walk only adds dict entries: existing entries survive. -/
theorem walk_mono (m : Mesh) (keys : List ℕ) :
    ∀ (fuel : ℕ) (face : BFace) (coord : Int × Int) (incoming : ℕ) (edgeDir : Direction)
      (st : List (ℕ × GridFace)) (k : ℕ) (v : GridFace),
      st.lookup k = some v → (walk m keys fuel face coord incoming edgeDir st).lookup k = some v := by
  intro fuel
  induction fuel with
  | zero => intro face coord incoming edgeDir st k v h; rw [walk]; exact h
  | succ fuel ih =>
    intro face coord incoming edgeDir st k v h
    rw [walk]
    by_cases hg : face.index ∈ keys ∧ st.lookup face.index = none
    · rw [if_pos hg]
      have hk : k ≠ face.index := by
        intro he
        rw [he, hg.2] at h
        exact Option.noConfusion h
      have h1 : ((face.index, GridFace.mk coord (arrangeEdges face incoming edgeDir)) :: st).lookup k
          = some v := by
        simp only [List.lookup, beq_false_of_ne hk]
        exact h
      refine foldl_preserve (fun (s : List (ℕ × GridFace)) => s.lookup k = some v) _ _ _ ?_ h1
      intro s2 d _ hs2
      by_cases hseam : m.seam ((arrangeEdges face incoming edgeDir).getD d 0) = true
      · rw [if_pos hseam]
        exact hs2
      · rw [if_neg hseam]
        refine foldl_preserve (fun (s : List (ℕ × GridFace)) => s.lookup k = some v) _ _ _ ?_ hs2
        intro s3 of _ hs3
        exact ih of _ _ _ s3 k v hs3
    · rw [if_neg hg]
      exact h

/-- Parameterised soundness of the walk: if a call-validity predicate `V` is
preserved along the recursion (`hstep`), and each guarded call's new dict
entry satisfies an entry invariant `E`, then every entry of the final state
satisfies `E` (provided the input state's entries do). -/
theorem walk_sound_inv (m : Mesh) (keys : List ℕ)
    (V : BFace → (Int × Int) → ℕ → Direction → Prop)
    (E : ℕ → GridFace → Prop)
    (hstep : ∀ face coord incoming edgeDir, V face coord incoming edgeDir →
      face.index ∈ keys →
      E face.index ⟨coord, arrangeEdges face incoming edgeDir⟩ ∧
      (∀ d, d < 4 → m.seam ((arrangeEdges face incoming edgeDir).getD d 0) = false →
        ∀ of ∈ otherFacesOnEdge m ((arrangeEdges face incoming edgeDir).getD d 0) face.index,
          V of (coord + (Direction.ofValue d).vector)
            ((arrangeEdges face incoming edgeDir).getD d 0) (Direction.ofValue d).opposite)) :
    ∀ (fuel : ℕ) (face : BFace) (coord : Int × Int) (incoming : ℕ) (edgeDir : Direction)
      (st : List (ℕ × GridFace)),
      V face coord incoming edgeDir →
      (∀ k v, st.lookup k = some v → E k v) →
      ∀ k v, (walk m keys fuel face coord incoming edgeDir st).lookup k = some v → E k v := by
  intro fuel
  induction fuel with
  | zero =>
    intro face coord incoming edgeDir st _ hst k v h
    rw [walk] at h
    exact hst k v h
  | succ fuel ih =>
    intro face coord incoming edgeDir st hV hst k v h
    rw [walk] at h
    by_cases hg : face.index ∈ keys ∧ st.lookup face.index = none
    · rw [if_pos hg] at h
      have h1 : ∀ k2 v2,
          ((face.index, GridFace.mk coord (arrangeEdges face incoming edgeDir)) :: st).lookup k2
            = some v2 → E k2 v2 := by
        intro k2 v2 h2
        by_cases hk : k2 = face.index
        · subst hk
          simp only [List.lookup, beq_self_eq_true] at h2
          cases h2
          exact (hstep face coord incoming edgeDir hV hg.1).1
        · simp only [List.lookup, beq_false_of_ne hk] at h2
          exact hst k2 v2 h2
      refine foldl_preserve
        (fun (s : List (ℕ × GridFace)) => ∀ k2 v2, s.lookup k2 = some v2 → E k2 v2)
        _ _ _ ?_ h1 k v h
      intro s2 d hd hs2
      by_cases hseam : m.seam ((arrangeEdges face incoming edgeDir).getD d 0) = true
      · rw [if_pos hseam]
        exact hs2
      · rw [if_neg hseam]
        refine foldl_preserve
          (fun (s : List (ℕ × GridFace)) => ∀ k2 v2, s.lookup k2 = some v2 → E k2 v2)
          _ _ _ ?_ hs2
        intro s3 of hof hs3
        refine ih of _ _ _ s3 ?_ hs3
        exact (hstep face coord incoming edgeDir hV hg.1).2 d (List.mem_range.mp hd)
          (Bool.eq_false_iff.mpr hseam) of hof
    · rw [if_neg hg] at h
      exact hst k v h

/-- Number of dict keys still mapped to `None`. -/
def unvisited (keys : List ℕ) (st : List (ℕ × GridFace)) : ℕ :=
  (keys.filter (fun k => (st.lookup k).isNone)).length

/-- The state is closed under non-seam steps from every visited selected face,
except possibly the faces whose indices are in `P` (the faces whose neighbour
loop is still running higher up the call stack). -/
def ClosedExcept (m : Mesh) (keys : List ℕ) (st : List (ℕ × GridFace)) (P : List ℕ) : Prop :=
  ∀ f ∈ m.faces, f.index ∈ keys → st.lookup f.index ≠ none →
    f.index ∈ P ∨ ∀ g, Step m f g → g.index ∈ keys → st.lookup g.index ≠ none

theorem length_filter_mono {α : Type} (p q : α → Bool) :
    ∀ (l : List α), (∀ a ∈ l, p a = true → q a = true) →
      (l.filter p).length ≤ (l.filter q).length
  | [], _ => le_refl _
  | a :: l, h => by
    have ih := length_filter_mono p q l (fun b hb => h b (List.mem_cons_of_mem _ hb))
    rw [List.filter_cons, List.filter_cons]
    by_cases hp : p a = true
    · rw [if_pos hp, if_pos (h a (List.mem_cons_self _ _) hp)]
      simpa using ih
    · rw [if_neg hp]
      by_cases hq : q a = true
      · rw [if_pos hq]
        refine le_trans ih ?_
        simp
      · rw [if_neg hq]
        exact ih

theorem unvisited_le_of_ext (keys : List ℕ) (st st2 : List (ℕ × GridFace))
    (hext : ∀ k v, st.lookup k = some v → st2.lookup k = some v) :
    unvisited keys st2 ≤ unvisited keys st := by
  refine length_filter_mono _ _ keys ?_
  intro k _ hp
  cases hst : st.lookup k with
  | none => simp [hst]
  | some v =>
    rw [hext k v hst] at hp
    exact absurd hp (by simp)

theorem unvisited_cons (keys : List ℕ) (hnd : keys.Nodup) (fid : ℕ) (gf : GridFace)
    (st : List (ℕ × GridFace)) (hk : fid ∈ keys) (hnone : st.lookup fid = none) :
    unvisited keys ((fid, gf) :: st) + 1 = unvisited keys st := by
  induction keys with
  | nil => exact absurd hk (List.not_mem_nil fid)
  | cons k rest ih =>
    rw [List.nodup_cons] at hnd
    rw [unvisited, unvisited, List.filter_cons, List.filter_cons]
    by_cases hkf : k = fid
    · subst hkf
      have c1 : ((k, gf) :: st).lookup k = some gf := by
        simp only [List.lookup, beq_self_eq_true]
      have hfc : rest.filter (fun k2 => (((k, gf) :: st).lookup k2).isNone)
          = rest.filter (fun k2 => (st.lookup k2).isNone) := by
        refine List.filter_congr ?_
        intro k2 hk2
        have hne : k2 ≠ k := fun he => hnd.1 (he ▸ hk2)
        simp only [List.lookup, beq_false_of_ne hne]
      rw [if_neg (by rw [c1]; simp), if_pos (by rw [hnone]; rfl), hfc, List.length_cons]
    · have hrest : fid ∈ rest := by
        cases List.mem_cons.mp hk with
        | inl h => exact absurd h.symm hkf
        | inr h => exact h
      have hlk : ((fid, gf) :: st).lookup k = st.lookup k := by
        simp only [List.lookup, beq_false_of_ne hkf]
      rw [hlk]
      have ih2 := ih hnd.2 hrest
      rw [unvisited, unvisited] at ih2
      by_cases hkn : (st.lookup k).isNone = true
      · rw [if_pos hkn, if_pos hkn, List.length_cons, List.length_cons]
        omega
      · rw [if_neg hkn, if_neg hkn]
        exact ih2

/-- Fold with an invariant `I` and a per-element accumulated fact `Q`. -/
theorem foldl_invariant_accum {α σ : Type} (I : σ → Prop) (Q : α → σ → Prop) (f : σ → α → σ) :
    ∀ (l : List α) (s : σ),
      (∀ s2 a, a ∈ l → I s2 → I (f s2 a)) →
      (∀ s2 a, a ∈ l → I s2 → Q a (f s2 a)) →
      (∀ s2 a b, b ∈ l → Q a s2 → Q a (f s2 b)) →
      I s → I (l.foldl f s) ∧ ∀ a ∈ l, Q a (l.foldl f s)
  | [], s, _, _, _, hs => ⟨hs, by intro a ha; exact absurd ha (List.not_mem_nil a)⟩
  | a :: l, s, hI, hQ, hpers, hs => by
    rw [List.foldl_cons]
    have hs1 : I (f s a) := hI s a (List.mem_cons_self _ _) hs
    have hq1 : Q a (f s a) := hQ s a (List.mem_cons_self _ _) hs
    obtain ⟨hIf, hQf⟩ := foldl_invariant_accum I Q f l (f s a)
      (fun s2 b hb => hI s2 b (List.mem_cons_of_mem _ hb))
      (fun s2 b hb => hQ s2 b (List.mem_cons_of_mem _ hb))
      (fun s2 b c hc => hpers s2 b c (List.mem_cons_of_mem _ hc)) hs1
    refine ⟨hIf, ?_⟩
    intro b hb
    cases List.mem_cons.mp hb with
    | inl h =>
      subst h
      exact foldl_preserve (Q b) f l (f s b)
        (fun s2 c hc => hpers s2 b c (List.mem_cons_of_mem _ hc)) hq1
    | inr h => exact hQf b h

/-- Every edge of a quad appears at some direction slot of `arrangeEdges`. -/
theorem arrangeEdges_cover (face : BFace) (incoming : ℕ) (edgeDir : Direction)
    (hlen : face.edges.length = 4) (eid : ℕ) (he : eid ∈ face.edges) :
    ∃ d, d < 4 ∧ (arrangeEdges face incoming edgeDir).getD d 0 = eid := by
  obtain ⟨j, hj, hje⟩ := List.mem_iff_getElem.mp he
  rw [hlen] at hj
  refine ⟨(j + 4 - ((face.edges.indexOf incoming + 4 - edgeDir.value) % 4) % 4) % 4, by omega, ?_⟩
  rw [arrangeEdges]
  have h4 : (j + 4 - ((face.edges.indexOf incoming + 4 - edgeDir.value) % 4) % 4) % 4 < 4 := by
    omega
  rw [List.getD_eq_getElem _ _ (by simpa using h4), List.getElem_map, List.getElem_range]
  have hmod : ((face.edges.indexOf incoming + 4 - edgeDir.value) % 4 +
      (j + 4 - ((face.edges.indexOf incoming + 4 - edgeDir.value) % 4) % 4) % 4) % 4 = j := by
    omega
  rw [hmod, List.getD_eq_getElem _ _ (by omega), hje]

/-- Each direction slot of `arrangeEdges` holds one of the face's edges. -/
theorem arrangeEdges_mem (face : BFace) (incoming : ℕ) (edgeDir : Direction)
    (hlen : face.edges.length = 4) (d : ℕ) (hd : d < 4) :
    (arrangeEdges face incoming edgeDir).getD d 0 ∈ face.edges := by
  rw [arrangeEdges]
  rw [List.getD_eq_getElem _ _ (by simpa using hd), List.getElem_map, List.getElem_range]
  rw [List.getD_eq_getElem _ _ (by omega)]
  exact List.getElem_mem _

theorem lookup_cons_self (fid : ℕ) (gf : GridFace) (st : List (ℕ × GridFace)) :
    ((fid, gf) :: st).lookup fid = some gf := by
  simp only [List.lookup, beq_self_eq_true]

theorem lookup_cons_ne (fid k : ℕ) (gf : GridFace) (st : List (ℕ × GridFace)) (h : k ≠ fid) :
    ((fid, gf) :: st).lookup k = st.lookup k := by
  simp only [List.lookup, beq_false_of_ne h]

theorem ne_none_of_ext {st st2 : List (ℕ × GridFace)}
    (hext : ∀ k v, st.lookup k = some v → st2.lookup k = some v) (k : ℕ)
    (h : st.lookup k ≠ none) : st2.lookup k ≠ none := by
  cases hst : st.lookup k with
  | none => exact absurd hst h
  | some v =>
    rw [hext k v hst]
    simp

/-- The guarded unfolding of `walk` at positive fuel. -/
theorem walk_succ (m : Mesh) (keys : List ℕ) (fuel : ℕ) (face : BFace) (coord : Int × Int)
    (incoming : ℕ) (edgeDir : Direction) (st : List (ℕ × GridFace))
    (hg : face.index ∈ keys ∧ st.lookup face.index = none) :
    walk m keys (fuel + 1) face coord incoming edgeDir st =
      (List.range 4).foldl
        (fun st2 d =>
          if m.seam ((arrangeEdges face incoming edgeDir).getD d 0) then st2
          else
            (otherFacesOnEdge m ((arrangeEdges face incoming edgeDir).getD d 0) face.index).foldl
              (fun st3 of =>
                walk m keys fuel of (coord + (Direction.ofValue d).vector)
                  ((arrangeEdges face incoming edgeDir).getD d 0)
                  (Direction.ofValue d).opposite st3)
              st2)
        ((face.index, ⟨coord, arrangeEdges face incoming edgeDir⟩) :: st) := by
  rw [walk, if_pos hg]

/-- Completeness invariant of the walk: with enough fuel (one more than the
number of unvisited keys) a call leaves its own face visited and preserves
step-closedness outside the pending set `P`. -/
theorem walk_spec (m : Mesh) (keys : List ℕ) (hnd : keys.Nodup)
    (hmnd : (m.faces.map BFace.index).Nodup)
    (hq : ∀ f ∈ m.faces, f.index ∈ keys → f.edges.length = 4) :
    ∀ (fuel : ℕ) (face : BFace) (coord : Int × Int) (incoming : ℕ) (edgeDir : Direction)
      (st : List (ℕ × GridFace)) (P : List ℕ),
      face ∈ m.faces →
      unvisited keys st + 1 ≤ fuel →
      ClosedExcept m keys st P →
      (face.index ∈ keys →
        (walk m keys fuel face coord incoming edgeDir st).lookup face.index ≠ none) ∧
      ClosedExcept m keys (walk m keys fuel face coord incoming edgeDir st) P := by
  intro fuel
  induction fuel with
  | zero =>
    intro face coord incoming edgeDir st P _ hfuel _
    exact absurd hfuel (by omega)
  | succ fuel ih =>
    intro face coord incoming edgeDir st P hfm hfuel hce
    by_cases hg : face.index ∈ keys ∧ st.lookup face.index = none
    · have hq4 : face.edges.length = 4 := hq face hfm hg.1
      rw [walk_succ m keys fuel face coord incoming edgeDir st hg]
      generalize hGE : arrangeEdges face incoming edgeDir = GE
      have hunv1 : unvisited keys ((face.index, GridFace.mk coord GE) :: st) + 1
          = unvisited keys st :=
        unvisited_cons keys hnd face.index (GridFace.mk coord GE) st hg.1 hg.2
      have hce1 : ClosedExcept m keys ((face.index, GridFace.mk coord GE) :: st)
          (face.index :: P) := by
        intro f hf hfk hvis
        by_cases hfi : f.index = face.index
        · exact Or.inl (by rw [hfi]; exact List.mem_cons_self _ _)
        · rw [lookup_cons_ne face.index f.index _ st hfi] at hvis
          cases hce f hf hfk hvis with
          | inl h => exact Or.inl (List.mem_cons_of_mem _ h)
          | inr h =>
            refine Or.inr ?_
            intro g hsg hgk
            by_cases hgi : g.index = face.index
            · rw [hgi, lookup_cons_self]
              simp
            · rw [lookup_cons_ne _ _ _ _ hgi]
              exact h g hsg hgk
      have hInner : ∀ (d : ℕ) (s3 : List (ℕ × GridFace)) (of : BFace),
          of ∈ otherFacesOnEdge m (GE.getD d 0) face.index →
          ((∀ k v, ((face.index, GridFace.mk coord GE) :: st).lookup k = some v →
              s3.lookup k = some v) ∧
            ClosedExcept m keys s3 (face.index :: P) ∧
            unvisited keys s3 ≤ unvisited keys ((face.index, GridFace.mk coord GE) :: st)) →
          ((∀ k v, ((face.index, GridFace.mk coord GE) :: st).lookup k = some v →
              (walk m keys fuel of (coord + (Direction.ofValue d).vector) (GE.getD d 0)
                (Direction.ofValue d).opposite s3).lookup k = some v) ∧
            ClosedExcept m keys
              (walk m keys fuel of (coord + (Direction.ofValue d).vector) (GE.getD d 0)
                (Direction.ofValue d).opposite s3) (face.index :: P) ∧
            unvisited keys
              (walk m keys fuel of (coord + (Direction.ofValue d).vector) (GE.getD d 0)
                (Direction.ofValue d).opposite s3)
              ≤ unvisited keys ((face.index, GridFace.mk coord GE) :: st)) ∧
          (of.index ∈ keys →
            (walk m keys fuel of (coord + (Direction.ofValue d).vector) (GE.getD d 0)
              (Direction.ofValue d).opposite s3).lookup of.index ≠ none) := by
        intro d s3 of hof hI3
        have hofm : of ∈ m.faces := (List.mem_filter.mp hof).1
        have hu3 : unvisited keys s3 + 1 ≤ fuel := by
          have h1 := hI3.2.2
          omega
        obtain ⟨hvis, hclosed⟩ := ih of (coord + (Direction.ofValue d).vector) (GE.getD d 0)
          (Direction.ofValue d).opposite s3 (face.index :: P) hofm hu3 hI3.2.1
        refine ⟨⟨?_, hclosed, ?_⟩, hvis⟩
        · intro k v hk
          exact walk_mono m keys fuel of _ _ _ s3 k v (hI3.1 k v hk)
        · exact le_trans
            (unvisited_le_of_ext keys s3 _ (fun k v => walk_mono m keys fuel of _ _ _ s3 k v))
            hI3.2.2
      obtain ⟨hIf, hQf⟩ := foldl_invariant_accum
        (fun s => (∀ k v, ((face.index, GridFace.mk coord GE) :: st).lookup k = some v →
            s.lookup k = some v) ∧
          ClosedExcept m keys s (face.index :: P) ∧
          unvisited keys s ≤ unvisited keys ((face.index, GridFace.mk coord GE) :: st))
        (fun d s => m.seam (GE.getD d 0) = true ∨
          ∀ of ∈ otherFacesOnEdge m (GE.getD d 0) face.index,
            of.index ∈ keys → s.lookup of.index ≠ none)
        (fun st2 d =>
          if m.seam (GE.getD d 0) then st2
          else
            (otherFacesOnEdge m (GE.getD d 0) face.index).foldl
              (fun st3 of =>
                walk m keys fuel of (coord + (Direction.ofValue d).vector) (GE.getD d 0)
                  (Direction.ofValue d).opposite st3)
              st2)
        (List.range 4) ((face.index, GridFace.mk coord GE) :: st)
        (by
          intro s2 d hd hI2
          dsimp only
          by_cases hseam : m.seam (GE.getD d 0) = true
          · rw [if_pos hseam]
            exact hI2
          · rw [if_neg hseam]
            exact foldl_preserve _ _ _ s2 (fun s3 of hof hI3 => (hInner d s3 of hof hI3).1) hI2)
        (by
          intro s2 d hd hI2
          dsimp only
          by_cases hseam : m.seam (GE.getD d 0) = true
          · rw [if_pos hseam]
            exact Or.inl hseam
          · rw [if_neg hseam]
            refine Or.inr ?_
            obtain ⟨_, hq2⟩ := foldl_invariant_accum
              (fun s => (∀ k v, ((face.index, GridFace.mk coord GE) :: st).lookup k = some v →
                  s.lookup k = some v) ∧
                ClosedExcept m keys s (face.index :: P) ∧
                unvisited keys s ≤ unvisited keys ((face.index, GridFace.mk coord GE) :: st))
              (fun (of : BFace) s => of.index ∈ keys → s.lookup of.index ≠ none)
              (fun st3 of =>
                walk m keys fuel of (coord + (Direction.ofValue d).vector) (GE.getD d 0)
                  (Direction.ofValue d).opposite st3)
              (otherFacesOnEdge m (GE.getD d 0) face.index) s2
              (fun s3 of hof hI3 => (hInner d s3 of hof hI3).1)
              (fun s3 of hof hI3 => (hInner d s3 of hof hI3).2)
              (fun s3 ofa ofb hofb hq3 hk =>
                ne_none_of_ext (fun k v => walk_mono m keys fuel ofb _ _ _ s3 k v) _ (hq3 hk))
              hI2
            exact hq2)
        (by
          intro s2 d b hb hQ2
          dsimp only
          by_cases hseam : m.seam (GE.getD b 0) = true
          · rw [if_pos hseam]
            exact hQ2
          · rw [if_neg hseam]
            cases hQ2 with
            | inl h => exact Or.inl h
            | inr h =>
              refine Or.inr ?_
              intro of hof hk
              refine ne_none_of_ext ?_ _ (h of hof hk)
              intro k v hv
              exact foldl_preserve
                (fun (s : List (ℕ × GridFace)) => s.lookup k = some v) _ _ s2
                (fun s3 ofb hofb hv3 => walk_mono m keys fuel ofb _ _ _ s3 k v hv3) hv)
        ⟨fun k v h => h, hce1, le_refl _⟩
      refine ⟨?_, ?_⟩
      · intro hfk
        have h1 := hIf.1 face.index (GridFace.mk coord GE) (lookup_cons_self face.index _ st)
        rw [h1]
        simp
      · intro f hf hfk hvis
        cases hIf.2.1 f hf hfk hvis with
        | inr h => exact Or.inr h
        | inl h =>
          cases List.mem_cons.mp h with
          | inr hp => exact Or.inl hp
          | inl hfi =>
            have hff : f = face := List.inj_on_of_nodup_map hmnd hf hfm hfi
            refine Or.inr ?_
            intro g hsg hgk
            rw [hff] at hsg
            obtain ⟨eid, heid, hns, hgm, hge, hgne⟩ := hsg
            obtain ⟨d, hd4, hdeq⟩ := arrangeEdges_cover face incoming edgeDir hq4 eid heid
            rw [hGE] at hdeq
            cases hQf d (List.mem_range.mpr hd4) with
            | inl h2 =>
              rw [hdeq, hns] at h2
              exact absurd h2 (by simp)
            | inr h2 =>
              refine h2 g ?_ hgk
              rw [otherFacesOnEdge, List.mem_filter]
              refine ⟨hgm, ?_⟩
              rw [hdeq]
              simp only [decide_eq_true_eq]
              exact ⟨hge, hgne⟩
    · rw [walk, if_neg hg]
      refine ⟨?_, hce⟩
      intro hfk hnone
      exact hg ⟨hfk, hnone⟩

theorem unvisited_nil (keys : List ℕ) : unvisited keys [] = keys.length := by
  rw [unvisited]
  have h1 : keys.filter (fun k => (([] : List (ℕ × GridFace)).lookup k).isNone) = keys := by
    refine List.filter_eq_self.mpr ?_
    intro k _
    rfl
  rw [h1]

theorem startFace_mem (active : Option BFace) (faces : List BFace) (sf : BFace)
    (h : startFace active faces = some sf) : sf ∈ faces := by
  have hhead : ∀ g : BFace, faces.head? = some g → g ∈ faces := by
    intro g hg
    cases faces with
    | nil => exact Option.noConfusion hg
    | cons a l =>
      rw [List.head?_cons] at hg
      cases hg
      exact List.mem_cons_self _ _
  cases active with
  | none => exact hhead sf h
  | some a =>
    have h2 : (if a ∈ faces then some a else faces.head?) = some sf := h
    by_cases ha : a ∈ faces
    · rw [if_pos ha] at h2
      cases h2
      exact ha
    · rw [if_neg ha] at h2
      exact hhead sf h2

/-- Soundness of the walk run by `gridInit`: every visited key belongs to a
face reachable from the start face. -/
theorem walk_sound_reach (m : Mesh) (keys : List ℕ) (start : BFace)
    (hq : ∀ f ∈ m.faces, f.index ∈ keys → f.edges.length = 4)
    (hsm : start ∈ m.faces) (fuel : ℕ) (coord : Int × Int) (incoming : ℕ)
    (edgeDir : Direction) (k : ℕ) (v : GridFace)
    (h : (walk m keys fuel start coord incoming edgeDir []).lookup k = some v) :
    ∃ g ∈ m.faces, g.index = k ∧ Reach m keys start g := by
  refine walk_sound_inv m keys
    (fun face _ _ _ => face ∈ m.faces ∧ Reach m keys start face)
    (fun k2 _ => ∃ g ∈ m.faces, g.index = k2 ∧ Reach m keys start g)
    ?_ fuel start coord incoming edgeDir [] ⟨hsm, Reach.refl start⟩ ?_ k v h
  · intro face coord2 incoming2 edgeDir2 hV hk
    refine ⟨⟨face, hV.1, rfl, hV.2⟩, ?_⟩
    intro d hd hseam of hof
    have hofm : of ∈ m.faces := (List.mem_filter.mp hof).1
    have hdec := (List.mem_filter.mp hof).2
    simp only [decide_eq_true_eq] at hdec
    refine ⟨hofm, Reach.tail hV.2 hk ?_⟩
    exact ⟨(arrangeEdges face incoming2 edgeDir2).getD d 0,
      arrangeEdges_mem face incoming2 edgeDir2 (hq face hV.1 hk) d hd, hseam, hofm,
      hdec.1, hdec.2⟩
  · intro k2 v2 h2
    exact absurd h2 (by simp)

/-- Completeness of the walk run by `gridInit`: every face reachable from the
start face is visited. -/
theorem walk_reach_visited (m : Mesh) (keys : List ℕ) (hnd : keys.Nodup)
    (hmnd : (m.faces.map BFace.index).Nodup)
    (hq : ∀ f ∈ m.faces, f.index ∈ keys → f.edges.length = 4)
    (start : BFace) (hsm : start ∈ m.faces)
    (coord : Int × Int) (incoming : ℕ) (edgeDir : Direction)
    (g : BFace) (hr : Reach m keys start g) (hgk : g.index ∈ keys) :
    (walk m keys (keys.length + 1) start coord incoming edgeDir []).lookup g.index ≠ none := by
  obtain ⟨hvis, hclosed⟩ := walk_spec m keys hnd hmnd hq (keys.length + 1) start coord incoming
    edgeDir [] [] hsm (by rw [unvisited_nil])
    (by
      intro f _ _ hvis2
      exact absurd rfl hvis2)
  revert hgk
  induction hr with
  | refl =>
    intro hk
    exact hvis hk
  | tail hr2 hk hs ihr =>
    rename_i g0 g1
    intro hgk2
    have hg0 := Reach.mem_faces hr2
    have hg0m : g0 ∈ m.faces := by
      cases hg0 with
      | inl h => rw [h]; exact hsm
      | inr h => exact h
    have hg0vis := ihr hk
    cases hclosed g0 hg0m hk hg0vis with
    | inl h => exact absurd h (List.not_mem_nil _)
    | inr h => exact h g1 hs hgk2

/-- In the `gridInit` context, a selected face is visited by the walk exactly
when it is reachable from the start face. -/
theorem gridWalk_visited_iff (m : Mesh) (active : Option BFace) (faces : List BFace) (sf : BFace)
    (hnd : (faces.map BFace.index).Nodup)
    (hmnd : (m.faces.map BFace.index).Nodup)
    (hsub : ∀ f ∈ faces, f ∈ m.faces)
    (hquads : ∀ f ∈ faces, f.edges.length = 4)
    (hstart : startFace active faces = some sf)
    (f : BFace) (hf : f ∈ faces) :
    (gridWalkResult m faces sf).lookup f.index ≠ none ↔
      Reach m (faces.map BFace.index) sf f := by
  have hq : ∀ g ∈ m.faces, g.index ∈ faces.map BFace.index → g.edges.length = 4 := by
    intro g hgm hgk
    obtain ⟨f2, hf2, hf2i⟩ := List.mem_map.mp hgk
    have hgf2 : g = f2 := List.inj_on_of_nodup_map hmnd hgm (hsub f2 hf2) hf2i.symm
    rw [hgf2]
    exact hquads f2 hf2
  have hsfF : sf ∈ faces := startFace_mem active faces sf hstart
  have hsfm : sf ∈ m.faces := hsub sf hsfF
  have hmapeq : faces.map (·.index) = faces.map BFace.index := rfl
  constructor
  · intro hvis
    cases hlk : (gridWalkResult m faces sf).lookup f.index with
    | none => exact absurd hlk hvis
    | some v =>
      rw [gridWalkResult, hmapeq] at hlk
      obtain ⟨g, hgm, hgi, hgr⟩ := walk_sound_reach m (faces.map BFace.index) sf hq hsfm
        ((faces.map BFace.index).length + 1) (0, 0) (sf.edges.getD 0 0) .north f.index v hlk
      have hgf : g = f := List.inj_on_of_nodup_map hmnd hgm (hsub f hf) hgi
      rw [hgf] at hgr
      exact hgr
  · intro hr
    rw [gridWalkResult, hmapeq]
    exact walk_reach_visited m (faces.map BFace.index) hnd hmnd hq sf hsfm (0, 0)
      (sf.edges.getD 0 0) .north f hr (List.mem_map_of_mem BFace.index hf)

/-- Reduction of `gridInit` once the quad check passes and a start face is
chosen. -/
theorem gridInit_start (m : Mesh) (active : Option BFace) (faces : List BFace) (sf : BFace)
    (hqb : faces.all (fun f => f.edges.length == 4) = true)
    (hstart : startFace active faces = some sf) :
    gridInit m active faces =
      if (faces.map (·.index)).all (fun k => ((gridWalkResult m faces sf).lookup k).isSome) then
        .ok ⟨(faces.map (·.index)).filterMap
            (fun k => ((gridWalkResult m faces sf).lookup k).map
              (fun g => (k, GridFace.mk
                (g.coord - gridMinCoord (gridCoords faces (gridWalkResult m faces sf)))
                g.edges))),
          gridMaxCoord (gridCoords faces (gridWalkResult m faces sf))
            - gridMinCoord (gridCoords faces (gridWalkResult m faces sf)) + (1, 1)⟩
      else
        .error (.gridBuildException ((faces.map (·.index)).filter
          (fun k => ((gridWalkResult m faces sf).lookup k).isNone))) := by
  rw [gridInit, if_pos hqb, hstart]

/-- C5: amended behaviour of the grid builder's error cases.  Hypotheses: the
selection's face indices are distinct (bmesh guarantees this), the mesh's
face indices are distinct, the selection is part of the mesh, and a start
face exists.  `GridBuildException` is raised iff every selected face is a
quad AND some selected face is unreachable from the start face through
non-seam edges of selected faces; the exception lists exactly the indices of
the unreachable faces.  (A non-quad face raises the plain `Exception`, not
`GridBuildException` — see the counterexample.) -/
theorem C5_theorem (m : Mesh) (active : Option BFace) (faces : List BFace) (sf : BFace)
    (hnd : (faces.map BFace.index).Nodup)
    (hmnd : (m.faces.map BFace.index).Nodup)
    (hsub : ∀ f ∈ faces, f ∈ m.faces)
    (hstart : startFace active faces = some sf) :
    ((∃ l, gridInit m active faces = .error (.gridBuildException l)) ↔
      ((∀ f ∈ faces, f.edges.length = 4) ∧
        ∃ f ∈ faces, ¬ Reach m (faces.map BFace.index) sf f)) ∧
    (∀ l, gridInit m active faces = .error (.gridBuildException l) →
      ∀ k, k ∈ l ↔ ∃ f ∈ faces, f.index = k ∧ ¬ Reach m (faces.map BFace.index) sf f) := by
  by_cases hq : ∀ f ∈ faces, f.edges.length = 4
  · have hqb : faces.all (fun f => f.edges.length == 4) = true := by
      rw [List.all_eq_true]
      intro f hf
      simpa using hq f hf
    have hvisiff := gridWalk_visited_iff m active faces sf hnd hmnd hsub hq hstart
    have hmapeq : faces.map (·.index) = faces.map BFace.index := rfl
    by_cases hall :
        ((faces.map (·.index)).all (fun k => ((gridWalkResult m faces sf).lookup k).isSome))
          = true
    · have hginit := gridInit_start m active faces sf hqb hstart
      rw [if_pos hall] at hginit
      constructor
      · constructor
        · intro hl
          obtain ⟨l, hl2⟩ := hl
          rw [hginit] at hl2
          exact Except.noConfusion hl2
        · intro hr
          obtain ⟨_, f, hf, hnr⟩ := hr
          have hks : ((gridWalkResult m faces sf).lookup f.index).isSome = true := by
            have := List.all_eq_true.mp hall f.index
              (by rw [hmapeq]; exact List.mem_map_of_mem BFace.index hf)
            exact this
          have hvis : (gridWalkResult m faces sf).lookup f.index ≠ none := by
            intro hn
            rw [hn] at hks
            exact Bool.noConfusion hks
          exact absurd ((hvisiff f hf).mp hvis) hnr
      · intro l hl
        rw [hginit] at hl
        exact Except.noConfusion hl
    · have hginit := gridInit_start m active faces sf hqb hstart
      rw [if_neg hall] at hginit
      have hmemiff : ∀ k,
          k ∈ (faces.map (·.index)).filter
            (fun k => ((gridWalkResult m faces sf).lookup k).isNone) ↔
          ∃ f ∈ faces, f.index = k ∧ ¬ Reach m (faces.map BFace.index) sf f := by
        intro k
        rw [List.mem_filter]
        constructor
        · intro hkf
          rw [hmapeq] at hkf
          obtain ⟨f, hf, hfi⟩ := List.mem_map.mp hkf.1
          refine ⟨f, hf, hfi, ?_⟩
          intro hr
          have hvis := (hvisiff f hf).mpr hr
          rw [hfi] at hvis
          exact hvis (Option.isNone_iff_eq_none.mp hkf.2)
        · intro hex
          obtain ⟨f, hf, hfi, hnr⟩ := hex
          refine ⟨by rw [hmapeq, ← hfi]; exact List.mem_map_of_mem BFace.index hf, ?_⟩
          rw [← hfi]
          rw [Option.isNone_iff_eq_none]
          cases hlk : (gridWalkResult m faces sf).lookup f.index with
          | none => rfl
          | some v =>
            exact absurd ((hvisiff f hf).mp (by rw [hlk]; exact fun h => Option.noConfusion h))
              hnr
      constructor
      · constructor
        · intro _
          refine ⟨hq, ?_⟩
          have h2 : ¬ ∀ k ∈ faces.map (·.index),
              ((gridWalkResult m faces sf).lookup k).isSome = true := by
            rw [← List.all_eq_true]
            exact hall
          push_neg at h2
          obtain ⟨k, hk, hks⟩ := h2
          rw [hmapeq] at hk
          obtain ⟨f, hf, hfi⟩ := List.mem_map.mp hk
          refine ⟨f, hf, ?_⟩
          intro hr
          have hvis := (hvisiff f hf).mpr hr
          rw [hfi] at hvis
          cases hlk : (gridWalkResult m faces sf).lookup k with
          | none => exact hvis hlk
          | some v =>
            rw [hlk] at hks
            exact hks rfl
        · intro _
          exact ⟨_, hginit⟩
      · intro l hl
        rw [hginit] at hl
        have hli := Except.error.inj hl
        have hli2 : (faces.map (·.index)).filter
            (fun k => ((gridWalkResult m faces sf).lookup k).isNone) = l :=
          GridInitError.gridBuildException.inj hli
        intro k
        rw [← hli2]
        exact hmemiff k
  · have hqb : faces.all (fun f => f.edges.length == 4) = false := by
      rw [Bool.eq_false_iff]
      intro hb
      refine hq ?_
      intro f hf
      simpa using List.all_eq_true.mp hb f hf
    have hginit : gridInit m active faces = .error .nonQuads := by
      rw [gridInit, if_neg (by rw [hqb]; exact Bool.noConfusion)]
    constructor
    · constructor
      · intro hl
        obtain ⟨l, hl2⟩ := hl
        rw [hginit] at hl2
        have := Except.error.inj hl2
        exact GridInitError.noConfusion this
      · intro hr
        exact absurd hr.1 hq
    · intro l hl
      rw [hginit] at hl
      have := Except.error.inj hl
      exact GridInitError.noConfusion this

/-! ### An N×M rectangular arrangement of quads (the scenario of the
grid round-trip claim)

Concrete instance data: horizontal edge `hEdge N i j` is the edge between
vertex columns `i, i+1` at row height `j`; vertical edge `vEdge N i j` is the
edge between vertex rows `j, j+1` at column `i`; face `(i, j)` (for
`i < N`, `j < M`) has index `j * N + i` and lists its edges in the cyclic
order top, left, bottom, right, so that `edges[0]` is its geometric north
edge.  No edge is a seam. -/

def hEdge (N i j : ℕ) : ℕ := 2 * (i + j * N)

def vEdge (N i j : ℕ) : ℕ := 2 * (i + j * (N + 1)) + 1

def gridBFace (N i j : ℕ) : BFace :=
  ⟨j * N + i, [hEdge N i (j + 1), vEdge N i j, hEdge N i j, vEdge N (i + 1) j]⟩

def gridFaces (N M : ℕ) : List BFace :=
  (List.range (N * M)).map (fun k => gridBFace N (k % N) (k / N))

def gridMesh (N M : ℕ) : Mesh := ⟨gridFaces N M, fun _ => false⟩

theorem encode_inj {B a b a2 b2 : ℕ} (ha : a < B) (ha2 : a2 < B)
    (h : a + b * B = a2 + b2 * B) : a = a2 ∧ b = b2 := by
  have hmod : (a + b * B) % B = (a2 + b2 * B) % B := by rw [h]
  rw [Nat.add_mul_mod_self_right, Nat.add_mul_mod_self_right,
    Nat.mod_eq_of_lt ha, Nat.mod_eq_of_lt ha2] at hmod
  subst hmod
  have hb : b * B = b2 * B := by omega
  have hBpos : 0 < B := by omega
  exact ⟨rfl, Nat.eq_of_mul_eq_mul_right hBpos hb⟩

theorem hEdge_inj {N a b a2 b2 : ℕ} (ha : a < N) (ha2 : a2 < N)
    (h : hEdge N a b = hEdge N a2 b2) : a = a2 ∧ b = b2 := by
  rw [hEdge, hEdge] at h
  exact encode_inj ha ha2 (by omega)

theorem vEdge_inj {N a b a2 b2 : ℕ} (ha : a < N + 1) (ha2 : a2 < N + 1)
    (h : vEdge N a b = vEdge N a2 b2) : a = a2 ∧ b = b2 := by
  rw [vEdge, vEdge] at h
  exact encode_inj ha ha2 (by omega)

theorem hEdge_ne_vEdge (N a b a2 b2 : ℕ) : hEdge N a b ≠ vEdge N a2 b2 := by
  rw [hEdge, vEdge]
  omega

theorem mem_gridFaces {N M : ℕ} {f : BFace} :
    f ∈ gridFaces N M ↔ ∃ i j, i < N ∧ j < M ∧ f = gridBFace N i j := by
  rw [gridFaces, List.mem_map]
  constructor
  · intro h
    obtain ⟨k, hk, hkf⟩ := h
    rw [List.mem_range] at hk
    have hN : 0 < N := by
      by_contra hc
      push_neg at hc
      interval_cases N
      omega
    refine ⟨k % N, k / N, Nat.mod_lt k hN, ?_, hkf.symm⟩
    rw [Nat.div_lt_iff_lt_mul hN, Nat.mul_comm]
    exact hk
  · intro h
    obtain ⟨i, j, hi, hj, hf⟩ := h
    refine ⟨j * N + i, ?_, ?_⟩
    · rw [List.mem_range]
      have h1 : j * N + i < (j + 1) * N := by
        rw [Nat.succ_mul]
        omega
      have h2 : (j + 1) * N ≤ M * N := Nat.mul_le_mul_right N hj
      rw [Nat.mul_comm N M]
      omega
    · rw [hf]
      have hm : (j * N + i) % N = i := by
        rw [Nat.add_comm, Nat.add_mul_mod_self_right, Nat.mod_eq_of_lt hi]
      have hd : (j * N + i) / N = j := by
        rw [Nat.add_comm, Nat.add_mul_div_right _ _ (by omega : 0 < N),
          Nat.div_eq_of_lt hi]
        omega
      rw [hm, hd]

theorem gridFaces_map_index (N M : ℕ) :
    (gridFaces N M).map BFace.index = List.range (N * M) := by
  rw [gridFaces, List.map_map]
  have h : (BFace.index ∘ fun k => gridBFace N (k % N) (k / N)) = fun k : ℕ => k / N * N + k % N := by
    funext k
    rfl
  rw [h]
  have h2 : (List.range (N * M)).map (fun k : ℕ => k / N * N + k % N)
      = (List.range (N * M)).map id := by
    refine List.map_congr_left ?_
    intro k _
    show k / N * N + k % N = k
    have h2 := Nat.div_add_mod k N
    have h3 : k / N * N = N * (k / N) := Nat.mul_comm _ _
    omega
  rw [h2, List.map_id]

theorem gridBFace_edges_getD_indexOf (N i j p : ℕ) (hi : i < N) (hp : p < 4) :
    (gridBFace N i j).edges.indexOf ((gridBFace N i j).edges.getD p 0) = p := by
  have hTL : hEdge N i (j + 1) ≠ vEdge N i j := hEdge_ne_vEdge N i (j + 1) i j
  have hTB : hEdge N i (j + 1) ≠ hEdge N i j := by
    intro h
    have := hEdge_inj hi hi h
    omega
  have hTR : hEdge N i (j + 1) ≠ vEdge N (i + 1) j := hEdge_ne_vEdge N i (j + 1) (i + 1) j
  have hLB : vEdge N i j ≠ hEdge N i j := (hEdge_ne_vEdge N i j i j).symm
  have hLR : vEdge N i j ≠ vEdge N (i + 1) j := by
    intro h
    have := vEdge_inj (by omega) (by omega) h
    omega
  have hBR : hEdge N i j ≠ vEdge N (i + 1) j := hEdge_ne_vEdge N i j (i + 1) j
  interval_cases p
  · exact List.indexOf_cons_self _ _
  · show (gridBFace N i j).edges.indexOf (vEdge N i j) = 1
    rw [gridBFace]
    rw [List.indexOf_cons_ne _ hTL, List.indexOf_cons_self]
  · show (gridBFace N i j).edges.indexOf (hEdge N i j) = 2
    rw [gridBFace]
    rw [List.indexOf_cons_ne _ hTB, List.indexOf_cons_ne _ hLB, List.indexOf_cons_self]
  · show (gridBFace N i j).edges.indexOf (vEdge N (i + 1) j) = 3
    rw [gridBFace]
    rw [List.indexOf_cons_ne _ hTR, List.indexOf_cons_ne _ hLR,
      List.indexOf_cons_ne _ hBR, List.indexOf_cons_self]

/-- On the test grid every walk call sees `north_edge_idx = 3`, so the stored
edge list is geometric east, north, west, south. -/
theorem arrangeEdges_grid (N i j p : ℕ) (hi : i < N) (hp : p < 4) (edgeDir : Direction)
    (hdir : edgeDir.value = (p + 1) % 4) :
    arrangeEdges (gridBFace N i j) ((gridBFace N i j).edges.getD p 0) edgeDir
      = [vEdge N (i + 1) j, hEdge N i (j + 1), vEdge N i j, hEdge N i j] := by
  have he : arrangeEdges (gridBFace N i j) ((gridBFace N i j).edges.getD p 0) edgeDir
      = (List.range 4).map (fun d => (gridBFace N i j).edges.getD
          (((((gridBFace N i j).edges.indexOf ((gridBFace N i j).edges.getD p 0))
            + 4 - edgeDir.value) % 4 + d) % 4) 0) := rfl
  rw [he, gridBFace_edges_getD_indexOf N i j p hi hp, hdir]
  have hn : (p + 4 - (p + 1) % 4) % 4 = 3 := by omega
  rw [hn]
  rfl

theorem mem_gridBFace_edges {N a b : ℕ} {eid : ℕ} :
    eid ∈ (gridBFace N a b).edges ↔
      eid = hEdge N a (b + 1) ∨ eid = vEdge N a b ∨ eid = hEdge N a b ∨
        eid = vEdge N (a + 1) b := by
  rw [gridBFace]
  simp [List.mem_cons]

theorem otherFaces_east {N M i j : ℕ} (hi : i < N) (hj : j < M) (of : BFace)
    (hof : of ∈ otherFacesOnEdge (gridMesh N M) (vEdge N (i + 1) j) (gridBFace N i j).index) :
    i + 1 < N ∧ of = gridBFace N (i + 1) j := by
  rw [otherFacesOnEdge, List.mem_filter] at hof
  obtain ⟨hmem, hdec⟩ := hof
  simp only [decide_eq_true_eq] at hdec
  obtain ⟨a, b, haN, hbM, hofab⟩ := mem_gridFaces.mp hmem
  subst hofab
  cases mem_gridBFace_edges.mp hdec.1 with
  | inl h => exact absurd h.symm (hEdge_ne_vEdge N a (b + 1) (i + 1) j)
  | inr h => cases h with
    | inl h =>
      obtain ⟨ha, hb⟩ := vEdge_inj (by omega) (by omega) h.symm
      constructor
      · omega
      · rw [← ha, ← hb]
    | inr h => cases h with
      | inl h => exact absurd h.symm (hEdge_ne_vEdge N a b (i + 1) j)
      | inr h =>
        obtain ⟨ha, hb⟩ := vEdge_inj (by omega) (by omega) h.symm
        exfalso
        refine hdec.2 ?_
        have ha2 : a = i := by omega
        rw [ha2, ← hb]

theorem otherFaces_north {N M i j : ℕ} (hi : i < N) (hj : j < M) (of : BFace)
    (hof : of ∈ otherFacesOnEdge (gridMesh N M) (hEdge N i (j + 1)) (gridBFace N i j).index) :
    j + 1 < M ∧ of = gridBFace N i (j + 1) := by
  rw [otherFacesOnEdge, List.mem_filter] at hof
  obtain ⟨hmem, hdec⟩ := hof
  simp only [decide_eq_true_eq] at hdec
  obtain ⟨a, b, haN, hbM, hofab⟩ := mem_gridFaces.mp hmem
  subst hofab
  cases mem_gridBFace_edges.mp hdec.1 with
  | inl h =>
    obtain ⟨ha, hb⟩ := hEdge_inj hi haN h
    exfalso
    refine hdec.2 ?_
    have ha2 : a = i := ha.symm
    have hb2 : b = j := by omega
    rw [ha2, hb2]
  | inr h => cases h with
    | inl h => exact absurd h (hEdge_ne_vEdge N i (j + 1) a b)
    | inr h => cases h with
      | inl h =>
        obtain ⟨ha, hb⟩ := hEdge_inj hi haN h
        refine ⟨by omega, ?_⟩
        rw [← ha, ← hb]
      | inr h => exact absurd h (hEdge_ne_vEdge N i (j + 1) (a + 1) b)

theorem otherFaces_west {N M i j : ℕ} (hi : i < N) (hj : j < M) (of : BFace)
    (hof : of ∈ otherFacesOnEdge (gridMesh N M) (vEdge N i j) (gridBFace N i j).index) :
    ∃ i2, i = i2 + 1 ∧ of = gridBFace N i2 j := by
  rw [otherFacesOnEdge, List.mem_filter] at hof
  obtain ⟨hmem, hdec⟩ := hof
  simp only [decide_eq_true_eq] at hdec
  obtain ⟨a, b, haN, hbM, hofab⟩ := mem_gridFaces.mp hmem
  subst hofab
  cases mem_gridBFace_edges.mp hdec.1 with
  | inl h => exact absurd h.symm (hEdge_ne_vEdge N a (b + 1) i j)
  | inr h => cases h with
    | inl h =>
      obtain ⟨ha, hb⟩ := vEdge_inj (by omega) (by omega) h.symm
      exfalso
      refine hdec.2 ?_
      rw [← ha, ← hb]
    | inr h => cases h with
      | inl h => exact absurd h.symm (hEdge_ne_vEdge N a b i j)
      | inr h =>
        obtain ⟨ha, hb⟩ := vEdge_inj (by omega) (by omega) h.symm
        exact ⟨a, by omega, by rw [← hb]⟩

theorem otherFaces_south {N M i j : ℕ} (hi : i < N) (hj : j < M) (of : BFace)
    (hof : of ∈ otherFacesOnEdge (gridMesh N M) (hEdge N i j) (gridBFace N i j).index) :
    ∃ j2, j = j2 + 1 ∧ of = gridBFace N i j2 := by
  rw [otherFacesOnEdge, List.mem_filter] at hof
  obtain ⟨hmem, hdec⟩ := hof
  simp only [decide_eq_true_eq] at hdec
  obtain ⟨a, b, haN, hbM, hofab⟩ := mem_gridFaces.mp hmem
  subst hofab
  cases mem_gridBFace_edges.mp hdec.1 with
  | inl h =>
    obtain ⟨ha, hb⟩ := hEdge_inj hi haN h
    exact ⟨b, by omega, by rw [← ha]⟩
  | inr h => cases h with
    | inl h => exact absurd h (hEdge_ne_vEdge N i j a b)
    | inr h => cases h with
      | inl h =>
        obtain ⟨ha, hb⟩ := hEdge_inj hi haN h
        exfalso
        refine hdec.2 ?_
        rw [← ha, ← hb]
      | inr h => exact absurd h (hEdge_ne_vEdge N i j (a + 1) b)

theorem Reach.trans {m : Mesh} {keys : List ℕ} {f g h : BFace}
    (h1 : Reach m keys f g) (h2 : Reach m keys g h) : Reach m keys f h := by
  induction h2 with
  | refl => exact h1
  | tail hr hk hs ih => exact Reach.tail ih hk hs

/-- Every dict entry produced by the walk on the test grid is a face of the
grid carrying its true coordinate and its geometric east/north/west/south
edges. -/
theorem gridWalkResult_entries (N M : ℕ) (hN : 1 ≤ N) (hM : 1 ≤ M) (k : ℕ) (v : GridFace)
    (h : (gridWalkResult (gridMesh N M) (gridFaces N M) (gridBFace N 0 0)).lookup k = some v) :
    ∃ i j, i < N ∧ j < M ∧ k = j * N + i ∧
      v = GridFace.mk (((i : ℕ) : ℤ), ((j : ℕ) : ℤ))
        [vEdge N (i + 1) j, hEdge N i (j + 1), vEdge N i j, hEdge N i j] := by
  rw [gridWalkResult] at h
  refine walk_sound_inv (gridMesh N M) ((gridFaces N M).map (·.index))
    (fun face coord incoming edgeDir => ∃ i j p, i < N ∧ j < M ∧ p < 4 ∧
      face = gridBFace N i j ∧ coord = (((i : ℕ) : ℤ), ((j : ℕ) : ℤ)) ∧
      incoming = (gridBFace N i j).edges.getD p 0 ∧ edgeDir.value = (p + 1) % 4)
    (fun k2 v2 => ∃ i j, i < N ∧ j < M ∧ k2 = j * N + i ∧
      v2 = GridFace.mk (((i : ℕ) : ℤ), ((j : ℕ) : ℤ))
        [vEdge N (i + 1) j, hEdge N i (j + 1), vEdge N i j, hEdge N i j])
    ?_ _ (gridBFace N 0 0) (0, 0) ((gridBFace N 0 0).edges.getD 0 0) .north []
    ⟨0, 0, 0, by omega, by omega, by omega, rfl, by simp, rfl, rfl⟩
    (by
      intro k2 v2 h2
      exact absurd h2 (by simp))
    k v h
  intro face coord incoming edgeDir hV hk
  obtain ⟨i, j, p, hi, hj, hp, hface, hcoord, hinc, hdir⟩ := hV
  subst hface
  subst hcoord
  subst hinc
  have harr := arrangeEdges_grid N i j p hi hp edgeDir hdir
  constructor
  · rw [harr]
    exact ⟨i, j, hi, hj, rfl, rfl⟩
  · intro d hd hseam of hof
    rw [harr] at hof
    interval_cases d
    · obtain ⟨hlt, hofeq⟩ := otherFaces_east hi hj of hof
      refine ⟨i + 1, j, 1, hlt, hj, by omega, hofeq, ?_, by rw [harr]; rfl, rfl⟩
      show ((i : ℤ), (j : ℤ)) + (1, 0) = (((i + 1 : ℕ) : ℤ), ((j : ℕ) : ℤ))
      rw [Prod.mk_add_mk]
      push_cast
      norm_num
    · obtain ⟨hlt, hofeq⟩ := otherFaces_north hi hj of hof
      refine ⟨i, j + 1, 2, hi, hlt, by omega, hofeq, ?_, by rw [harr]; rfl, rfl⟩
      show ((i : ℤ), (j : ℤ)) + (0, 1) = (((i : ℕ) : ℤ), ((j + 1 : ℕ) : ℤ))
      rw [Prod.mk_add_mk]
      push_cast
      norm_num
    · obtain ⟨i2, hi2, hofeq⟩ := otherFaces_west hi hj of hof
      refine ⟨i2, j, 3, by omega, hj, by omega, hofeq, ?_, by rw [harr, hi2]; rfl, rfl⟩
      show ((i : ℤ), (j : ℤ)) + (-1, 0) = (((i2 : ℕ) : ℤ), ((j : ℕ) : ℤ))
      rw [Prod.mk_add_mk]
      have : (i : ℤ) = (i2 : ℤ) + 1 := by
        rw [hi2]
        push_cast
        ring
      rw [this]
      norm_num
    · obtain ⟨j2, hj2, hofeq⟩ := otherFaces_south hi hj of hof
      refine ⟨i, j2, 0, hi, by omega, by omega, hofeq, ?_, by rw [harr, hj2]; rfl, rfl⟩
      show ((i : ℤ), (j : ℤ)) + (0, -1) = (((i : ℕ) : ℤ), ((j2 : ℕ) : ℤ))
      rw [Prod.mk_add_mk]
      have : (j : ℤ) = (j2 : ℤ) + 1 := by
        rw [hj2]
        push_cast
        ring
      rw [this]
      norm_num

theorem step_east (N M i j : ℕ) (hi1 : i + 1 < N) (hj : j < M) :
    Step (gridMesh N M) (gridBFace N i j) (gridBFace N (i + 1) j) := by
  refine ⟨vEdge N (i + 1) j, ?_, rfl, ?_, ?_, ?_⟩
  · rw [mem_gridBFace_edges]
    right; right; right; rfl
  · exact mem_gridFaces.mpr ⟨i + 1, j, hi1, hj, rfl⟩
  · rw [mem_gridBFace_edges]
    right; left; rfl
  · show j * N + (i + 1) ≠ j * N + i
    omega

theorem step_north (N M i j : ℕ) (hi : i < N) (hj1 : j + 1 < M) :
    Step (gridMesh N M) (gridBFace N i j) (gridBFace N i (j + 1)) := by
  refine ⟨hEdge N i (j + 1), ?_, rfl, ?_, ?_, ?_⟩
  · rw [mem_gridBFace_edges]
    left; rfl
  · exact mem_gridFaces.mpr ⟨i, j + 1, hi, hj1, rfl⟩
  · rw [mem_gridBFace_edges]
    right; right; left; rfl
  · show (j + 1) * N + i ≠ j * N + i
    have : (j + 1) * N = j * N + N := by ring
    omega

theorem grid_key_mem (N M a b : ℕ) (ha : a < N) (hb : b < M) :
    b * N + a ∈ (gridFaces N M).map BFace.index := by
  rw [gridFaces_map_index, List.mem_range]
  have h1 : b * N + a < (b + 1) * N := by
    rw [Nat.succ_mul]
    omega
  have h2 : (b + 1) * N ≤ M * N := Nat.mul_le_mul_right N hb
  rw [Nat.mul_comm N M]
  omega

theorem gridReach_col (N M : ℕ) (hN : 1 ≤ N) :
    ∀ j, j < M → Reach (gridMesh N M) ((gridFaces N M).map BFace.index)
      (gridBFace N 0 0) (gridBFace N 0 j) := by
  intro j
  induction j with
  | zero =>
    intro _
    exact Reach.refl _
  | succ j2 ih =>
    intro hj
    refine Reach.tail (ih (by omega)) ?_ (step_north N M 0 j2 (by omega) hj)
    exact grid_key_mem N M 0 j2 (by omega) (by omega)

theorem gridReach (N M : ℕ) (i j : ℕ) (hi : i < N) (hj : j < M) :
    Reach (gridMesh N M) ((gridFaces N M).map BFace.index)
      (gridBFace N 0 0) (gridBFace N i j) := by
  have hN : 1 ≤ N := by omega
  refine (gridReach_col N M hN j hj).trans ?_
  clear hN
  induction i with
  | zero => exact Reach.refl _
  | succ i2 ih =>
    refine Reach.tail (ih (by omega)) ?_ (step_east N M i2 j hi hj)
    exact grid_key_mem N M i2 j (by omega) hj

theorem startFace_gridFaces (N M : ℕ) (hN : 1 ≤ N) (hM : 1 ≤ M) :
    startFace none (gridFaces N M) = some (gridBFace N 0 0) := by
  show (gridFaces N M).head? = some (gridBFace N 0 0)
  obtain ⟨t, ht⟩ : ∃ t, List.range (N * M) = 0 :: t := by
    have h1 : 1 ≤ N * M := Nat.one_le_iff_ne_zero.mpr (Nat.mul_ne_zero (by omega) (by omega))
    have h2 : N * M = (N * M - 1) + 1 := by omega
    rw [h2, List.range_succ_eq_map]
    exact ⟨_, rfl⟩
  rw [gridFaces, ht, List.map_cons, List.head?_cons, Nat.zero_mod, Nat.zero_div]

/-- Determination of the walk's dict on the test grid: key `k` holds face
`(k % N, k / N)` with its true coordinate and geometric edges. -/
theorem gridWalkResult_lookup (N M : ℕ) (hN : 1 ≤ N) (hM : 1 ≤ M) (k : ℕ) (hk : k < N * M) :
    (gridWalkResult (gridMesh N M) (gridFaces N M) (gridBFace N 0 0)).lookup k
      = some (GridFace.mk (((k % N : ℕ) : ℤ), ((k / N : ℕ) : ℤ))
          [vEdge N (k % N + 1) (k / N), hEdge N (k % N) (k / N + 1),
            vEdge N (k % N) (k / N), hEdge N (k % N) (k / N)]) := by
  have hnd : ((gridFaces N M).map BFace.index).Nodup := by
    rw [gridFaces_map_index]
    exact List.nodup_range _
  have hsub : ∀ f ∈ gridFaces N M, f ∈ (gridMesh N M).faces := fun f hf => hf
  have hquads : ∀ f ∈ gridFaces N M, f.edges.length = 4 := by
    intro f hf
    obtain ⟨i, j, _, _, hfij⟩ := mem_gridFaces.mp hf
    rw [hfij]
    rfl
  have hNpos : 0 < N := by omega
  have hmod : k % N < N := Nat.mod_lt k hNpos
  have hdiv : k / N < M := by
    rw [Nat.div_lt_iff_lt_mul hNpos, Nat.mul_comm]
    exact hk
  have hfmem : gridBFace N (k % N) (k / N) ∈ gridFaces N M :=
    mem_gridFaces.mpr ⟨k % N, k / N, hmod, hdiv, rfl⟩
  have hkidx : (gridBFace N (k % N) (k / N)).index = k := by
    show k / N * N + k % N = k
    have h2 := Nat.div_add_mod k N
    have h3 : k / N * N = N * (k / N) := Nat.mul_comm _ _
    omega
  have hvis := (gridWalk_visited_iff (gridMesh N M) none (gridFaces N M) (gridBFace N 0 0)
    hnd hnd hsub hquads (startFace_gridFaces N M hN hM)
    (gridBFace N (k % N) (k / N)) hfmem).mpr (gridReach N M (k % N) (k / N) hmod hdiv)
  rw [hkidx] at hvis
  cases hlk : (gridWalkResult (gridMesh N M) (gridFaces N M) (gridBFace N 0 0)).lookup k with
  | none => exact absurd hlk hvis
  | some v =>
    obtain ⟨i, j, hi, hj, hkij, hv⟩ := gridWalkResult_entries N M hN hM k v hlk
    have hieq : i = k % N := by
      rw [hkij, Nat.add_comm, Nat.add_mul_mod_self_right, Nat.mod_eq_of_lt hi]
    have hjeq : j = k / N := by
      rw [hkij, Nat.add_comm, Nat.add_mul_div_right _ _ hNpos, Nat.div_eq_of_lt hi]
      omega
    rw [hv, hieq, hjeq]

theorem filterMap_map_of_some {α β γ : Type} (l : List α) (g : α → Option β) (h : α → β → γ)
    (w : α → β) (hw : ∀ a ∈ l, g a = some (w a)) :
    l.filterMap (fun a => (g a).map (h a)) = l.map (fun a => h a (w a)) := by
  induction l with
  | nil => rfl
  | cons a t ih =>
    simp only [List.filterMap_cons, hw a (List.mem_cons_self _ _), Option.map_some']
    rw [List.map_cons, ih (fun b hb => hw b (List.mem_cons_of_mem _ hb))]

theorem foldl_min2_const (l : List (Int × Int)) (a : Int × Int)
    (h : ∀ c ∈ l, a.1 ≤ c.1 ∧ a.2 ≤ c.2) :
    l.foldl (fun x c => (min x.1 c.1, min x.2 c.2)) a = a := by
  induction l with
  | nil => rfl
  | cons c t ih =>
    rw [List.foldl_cons]
    have h1 : ((min a.1 c.1, min a.2 c.2) : Int × Int) = a := by
      have h2 := h c (List.mem_cons_self _ _)
      rw [min_eq_left h2.1, min_eq_left h2.2]
    rw [h1]
    exact ih (fun c2 hc2 => h c2 (List.mem_cons_of_mem _ hc2))

theorem le_foldl_max2 (l : List (Int × Int)) (a : Int × Int) :
    a.1 ≤ (l.foldl (fun x c => (max x.1 c.1, max x.2 c.2)) a).1 ∧
    a.2 ≤ (l.foldl (fun x c => (max x.1 c.1, max x.2 c.2)) a).2 := by
  induction l generalizing a with
  | nil => exact ⟨le_refl _, le_refl _⟩
  | cons c t ih =>
    rw [List.foldl_cons]
    have h2 := ih (max a.1 c.1, max a.2 c.2)
    exact ⟨le_trans (le_max_left _ _) h2.1, le_trans (le_max_left _ _) h2.2⟩

theorem mem_le_foldl_max2 : ∀ (l : List (Int × Int)) (c : Int × Int), c ∈ l →
    ∀ a : Int × Int,
    c.1 ≤ (l.foldl (fun x c => (max x.1 c.1, max x.2 c.2)) a).1 ∧
    c.2 ≤ (l.foldl (fun x c => (max x.1 c.1, max x.2 c.2)) a).2
  | [], c, hc, a => absurd hc (List.not_mem_nil c)
  | d :: t, c, hc, a => by
    rw [List.foldl_cons]
    cases List.mem_cons.mp hc with
    | inl h =>
      subst h
      have h2 := le_foldl_max2 t (max a.1 c.1, max a.2 c.2)
      exact ⟨le_trans (le_max_right _ _) h2.1, le_trans (le_max_right _ _) h2.2⟩
    | inr h => exact mem_le_foldl_max2 t c h (max a.1 d.1, max a.2 d.2)

theorem foldl_max2_le (l : List (Int × Int)) (a b : Int × Int)
    (hab : a.1 ≤ b.1 ∧ a.2 ≤ b.2) (h : ∀ c ∈ l, c.1 ≤ b.1 ∧ c.2 ≤ b.2) :
    (l.foldl (fun x c => (max x.1 c.1, max x.2 c.2)) a).1 ≤ b.1 ∧
    (l.foldl (fun x c => (max x.1 c.1, max x.2 c.2)) a).2 ≤ b.2 := by
  induction l generalizing a with
  | nil => exact hab
  | cons c t ih =>
    rw [List.foldl_cons]
    have h2 := h c (List.mem_cons_self _ _)
    exact ih (max a.1 c.1, max a.2 c.2)
      ⟨max_le hab.1 h2.1, max_le hab.2 h2.2⟩
      (fun c2 hc2 => h c2 (List.mem_cons_of_mem _ hc2))

/-- C2: grid round-trip on an N×M rectangular arrangement of quads with no
seams: the build succeeds, every face `k` gets coordinate
`(k mod N, k div N)` (all `N·M` coordinates distinct and spanning exactly
`{0..N-1} × {0..M-1}`), and `size = (N, M)`. -/
theorem C2_theorem (N M : ℕ) (hN : 1 ≤ N) (hM : 1 ≤ M) :
    ∃ g : Grid,
      gridInit (gridMesh N M) none (gridFaces N M) = .ok g ∧
      g.size = ((N : ℤ), (M : ℤ)) ∧
      g.faces.map (fun e => (e.1, e.2.coord))
        = (List.range (N * M)).map (fun k => (k, (((k % N : ℕ) : ℤ), ((k / N : ℕ) : ℤ)))) ∧
      (g.faces.map (fun e => e.2.coord)).Nodup ∧
      (∀ c : ℤ × ℤ, (∃ e ∈ g.faces, e.2.coord = c) ↔
        (0 ≤ c.1 ∧ c.1 < (N : ℤ) ∧ 0 ≤ c.2 ∧ c.2 < (M : ℤ))) := by
  have hNpos : 0 < N := by omega
  have hNM : 1 ≤ N * M := Nat.one_le_iff_ne_zero.mpr (Nat.mul_ne_zero (by omega) (by omega))
  have hquads : ∀ f ∈ gridFaces N M, f.edges.length = 4 := by
    intro f hf
    obtain ⟨i, j, _, _, hfij⟩ := mem_gridFaces.mp hf
    rw [hfij]
    rfl
  have hqall : (gridFaces N M).all (fun f => f.edges.length == 4) = true := by
    rw [List.all_eq_true]
    intro f hf
    simpa using hquads f hf
  have hred := gridInit_start (gridMesh N M) none (gridFaces N M) (gridBFace N 0 0) hqall
    (startFace_gridFaces N M hN hM)
  have hmapeq : (gridFaces N M).map (·.index) = List.range (N * M) := gridFaces_map_index N M
  have hlk := gridWalkResult_lookup N M hN hM
  have hall : ((gridFaces N M).map (·.index)).all
      (fun k => ((gridWalkResult (gridMesh N M) (gridFaces N M)
        (gridBFace N 0 0)).lookup k).isSome) = true := by
    rw [List.all_eq_true]
    intro k hk
    rw [hmapeq, List.mem_range] at hk
    rw [hlk k hk]
    rfl
  rw [if_pos hall] at hred
  have hcoords : gridCoords (gridFaces N M)
        (gridWalkResult (gridMesh N M) (gridFaces N M) (gridBFace N 0 0))
      = (List.range (N * M)).map
          (fun k => (((((k % N : ℕ) : ℤ), ((k / N : ℕ) : ℤ))) : ℤ × ℤ)) := by
    rw [gridCoords, hmapeq]
    refine (filterMap_map_of_some (List.range (N * M)) _ (fun _ c => c.coord)
      (fun k => GridFace.mk ((((k % N : ℕ) : ℤ), ((k / N : ℕ) : ℤ)))
        [vEdge N (k % N + 1) (k / N), hEdge N (k % N) (k / N + 1),
          vEdge N (k % N) (k / N), hEdge N (k % N) (k / N)]) ?_).trans rfl
    intro k hk
    exact hlk k (List.mem_range.mp hk)
  obtain ⟨t0, ht0⟩ : ∃ t0, List.range (N * M) = 0 :: t0 := by
    have h2 : N * M = (N * M - 1) + 1 := by omega
    rw [h2, List.range_succ_eq_map]
    exact ⟨_, rfl⟩
  have hheadD : (gridCoords (gridFaces N M)
        (gridWalkResult (gridMesh N M) (gridFaces N M) (gridBFace N 0 0))).headD (0, 0)
      = ((0 : ℤ), (0 : ℤ)) := by
    rw [hcoords, ht0, List.map_cons, List.headD_cons, Nat.zero_mod, Nat.zero_div]
    rfl
  have hnonneg : ∀ c ∈ (List.range (N * M)).map
      (fun k => (((((k % N : ℕ) : ℤ), ((k / N : ℕ) : ℤ))) : ℤ × ℤ)),
      ((0 : ℤ), (0 : ℤ)).1 ≤ c.1 ∧ ((0 : ℤ), (0 : ℤ)).2 ≤ c.2 := by
    intro c hc
    obtain ⟨k, _, hkc⟩ := List.mem_map.mp hc
    rw [← hkc]
    exact ⟨Int.natCast_nonneg _, Int.natCast_nonneg _⟩
  have hmin : gridMinCoord (gridCoords (gridFaces N M)
      (gridWalkResult (gridMesh N M) (gridFaces N M) (gridBFace N 0 0))) = (0, 0) := by
    rw [gridMinCoord, hheadD, hcoords]
    exact foldl_min2_const _ _ hnonneg
  have hbound : ∀ c ∈ (List.range (N * M)).map
      (fun k => (((((k % N : ℕ) : ℤ), ((k / N : ℕ) : ℤ))) : ℤ × ℤ)),
      c.1 ≤ (((N - 1 : ℕ) : ℤ), ((M - 1 : ℕ) : ℤ)).1 ∧
      c.2 ≤ (((N - 1 : ℕ) : ℤ), ((M - 1 : ℕ) : ℤ)).2 := by
    intro c hc
    obtain ⟨k, hk, hkc⟩ := List.mem_map.mp hc
    rw [List.mem_range] at hk
    rw [← hkc]
    constructor
    · exact Nat.cast_le.mpr (by have := Nat.mod_lt k hNpos; omega)
    · refine Nat.cast_le.mpr ?_
      have : k / N < M := by
        rw [Nat.div_lt_iff_lt_mul hNpos, Nat.mul_comm]
        exact hk
      omega
  have hmax : gridMaxCoord (gridCoords (gridFaces N M)
      (gridWalkResult (gridMesh N M) (gridFaces N M) (gridBFace N 0 0)))
      = (((N - 1 : ℕ) : ℤ), ((M - 1 : ℕ) : ℤ)) := by
    rw [gridMaxCoord, hheadD, hcoords]
    have hle := foldl_max2_le _ ((0 : ℤ), (0 : ℤ)) (((N - 1 : ℕ) : ℤ), ((M - 1 : ℕ) : ℤ))
      ⟨Int.natCast_nonneg _, Int.natCast_nonneg _⟩ hbound
    have hmem1 : ((((N - 1 : ℕ) : ℤ), ((0 : ℕ) : ℤ)) : ℤ × ℤ)
        ∈ (List.range (N * M)).map
          (fun k => (((((k % N : ℕ) : ℤ), ((k / N : ℕ) : ℤ))) : ℤ × ℤ)) := by
      refine List.mem_map.mpr ⟨N - 1, List.mem_range.mpr ?_, ?_⟩
      · have h2 : N ≤ N * M := Nat.le_mul_of_pos_right N (by omega)
        omega
      · rw [Nat.mod_eq_of_lt (by omega), Nat.div_eq_of_lt (by omega)]
    have hmem2 : ((((0 : ℕ) : ℤ), ((M - 1 : ℕ) : ℤ)) : ℤ × ℤ)
        ∈ (List.range (N * M)).map
          (fun k => (((((k % N : ℕ) : ℤ), ((k / N : ℕ) : ℤ))) : ℤ × ℤ)) := by
      refine List.mem_map.mpr ⟨(M - 1) * N, List.mem_range.mpr ?_, ?_⟩
      · have h2 : M - 1 + 1 = M := by omega
        have h3 : (M - 1) * N + N = M * N := by
          calc (M - 1) * N + N = (M - 1 + 1) * N := by ring
          _ = M * N := by rw [h2]
        have h4 : N * M = M * N := Nat.mul_comm N M
        omega
      · rw [Nat.mul_mod_left, Nat.mul_div_cancel _ hNpos]
    have hge1 := (mem_le_foldl_max2 _ _ hmem1 ((0 : ℤ), (0 : ℤ))).1
    have hge2 := (mem_le_foldl_max2 _ _ hmem2 ((0 : ℤ), (0 : ℤ))).2
    have hx := le_antisymm hle.1 hge1
    have hy := le_antisymm hle.2 hge2
    exact Prod.ext hx hy
  rw [hmin, hmax] at hred
  have hL : ((gridFaces N M).map (·.index)).filterMap
      (fun k => ((gridWalkResult (gridMesh N M) (gridFaces N M)
          (gridBFace N 0 0)).lookup k).map
        (fun g => (k, GridFace.mk (g.coord - ((0 : ℤ), (0 : ℤ))) g.edges)))
      = (List.range (N * M)).map
          (fun k => (k, GridFace.mk ((((k % N : ℕ) : ℤ), ((k / N : ℕ) : ℤ)))
            [vEdge N (k % N + 1) (k / N), hEdge N (k % N) (k / N + 1),
              vEdge N (k % N) (k / N), hEdge N (k % N) (k / N)])) := by
    rw [hmapeq]
    refine (filterMap_map_of_some (List.range (N * M)) _
      (fun k g => (k, GridFace.mk (g.coord - ((0 : ℤ), (0 : ℤ))) g.edges))
      (fun k => GridFace.mk ((((k % N : ℕ) : ℤ), ((k / N : ℕ) : ℤ)))
        [vEdge N (k % N + 1) (k / N), hEdge N (k % N) (k / N + 1),
          vEdge N (k % N) (k / N), hEdge N (k % N) (k / N)]) ?_).trans ?_
    · intro k hk
      exact hlk k (List.mem_range.mp hk)
    · refine List.map_congr_left ?_
      intro k _
      have hsub : ((((k % N : ℕ) : ℤ), ((k / N : ℕ) : ℤ)) : ℤ × ℤ) - ((0 : ℤ), (0 : ℤ))
          = ((((k % N : ℕ) : ℤ), ((k / N : ℕ) : ℤ)) : ℤ × ℤ) := by
        rw [Prod.mk_sub_mk]
        norm_num
      show (k, GridFace.mk (((((k % N : ℕ) : ℤ), ((k / N : ℕ) : ℤ)) : ℤ × ℤ)
          - ((0 : ℤ), (0 : ℤ))) _) = _
      rw [hsub]
  rw [hL] at hred
  refine ⟨_, hred, ?_, ?_, ?_, ?_⟩
  · show (((N - 1 : ℕ) : ℤ), ((M - 1 : ℕ) : ℤ)) - ((0 : ℤ), (0 : ℤ)) + ((1 : ℤ), (1 : ℤ))
      = ((N : ℤ), (M : ℤ))
    rw [Prod.mk_sub_mk, Prod.mk_add_mk]
    have hc1 : ((N - 1 : ℕ) : ℤ) = (N : ℤ) - 1 := by
      rw [Nat.cast_sub hN]
      rfl
    have hc2 : ((M - 1 : ℕ) : ℤ) = (M : ℤ) - 1 := by
      rw [Nat.cast_sub hM]
      rfl
    rw [hc1, hc2]
    norm_num
  · show ((List.range (N * M)).map _).map _ = _
    rw [List.map_map]
    rfl
  · show (((List.range (N * M)).map _).map _).Nodup
    rw [List.map_map]
    have hinj : Function.Injective
        (fun k : ℕ => (((((k % N : ℕ) : ℤ), ((k / N : ℕ) : ℤ))) : ℤ × ℤ)) := by
      intro k1 k2 h
      rw [Prod.mk.injEq] at h
      have h1 : k1 % N = k2 % N := Nat.cast_injective h.1
      have h2 : k1 / N = k2 / N := Nat.cast_injective h.2
      have h3 := Nat.div_add_mod k1 N
      have h4 := Nat.div_add_mod k2 N
      have h5 : N * (k1 / N) = N * (k2 / N) := by rw [h2]
      omega
    exact List.Nodup.map hinj (List.nodup_range _)
  · intro c
    constructor
    · intro hc
      obtain ⟨e, he, hec⟩ := hc
      obtain ⟨k, hk, hke⟩ := List.mem_map.mp he
      rw [List.mem_range] at hk
      rw [← hke] at hec
      simp only [] at hec
      rw [← hec]
      have hm : k % N < N := Nat.mod_lt k hNpos
      have hd : k / N < M := by
        rw [Nat.div_lt_iff_lt_mul hNpos, Nat.mul_comm]
        exact hk
      refine ⟨Int.natCast_nonneg _, ?_, Int.natCast_nonneg _, ?_⟩
      · show ((k % N : ℕ) : ℤ) < (N : ℤ)
        exact_mod_cast hm
      · show ((k / N : ℕ) : ℤ) < (M : ℤ)
        exact_mod_cast hd
    · intro hc
      obtain ⟨h1, h2, h3, h4⟩ := hc
      have hc1 : c.1.toNat < N := by omega
      have hc2 : c.2.toNat < M := by omega
      refine ⟨(c.2.toNat * N + c.1.toNat,
        GridFace.mk (((((c.2.toNat * N + c.1.toNat) % N : ℕ) : ℤ),
            (((c.2.toNat * N + c.1.toNat) / N : ℕ) : ℤ)))
          [vEdge N ((c.2.toNat * N + c.1.toNat) % N + 1) ((c.2.toNat * N + c.1.toNat) / N),
            hEdge N ((c.2.toNat * N + c.1.toNat) % N) ((c.2.toNat * N + c.1.toNat) / N + 1),
            vEdge N ((c.2.toNat * N + c.1.toNat) % N) ((c.2.toNat * N + c.1.toNat) / N),
            hEdge N ((c.2.toNat * N + c.1.toNat) % N) ((c.2.toNat * N + c.1.toNat) / N)]), ?_, ?_⟩
      · refine List.mem_map.mpr ⟨c.2.toNat * N + c.1.toNat, List.mem_range.mpr ?_, rfl⟩
        have ha : c.2.toNat * N + c.1.toNat < (c.2.toNat + 1) * N := by
          rw [Nat.succ_mul]
          omega
        have hb : (c.2.toNat + 1) * N ≤ M * N := Nat.mul_le_mul_right N hc2
        have h5 : N * M = M * N := Nat.mul_comm N M
        omega
      · show ((((c.2.toNat * N + c.1.toNat) % N : ℕ) : ℤ),
            (((c.2.toNat * N + c.1.toNat) / N : ℕ) : ℤ)) = c
        have hm : (c.2.toNat * N + c.1.toNat) % N = c.1.toNat := by
          rw [Nat.add_comm, Nat.add_mul_mod_self_right, Nat.mod_eq_of_lt hc1]
        have hd : (c.2.toNat * N + c.1.toNat) / N = c.2.toNat := by
          rw [Nat.add_comm, Nat.add_mul_div_right _ _ hNpos, Nat.div_eq_of_lt hc1]
          omega
        rw [hm, hd]
        refine Prod.ext ?_ ?_
        · show ((c.1.toNat : ℕ) : ℤ) = c.1
          exact Int.toNat_of_nonneg h1
        · show ((c.2.toNat : ℕ) : ℤ) = c.2
          exact Int.toNat_of_nonneg h3

/-- Witness for C2 at `N = M = 2`. -/
theorem C2_witness :
    ∃ g : Grid,
      gridInit (gridMesh 2 2) none (gridFaces 2 2) = .ok g ∧
      g.size = (((2 : ℕ) : ℤ), ((2 : ℕ) : ℤ)) ∧
      g.faces.map (fun e => (e.1, e.2.coord))
        = (List.range (2 * 2)).map (fun k => (k, (((k % 2 : ℕ) : ℤ), ((k / 2 : ℕ) : ℤ)))) ∧
      (g.faces.map (fun e => e.2.coord)).Nodup ∧
      (∀ c : ℤ × ℤ, (∃ e ∈ g.faces, e.2.coord = c) ↔
        (0 ≤ c.1 ∧ c.1 < ((2 : ℕ) : ℤ) ∧ 0 ≤ c.2 ∧ c.2 < ((2 : ℕ) : ℤ))) :=
  C2_theorem 2 2 (by decide) (by decide)

/-- C5 (counterexample): a selection containing a non-quad (a triangle) makes
`Grid.__init__` raise the plain `Exception("Selection contains non-quads")`,
which is not a `GridBuildException` of any payload — the claim's single
`GridBuildError` type for both failure modes does not match the source. -/
theorem C5_counterexample :
    gridInit ⟨[⟨0, [0, 1, 2]⟩], fun _ => false⟩ none [⟨0, [0, 1, 2]⟩]
      = .error .nonQuads ∧
    ∀ l, GridInitError.nonQuads ≠ GridInitError.gridBuildException l := by
  constructor
  · rfl
  · intro l h
    exact GridInitError.noConfusion h

/-- Witness for C5 on two disjoint quads (no shared edges): hypotheses
discharged at a concrete mesh. -/
theorem C5_witness :
    ((∃ l, gridInit ⟨[⟨0, [0, 1, 2, 3]⟩, ⟨1, [4, 5, 6, 7]⟩], fun _ => false⟩ none
        [⟨0, [0, 1, 2, 3]⟩, ⟨1, [4, 5, 6, 7]⟩] = .error (.gridBuildException l)) ↔
      ((∀ f ∈ [(⟨0, [0, 1, 2, 3]⟩ : BFace), ⟨1, [4, 5, 6, 7]⟩], f.edges.length = 4) ∧
        ∃ f ∈ [(⟨0, [0, 1, 2, 3]⟩ : BFace), ⟨1, [4, 5, 6, 7]⟩],
          ¬ Reach ⟨[⟨0, [0, 1, 2, 3]⟩, ⟨1, [4, 5, 6, 7]⟩], fun _ => false⟩
            ([(⟨0, [0, 1, 2, 3]⟩ : BFace), ⟨1, [4, 5, 6, 7]⟩].map BFace.index)
            ⟨0, [0, 1, 2, 3]⟩ f)) ∧
    (∀ l, gridInit ⟨[⟨0, [0, 1, 2, 3]⟩, ⟨1, [4, 5, 6, 7]⟩], fun _ => false⟩ none
        [⟨0, [0, 1, 2, 3]⟩, ⟨1, [4, 5, 6, 7]⟩] = .error (.gridBuildException l) →
      ∀ k, k ∈ l ↔ ∃ f ∈ [(⟨0, [0, 1, 2, 3]⟩ : BFace), ⟨1, [4, 5, 6, 7]⟩], f.index = k ∧
        ¬ Reach ⟨[⟨0, [0, 1, 2, 3]⟩, ⟨1, [4, 5, 6, 7]⟩], fun _ => false⟩
          ([(⟨0, [0, 1, 2, 3]⟩ : BFace), ⟨1, [4, 5, 6, 7]⟩].map BFace.index)
          ⟨0, [0, 1, 2, 3]⟩ f) :=
  C5_theorem ⟨[⟨0, [0, 1, 2, 3]⟩, ⟨1, [4, 5, 6, 7]⟩], fun _ => false⟩ none
    [⟨0, [0, 1, 2, 3]⟩, ⟨1, [4, 5, 6, 7]⟩] ⟨0, [0, 1, 2, 3]⟩
    (by decide) (by decide) (by decide) rfl

/-! ### `Grid.fold` (the UV folding pass) -/

/-- A built grid face as `Grid.fold` uses it: its grid coordinate and, for
each direction, the list of loop ids that `get_loops(dir)` yields for the
face.  UV data lives outside the face, as a map from loop id to `(u, v)`
(floats modelled as `ℚ`). -/
structure FoldFace where
  coord : Int × Int
  loops : Direction → List ℕ

/-- One `loop_self[uv_layer].uv.x = loop_other[uv_layer].uv.x` assignment:
the pair `p` is `(self loop id, other loop id)`. -/
def writeX (uv : ℕ → ℚ × ℚ) (p : ℕ × ℕ) : ℕ → ℚ × ℚ :=
  fun l => if l = p.1 then ((uv p.2).1, (uv p.1).2) else uv l

/-- One `loop_self[uv_layer].uv.y = loop_other[uv_layer].uv.y` assignment. -/
def writeY (uv : ℕ → ℚ × ℚ) (p : ℕ × ℕ) : ℕ → ℚ × ℚ :=
  fun l => if l = p.1 then ((uv p.1).1, (uv p.2).2) else uv l

/-- `GridFace.overlay_on(other, uv_layer, flip_x, flip_y)` from `grids.py`:
four sequential `zip` loops; x comes from the west/east loops (swapped when
`flip_x`), y from the south/north loops (swapped when `flip_y`). -/
def overlayOn (selfF otherF : FoldFace) (flipX flipY : Bool) (uv : ℕ → ℚ × ℚ) : ℕ → ℚ × ℚ :=
  ((selfF.loops .north).zip (otherF.loops (if flipY then .south else .north))).foldl writeY
    (((selfF.loops .south).zip (otherF.loops (if flipY then .north else .south))).foldl writeY
      (((selfF.loops .east).zip (otherF.loops (if flipX then .west else .east))).foldl writeX
        (((selfF.loops .west).zip (otherF.loops (if flipX then .east else .west))).foldl
          writeX uv)))

/-- The `by_coord` dict of `Grid.fold`: a dict comprehension keeps the *last*
face written at each coordinate. -/
def byCoord (faces : List FoldFace) (c : Int × Int) : Option FoldFace :=
  faces.reverse.find? (fun g => decide (g.coord = c))

/-- `section_width = ceil(self.size.x / x_sections)` (float division, then
`math.ceil`). -/
def sectionWidth (size : Int × Int) (xSections : Int) : Int :=
  ⌈(size.1 : ℚ) / (xSections : ℚ)⌉

/-- `section_height = ceil(self.size.y / y_sections)`. -/
def sectionHeight (size : Int × Int) (ySections : Int) : Int :=
  ⌈(size.2 : ℚ) / (ySections : ℚ)⌉

/-- `col, tx = divmod(x, section_width)` (Python divmod is floor
division/modulo, `Int.fdiv`/`Int.fmod`). -/
def foldCol (size : Int × Int) (xSections x : Int) : Int :=
  Int.fdiv x (sectionWidth size xSections)

/-- `odd_col = col % 2 != 0`. -/
def foldOddCol (size : Int × Int) (xSections x : Int) : Bool :=
  Int.fmod (foldCol size xSections x) 2 != 0

/-- The target x coordinate: `tx`, reflected when the column is odd and
`alternate` is set. -/
def foldTx (size : Int × Int) (xSections : Int) (alternate : Bool) (x : Int) : Int :=
  if foldOddCol size xSections x && alternate then
    sectionWidth size xSections - Int.fmod x (sectionWidth size xSections) - 1
  else Int.fmod x (sectionWidth size xSections)

def foldRow (size : Int × Int) (ySections y : Int) : Int :=
  Int.fdiv y (sectionHeight size ySections)

def foldOddRow (size : Int × Int) (ySections y : Int) : Bool :=
  Int.fmod (foldRow size ySections y) 2 != 0

def foldTy (size : Int × Int) (ySections : Int) (alternate : Bool) (y : Int) : Int :=
  if foldOddRow size ySections y && alternate then
    sectionHeight size ySections - Int.fmod y (sectionHeight size ySections) - 1
  else Int.fmod y (sectionHeight size ySections)

/-- The per-face body of `Grid.fold`'s loop: compute the target coordinate,
and if it differs from the face's own coordinate and a face exists there,
overlay this face's UVs onto it. -/
def foldStep (faces : List FoldFace) (size : Int × Int) (xSections ySections : Int)
    (alternate : Bool) (u : ℕ → ℚ × ℚ) (gf : FoldFace) : ℕ → ℚ × ℚ :=
  if (foldTx size xSections alternate gf.coord.1,
      foldTy size ySections alternate gf.coord.2) ≠ gf.coord then
    match byCoord faces (foldTx size xSections alternate gf.coord.1,
        foldTy size ySections alternate gf.coord.2) with
    | some target =>
      overlayOn gf target (foldOddCol size xSections gf.coord.1 && alternate)
        (foldOddRow size ySections gf.coord.2 && alternate) u
    | none => u
  else u

/-- The faces and size a `Grid` carries into `fold`. -/
structure FoldGrid where
  faces : List FoldFace
  size : Int × Int

/-- `Grid.fold(uv_layer, x_sections, y_sections, alternate)` from `grids.py`:
one `foldStep` per face, in `self._faces.values()` order, threading the UV
state. -/
def FoldGrid.fold (g : FoldGrid) (xSections ySections : Int) (alternate : Bool)
    (uv : ℕ → ℚ × ℚ) : ℕ → ℚ × ℚ :=
  g.faces.foldl (foldStep g.faces g.size xSections ySections alternate) uv

/-- Membership in section `(0, 0)` for `x_sections = 2, y_sections = 1`:
x below `ceil(size.x / 2)` and y inside the (single) vertical section. -/
def inSection0 (size : Int × Int) (c : Int × Int) : Prop :=
  0 ≤ c.1 ∧ c.1 < sectionWidth size 2 ∧ 0 ≤ c.2 ∧ c.2 < size.2

theorem foldl_writeX_frame (L : List (ℕ × ℕ)) (uv : ℕ → ℚ × ℚ) (l : ℕ)
    (h : ∀ p ∈ L, l ≠ p.1) : (L.foldl writeX uv) l = uv l := by
  refine foldl_preserve (fun (u : ℕ → ℚ × ℚ) => u l = uv l) writeX L uv ?_ rfl
  intro u p hp hu
  show (if l = p.1 then ((u p.2).1, (u p.1).2) else u l) = uv l
  rw [if_neg (h p hp)]
  exact hu

theorem foldl_writeY_frame (L : List (ℕ × ℕ)) (uv : ℕ → ℚ × ℚ) (l : ℕ)
    (h : ∀ p ∈ L, l ≠ p.1) : (L.foldl writeY uv) l = uv l := by
  refine foldl_preserve (fun (u : ℕ → ℚ × ℚ) => u l = uv l) writeY L uv ?_ rfl
  intro u p hp hu
  show (if l = p.1 then ((u p.1).1, (u p.2).2) else u l) = uv l
  rw [if_neg (h p hp)]
  exact hu

/-- `overlay_on` writes only loops of `self`. -/
theorem overlayOn_frame (selfF otherF : FoldFace) (fx fy : Bool) (uv : ℕ → ℚ × ℚ) (l : ℕ)
    (h : ∀ d : Direction, l ∉ selfF.loops d) :
    overlayOn selfF otherF fx fy uv l = uv l := by
  rw [overlayOn]
  have hz : ∀ (d : Direction) (L2 : List ℕ) (p : ℕ × ℕ),
      p ∈ (selfF.loops d).zip L2 → l ≠ p.1 := by
    intro d L2 p hp he
    exact h d (he ▸ (List.of_mem_zip hp).1)
  rw [foldl_writeY_frame _ _ _ (hz .north _), foldl_writeY_frame _ _ _ (hz .south _),
    foldl_writeX_frame _ _ _ (hz .east _), foldl_writeX_frame _ _ _ (hz .west _)]

/-- A face already inside section `(0, 0)` is its own fold target. -/
theorem foldTarget_section0 (size : Int × Int) (c : Int × Int) (hs : inSection0 size c) :
    (foldTx size 2 true c.1, foldTy size 1 true c.2) = c := by
  obtain ⟨hx0, hxw, hy0, hyh⟩ := hs
  have hswpos : 0 < sectionWidth size 2 := by omega
  have hcol : foldCol size 2 c.1 = 0 := by
    rw [foldCol, Int.fdiv_eq_ediv _ (by omega)]
    exact Int.ediv_eq_zero_of_lt hx0 hxw
  have hoc : foldOddCol size 2 c.1 = false := by
    rw [foldOddCol, hcol]
    rfl
  have hmx : Int.fmod c.1 (sectionWidth size 2) = c.1 := by
    rw [Int.fmod_eq_emod _ (by omega)]
    exact Int.emod_eq_of_lt hx0 hxw
  have hsh : sectionHeight size 1 = size.2 := by
    rw [sectionHeight]
    push_cast
    rw [div_one]
    exact Int.ceil_intCast _
  have hrow : foldRow size 1 c.2 = 0 := by
    rw [foldRow, hsh, Int.fdiv_eq_ediv _ (by omega)]
    exact Int.ediv_eq_zero_of_lt hy0 hyh
  have hor : foldOddRow size 1 c.2 = false := by
    rw [foldOddRow, hrow]
    rfl
  have hmy : Int.fmod c.2 (sectionHeight size 1) = c.2 := by
    rw [hsh, Int.fmod_eq_emod _ (by omega)]
    exact Int.emod_eq_of_lt hy0 hyh
  rw [foldTx, foldTy, hoc, hor]
  show (Int.fmod c.1 (sectionWidth size 2), Int.fmod c.2 (sectionHeight size 1)) = c
  rw [hmx, hmy]

/-- C9: for `fold(x_sections=2, y_sections=1, alternate=True)`, a face whose
grid coordinate lies in section `(0, 0)` keeps all its UV coordinates: its
own step is a no-op (its target equals its coordinate), and every face that
does write lies outside section `(0, 0)` and writes only its own loops,
which are disjoint from this face's loops. -/
theorem C9_theorem (g : FoldGrid) (f : FoldFace) (uv : ℕ → ℚ × ℚ)
    (hf : f ∈ g.faces)
    (hsec : inSection0 g.size f.coord)
    (hdisj : ∀ gf ∈ g.faces, ¬ inSection0 g.size gf.coord →
      ∀ d d2 : Direction, ∀ l ∈ gf.loops d, l ∉ f.loops d2) :
    ∀ d : Direction, ∀ l ∈ f.loops d, FoldGrid.fold g 2 1 true uv l = uv l := by
  intro d l hl
  rw [FoldGrid.fold]
  refine foldl_preserve (fun (u : ℕ → ℚ × ℚ) => u l = uv l) _ _ _ ?_ rfl
  intro u gf hgf hu
  rw [foldStep]
  by_cases htc : (foldTx g.size 2 true gf.coord.1, foldTy g.size 1 true gf.coord.2)
      = gf.coord
  · rw [if_neg (by rw [htc]; exact fun hne => hne rfl)]
    exact hu
  · rw [if_pos htc]
    have hnsec : ¬ inSection0 g.size gf.coord := fun hs =>
      htc (foldTarget_section0 g.size gf.coord hs)
    cases hbc : byCoord g.faces (foldTx g.size 2 true gf.coord.1,
        foldTy g.size 1 true gf.coord.2) with
    | none => exact hu
    | some target =>
      show overlayOn gf target (foldOddCol g.size 2 gf.coord.1 && true)
        (foldOddRow g.size 1 gf.coord.2 && true) u l = uv l
      rw [overlayOn_frame]
      · exact hu
      · intro d2 hld2
        exact hdisj gf hgf hnsec d2 d l hld2 hl

/-- A one-face grid of size (2, 1) used to witness the fold frame property. -/
def c9Face : FoldFace :=
  ⟨(0, 0), fun d => match d with
    | .east => [0]
    | .north => [1]
    | .west => [2]
    | .south => [3]⟩

def c9Uv : ℕ → ℚ × ℚ := fun l => ((l : ℚ), 0)

theorem c9Face_section0 : inSection0 ((2 : ℤ), (1 : ℤ)) c9Face.coord := by
  refine ⟨le_refl 0, ?_, le_refl 0, show (0 : ℤ) < 1 by norm_num⟩
  show (0 : ℤ) < sectionWidth ((2 : ℤ), (1 : ℤ)) 2
  rw [sectionWidth]
  norm_num

/-- Witness for C9 on a one-face grid of size (2, 1), at the face's east
loop `0`. -/
theorem C9_witness :
    (0 ∈ c9Face.loops Direction.east) ∧
    FoldGrid.fold ⟨[c9Face], ((2 : ℤ), (1 : ℤ))⟩ 2 1 true c9Uv 0 = c9Uv 0 :=
  ⟨List.mem_singleton.mpr rfl,
    C9_theorem ⟨[c9Face], ((2 : ℤ), (1 : ℤ))⟩ c9Face c9Uv (List.mem_cons_self _ _)
      c9Face_section0
      (by
        intro gf hgf hns
        rw [List.mem_singleton] at hgf
        subst hgf
        exact absurd c9Face_section0 hns)
      Direction.east 0 (List.mem_singleton.mpr rfl)⟩

end PixelUnwrapper
